import Mathlib

/-!
# AmdMsrTweaker: `Worker.cpp`

A shallow embedding of `Worker::ParseParams` and `Worker::ApplyChanges`.

* C strings (`std::string`, `const char*`) are lists of characters.
* `int` values are integers; the only place where an `int` can leave its range is
  `atoi`, where ISO C leaves the result undefined.  The definition saturates the way the
  Microsoft C runtime documents it (the file is Windows code: `_stricmp`,
  `SetPriorityClass`, `GetSystemInfo`); the theorems that decode the decimal text of a
  number `N` assume `INT_MIN <= N <= INT_MAX`, so they do not depend on that choice.
* `double` values are exact rationals: `atof` gives the exact value of the decimal
  text and `*`, `>=`, `!=` are exact.  Rounding, infinities and NaN are outside the
  model.
* `std::vector::operator[]` outside the vector is undefined behaviour; reads that the
  code does not guard return `none`.
* The hardware and operating-system calls are recorded in a trace, and a `Machine`
  answers the reads.
-/

namespace AmdMsrTweaker

/-! ## C library -/

/-- The `tolower` of the "C" locale. -/
def tolower (c : Char) : Char :=
  if 65 ≤ c.toNat ∧ c.toNat ≤ 90 then Char.ofNat (c.toNat + 32) else c

/-- The `isspace` of the "C" locale: space, `\t`, `\n`, `\v`, `\f`, `\r`. -/
def isspace (c : Char) : Bool :=
  c.toNat = 32 || (9 ≤ c.toNat && c.toNat ≤ 13)

/-- The `isdigit` of C. -/
def isdigit (c : Char) : Bool :=
  48 ≤ c.toNat && c.toNat ≤ 57

def INT_MAX : Int := 2147483647

def INT_MIN : Int := -2147483648

/-- Value of a string of decimal digits, most significant first. -/
def digitsValue (ds : List Char) : Nat :=
  ds.foldl (fun acc c => 10 * acc + (c.toNat - 48)) 0

/-- Splits an optional sign off the front of a numeral: `(isNegative, rest)`. -/
def takeSign : List Char → Bool × List Char
  | '-' :: r => (true, r)
  | '+' :: r => (false, r)
  | r => (false, r)

/-- C `atoi`: skips white space, reads an optional sign and the longest run of decimal
digits, ignores what follows, and gives 0 when there is no digit.  For a number outside the
range of `int` ISO C leaves the result undefined; the definition gives `INT_MAX` or
`INT_MIN`, as the Microsoft C runtime documents, and the theorems on decimal indexes and
flag values are stated for numbers inside the range of `int`, where no runtime differs. -/
def atoi (s : List Char) : Int :=
  let (neg, r) := takeSign (s.dropWhile isspace)
  let n : Int := (digitsValue (r.takeWhile isdigit) : Nat)
  let v : Int := if neg then -n else n
  max INT_MIN (min INT_MAX v)

/-- Exponent part of a floating literal: `e` or `E`, an optional sign and at least one
digit; 0 when there is none. -/
def atofExponent : List Char → Int
  | c :: r =>
    if c = 'e' ∨ c = 'E' then
      let (neg, r1) := takeSign r
      let ds := r1.takeWhile isdigit
      if ds = [] then 0 else if neg then -(digitsValue ds : Nat) else (digitsValue ds : Nat)
    else 0
  | [] => 0

/-- C `atof` on decimal text, with the exact rational value for the `double`: white
space, optional sign, integer digits, optional `.` and fraction digits, optional
exponent.  Text without a digit in the mantissa gives 0. -/
def atof (s : List Char) : ℚ :=
  let (neg, r) := takeSign (s.dropWhile isspace)
  let ip := r.takeWhile isdigit
  let r1 := r.dropWhile isdigit
  let fp := match r1 with
    | '.' :: r2 => r2.takeWhile isdigit
    | _ => []
  let r3 := match r1 with
    | '.' :: r2 => r2.dropWhile isdigit
    | _ => r1
  if ip = [] ∧ fp = [] then 0
  else
    let mant : ℚ := (digitsValue (ip ++ fp) : Nat) / (10 : ℚ) ^ fp.length
    let v : ℚ := mant * (10 : ℚ) ^ (atofExponent r3)
    if neg then -v else v

/-- The `std::string::find(char)`: position of the first occurrence, `none` for `npos`. -/
def find (str : List Char) (c : Char) : Option Nat :=
  if str.indexOf c < str.length then some (str.indexOf c) else none

/-- Case-insensitive comparison `_stricmp(a, b) == 0`. -/
def stricmpEq (a b : List Char) : Bool :=
  a.map tolower = b.map tolower

/-- Case-insensitive comparison of at most `count` characters,
`_strnicmp(a, b, count) == 0`. -/
def strnicmpEq (a b : List Char) (count : Nat) : Bool :=
  (a.take count).map tolower = (b.take count).map tolower

/-! ## Data model (`Info.h`, `Worker.h`) -/

/-- Modelled from the spec: the declaration of `PStateInfo` (`Info.h`) is not among the
sources.  One entry of the P-state table; `Multi` is a `double`, the others are `int`. -/
structure PStateInfo where
  Index : Int
  Multi : ℚ
  VID : Int
  NBPState : Int
  NBVID : Int
deriving DecidableEq

/-- Modelled from the spec: the declaration of `NBPStateInfo` (`Info.h`) is not among
the sources.  One entry of the northbridge P-state table. -/
structure NBPStateInfo where
  Index : Int
  Multi : ℚ
  VID : Int
deriving DecidableEq

/-- Modelled from the spec: the capability descriptor part of class `Info` (`Info.h`),
not among the sources.  Only the members `Worker.cpp` reads are kept. -/
structure Info where
  Family : Int
  NumPStates : Int
  NumNBPStates : Int
  NumBoostStates : Int
  IsBoostSupported : Bool
  multiScaleFactor : ℚ
  EncodeVID : ℚ → Int

/-- Modelled from the spec: the data members of class `Worker` (`Worker.h`), not among
the sources. -/
structure Worker where
  _pStates : List PStateInfo
  _nbPStates : List NBPStateInfo
  _turbo : Int
  _apm : Int
  _pState : Int
deriving DecidableEq

/-- Modelled from the spec: the constructor of `Worker` (`Worker.h`), not among the
sources: empty tables and the three scalars unset (-1). -/
def Worker.new : Worker :=
  { _pStates := [], _nbPStates := [], _turbo := -1, _apm := -1, _pState := -1 }

/-! ## `SplitPair` and `Worker::ParseParams` -/

/-- `SplitPair(left, right, str, delimiter)`, returning `(left, right)`. -/
def SplitPair (str : List Char) (delimiter : Char) : List Char × List Char :=
  match find str delimiter with
  | none => (str, [])
  | some i => (str.take i, str.drop (i + 1))

/-- Lines 66-77: a parameter with an empty value. -/
def parseBare (info : Info) (w : Worker) (param : List Char) : Option Worker :=
  if 2 ≤ param.length ∧ param.head?.map tolower = some 'p' then
    if 0 ≤ atoi (param.drop 1) ∧ atoi (param.drop 1) < info.NumPStates then
      some { w with _pState := atoi (param.drop 1) }
    else none
  else none

/-- Lines 80-95: `P<index>=<multi>@<vid>`. -/
def parsePState (info : Info) (w : Worker) (key value : List Char) : Option Worker :=
  if 2 ≤ key.length ∧ key.head?.map tolower = some 'p' then
    if 0 ≤ atoi (key.drop 1) ∧ atoi (key.drop 1) < info.NumPStates then
      let index := atoi (key.drop 1)
      let multi := (SplitPair value '@').1
      let vid := (SplitPair value '@').2
      let w1 := if multi ≠ [] then
          { w with
            _pStates := List.modify
              (fun p => { p with Multi := info.multiScaleFactor * atof multi })
              index.toNat w._pStates }
        else w
      let w2 := if vid ≠ [] then
          { w1 with
            _pStates := List.modify
              (fun p => { p with VID := info.EncodeVID (atof vid) }) index.toNat w1._pStates }
        else w1
      some w2
    else none
  else none

/-- Lines 97-112: `NB_P<index>=<multi>@<vid>`. -/
def parseNBPState (info : Info) (w : Worker) (key value : List Char) : Option Worker :=
  if 5 ≤ key.length ∧ strnicmpEq key ['N', 'B', '_', 'P'] 4 then
    if 0 ≤ atoi (key.drop 4) ∧ atoi (key.drop 4) < info.NumNBPStates then
      let index := atoi (key.drop 4)
      let multi := (SplitPair value '@').1
      let vid := (SplitPair value '@').2
      let w1 := if multi ≠ [] then
          { w with
            _nbPStates := List.modify
              (fun p => { p with Multi := atof multi }) index.toNat w._nbPStates }
        else w
      let w2 := if vid ≠ [] then
          { w1 with
            _nbPStates := List.modify
              (fun p => { p with VID := info.EncodeVID (atof vid) }) index.toNat w1._nbPStates }
        else w1
      some w2
    else none
  else none

/-- The two loops of lines 118-122 on the table: entries `j < min(index, NumPStates)` get
`NBPState = 0`, the following entries up to `NumPStates` get `NBPState = 1`. -/
def assignNBLow (info : Info) (index : Int) (ps : List PStateInfo) : List PStateInfo :=
  let lo := (min index info.NumPStates).toNat
  let ps1 := (List.range' 0 lo).foldl
    (fun t j => t.modify (fun p => { p with NBPState := 0 }) j) ps
  (List.range' lo (info.NumPStates.toNat - lo)).foldl
    (fun t j => t.modify (fun p => { p with NBPState := 1 }) j) ps1

/-- Lines 114-125: `NB_low=<index>`. -/
def parseNBLow (info : Info) (w : Worker) (key value : List Char) : Option Worker :=
  if stricmpEq key ['N', 'B', '_', 'l', 'o', 'w'] then
    some { w with _pStates := assignNBLow info (atoi value) w._pStates }
  else none

/-- Lines 127-135: `Turbo=<flag>`. -/
def parseTurbo (w : Worker) (key value : List Char) : Option Worker :=
  if stricmpEq key ['T', 'u', 'r', 'b', 'o'] then
    if atoi value = 0 ∨ atoi value = 1 then some { w with _turbo := atoi value } else none
  else none

/-- Lines 137-145: `APM=<flag>`. -/
def parseAPM (w : Worker) (key value : List Char) : Option Worker :=
  if stricmpEq key ['A', 'P', 'M'] then
    if atoi value = 0 ∨ atoi value = 1 then some { w with _apm := atoi value } else none
  else none

/-- One iteration of the loop of lines 59-150 on `param`: `some` when an inner branch
reaches its `continue`, `none` when control reaches the error report of line 148. -/
def parseParam (info : Info) (w : Worker) (param : List Char) : Option Worker :=
  let (key, value) := SplitPair param '='
  if value = [] then parseBare info w param
  else
    (parsePState info w key value).orElse fun _ =>
    (parseNBPState info w key value).orElse fun _ =>
    (parseNBLow info w key value).orElse fun _ =>
    (parseTurbo w key value).orElse fun _ =>
    parseAPM w key value

/-- The loop of lines 59-152 over `argv[1..]`: the return value and the worker. -/
def parseLoop (info : Info) : Worker → List (List Char) → Bool × Worker
  | w, [] => (true, w)
  | w, param :: rest =>
    match parseParam info w param with
    | none => (false, w)
    | some w1 => parseLoop info w1 rest

/-- Lines 41-57: the unset entries pushed onto the two tables. -/
def initTables (info : Info) (w : Worker) : Worker :=
  { w with
    _pStates := w._pStates ++ (List.range info.NumPStates.toNat).map fun i =>
      { Index := i, Multi := -1, VID := -1, NBPState := -1, NBVID := -1 },
    _nbPStates := w._nbPStates ++ (List.range info.NumNBPStates.toNat).map fun i =>
      { Index := i, Multi := -1, VID := -1 } }

/-- `Worker::ParseParams(argc, argv)` with `argc = argv.length`; `argv[0]` is skipped. -/
def ParseParams (info : Info) (w : Worker) (argv : List (List Char)) : Bool × Worker :=
  parseLoop info (initTables info w) (argv.drop 1)

/-! ## `ContainsChanges` and `Worker::ApplyChanges` -/

/-- `ContainsChanges(const PStateInfo&)`. -/
def ContainsChanges (info : PStateInfo) : Bool :=
  decide (0 ≤ info.Multi) || decide (0 ≤ info.VID) || decide (0 ≤ info.NBVID) ||
    decide (0 ≤ info.NBPState)

/-- `ContainsChanges(const NBPStateInfo&)`. -/
def ContainsChangesNB (info : NBPStateInfo) : Bool :=
  decide (0 ≤ info.Multi) || decide (0 ≤ info.VID)

/-- The calls `ApplyChanges` makes into the register-access layer (`Info`) and the
operating system, with their arguments.  `SwitchTo` stands for the affinity change of
`SwitchTo(logicalCPUIndex)`; `SetPriorityClass true` is `REALTIME_PRIORITY_CLASS` and
`SetPriorityClass false` is `NORMAL_PRIORITY_CLASS`; `SetThreadPriority true` is
`THREAD_PRIORITY_HIGHEST` and `SetThreadPriority false` is `THREAD_PRIORITY_NORMAL`. -/
inductive Call where
  | WriteNBPState (info : NBPStateInfo)
  | ReadPState (index : Int)
  | SetBoostSource (enabled : Bool)
  | SetAPM (enabled : Bool)
  | GetSystemInfo
  | SetPriorityClass (realtime : Bool)
  | SetThreadPriority (highest : Bool)
  | SwitchTo (logicalCPUIndex : Int)
  | WritePState (info : PStateInfo)
  | SetCPBDis (enabled : Bool)
  | GetCurrentPState
  | SetCurrentPState (index : Int)
  | Sleep (ms : Nat)
deriving DecidableEq

/-- Modelled from the spec: the register-access layer and the operating system, which
are not among the sources.  `σ` is the state of the machine, the three reads are
answered from it, and `exec` is the effect of a call on it. -/
structure Machine (σ : Type) where
  ReadPState : σ → Int → PStateInfo
  GetCurrentPState : σ → Int
  dwNumberOfProcessors : σ → Nat
  exec : σ → Call → σ

/-- Machine state together with the calls made so far, oldest first. -/
structure Sys (σ : Type) where
  hw : σ
  trace : List Call
deriving DecidableEq

/-- Makes one call: its effect on the machine, and its record in the trace. -/
def emit {σ : Type} (m : Machine σ) (s : Sys σ) (c : Call) : Sys σ :=
  { hw := m.exec s.hw c, trace := s.trace ++ [c] }

/-- The unchecked `operator[]` of `std::vector` with an `int` index: `none` outside the
table. -/
def getInt? {α : Type} (l : List α) (i : Int) : Option α :=
  if 0 ≤ i then l[i.toNat]? else none

/-- Lines 181-186: the northbridge table writes of family 0x15. -/
def writeNBPStates {σ : Type} (m : Machine σ) (w : Worker) (s : Sys σ) : Sys σ :=
  w._nbPStates.foldl
    (fun s nbpsi => if ContainsChangesNB nbpsi then emit m s (.WriteNBPState nbpsi) else s) s

/-- Lines 192-199: one iteration of the family 0x10 loop, on entry `i`. -/
def deriveNBVID {σ : Type} (m : Machine σ) (ws : Worker × Sys σ) (i : Nat) :
    Option (Worker × Sys σ) :=
  match ws.1._pStates[i]? with
  | none => none
  | some psi =>
    let r : Int × Sys σ :=
      if 0 ≤ psi.NBPState then (psi.NBPState, ws.2)
      else ((m.ReadPState ws.2.hw i).NBPState, emit m ws.2 (.ReadPState i))
    match getInt? ws.1._nbPStates r.1 with
    | none => none
    | some nbpsi =>
      if 0 ≤ nbpsi.VID then
        some ({ ws.1 with _pStates := ws.1._pStates.set i { psi with NBVID := nbpsi.VID } }, r.2)
      else some (ws.1, r.2)

/-- The condition of line 188 after the family test, with the short circuit of `||`:
`_nbPStates[1]` is read only when `_nbPStates[0].VID` is negative. -/
def anyNBVID (w : Worker) : Option Bool :=
  match w._nbPStates[0]? with
  | none => none
  | some nb0 =>
    if 0 ≤ nb0.VID then some true
    else
      match w._nbPStates[1]? with
      | none => none
      | some nb1 => some (decide (0 ≤ nb1.VID))

/-- Lines 179-201: the northbridge part of `ApplyChanges`. -/
def applyNorthbridge {σ : Type} (m : Machine σ) (info : Info) (w : Worker) (s : Sys σ) :
    Option (Worker × Sys σ) :=
  if info.Family = 0x15 then some (w, writeNBPStates m w s)
  else if info.Family = 0x10 then
    match anyNBVID w with
    | none => none
    | some false => some (w, s)
    | some true => (List.range w._pStates.length).foldlM (deriveNBVID m) (w, s)
  else some (w, s)

/-- Lines 241-246: the P-state table writes on the current core. -/
def writePStates {σ : Type} (m : Machine σ) (w : Worker) (s : Sys σ) : Sys σ :=
  w._pStates.foldl
    (fun s psi => if ContainsChanges psi then emit m s (.WritePState psi) else s) s

/-- Lines 239-249: one iteration of the first per-core loop. -/
def writeCore {σ : Type} (m : Machine σ) (info : Info) (w : Worker) (s : Sys σ) (j : Nat) :
    Sys σ :=
  let s1 := writePStates m w (emit m s (.SwitchTo j))
  if 0 ≤ w._turbo ∧ info.IsBoostSupported then emit m s1 (.SetCPBDis (w._turbo = 1)) else s1

/-- Lines 254-270: one iteration of the second per-core loop. -/
def switchCore {σ : Type} (m : Machine σ) (info : Info) (w : Worker) (s : Sys σ) (j : Nat) :
    Option (Sys σ) :=
  let s1 := emit m s (.SwitchTo j)
  let currentPState := m.GetCurrentPState s1.hw
  let s2 := emit m s1 .GetCurrentPState
  let newPState := if 0 ≤ w._pState then w._pState else currentPState
  if newPState ≠ currentPState then some (emit m s2 (.SetCurrentPState newPState))
  else
    match getInt? w._pStates currentPState with
    | none => none
    | some psi =>
      if ContainsChanges psi then
        let tempPState := if currentPState = info.NumPStates - 1 then 0 else info.NumPStates - 1
        some (emit m (emit m (emit m s2 (.SetCurrentPState tempPState)) (.Sleep 1))
          (.SetCurrentPState currentPState))
      else some s2

/-- Lines 221-276: `ApplyChanges` after the safety check. -/
def applyPrimary {σ : Type} (m : Machine σ) (info : Info) (w : Worker) (s : Sys σ) :
    Option (Sys σ) :=
  let s1 := if 0 ≤ w._turbo ∧ info.IsBoostSupported then
      emit m s (.SetBoostSource (w._turbo = 1)) else s
  let s2 := if 0 ≤ w._apm ∧ info.Family = 0x15 then emit m s1 (.SetAPM (w._apm = 1)) else s1
  let numLogicalCPUs := m.dwNumberOfProcessors s2.hw
  let s3 := emit m s2 .GetSystemInfo
  let s4 := emit m (emit m s3 (.SetPriorityClass true)) (.SetThreadPriority true)
  let s5 := (List.range numLogicalCPUs).foldl (writeCore m info w) s4
  match (List.range numLogicalCPUs).foldlM (switchCore m info w) s5 with
  | none => none
  | some s6 => some (emit m (emit m s6 (.SetThreadPriority false)) (.SetPriorityClass false))

/-- `Worker::ApplyChanges(allowHighestNonBoostChange)` on the machine state `hw`: the
return value, the worker and the machine with the calls made; `none` when a table is
read outside its bounds. -/
def ApplyChanges {σ : Type} (m : Machine σ) (info : Info) (w : Worker)
    (allowHighestNonBoostChange : Bool) (hw : σ) : Option (Bool × Worker × Sys σ) :=
  match applyNorthbridge m info w { hw := hw, trace := [] } with
  | none => none
  | some (w1, s1) =>
    let highestNonBoostIndex := info.NumBoostStates
    let highestNonBoost := m.ReadPState s1.hw highestNonBoostIndex
    let s2 := emit m s1 (.ReadPState highestNonBoostIndex)
    match getInt? w1._pStates highestNonBoostIndex with
    | none => none
    | some requested =>
      if requested.Multi ≠ highestNonBoost.Multi ∧ allowHighestNonBoostChange = false then
        some (false, w1, s2)
      else
        match applyPrimary m info w1 s2 with
        | none => none
        | some s3 => some (true, w1, s3)

/-! ## A concrete machine and concrete capability descriptors for the examples -/

/-- State of the example machine: the live P-state table, the active P-state and the
number of logical processors. -/
structure SimHw where
  pStates : List PStateInfo
  current : Int
  cpus : Nat
deriving DecidableEq

/-- The example machine: `WritePState` replaces the table entry of that index,
`SetCurrentPState` changes the active P-state, the other calls leave the state alone. -/
def simMachine : Machine SimHw where
  ReadPState hw i := (getInt? hw.pStates i).getD
    { Index := i, Multi := 0, VID := 0, NBPState := 0, NBVID := 0 }
  GetCurrentPState hw := hw.current
  dwNumberOfProcessors hw := hw.cpus
  exec hw c :=
    match c with
    | .WritePState p => { hw with pStates := hw.pStates.modify (fun _ => p) p.Index.toNat }
    | .SetCurrentPState i => { hw with current := i }
    | _ => hw

/-- Example capability descriptor: family 0x15, `numP` P-states, two northbridge
P-states, no boost states, scale factor 1 and `EncodeVID v = round (v * 100)`. -/
def simInfo (numP : Int) : Info :=
  { Family := 0x15, NumPStates := numP, NumNBPStates := 2, NumBoostStates := 0,
    IsBoostSupported := true, multiScaleFactor := 1, EncodeVID := fun v => round (v * 100) }

/-- Example machine state: two P-states with live multipliers 20 and 10, P-state 0
active, one logical processor. -/
def simHw : SimHw :=
  { pStates := [{ Index := 0, Multi := 20, VID := 30, NBPState := 0, NBVID := 0 },
                { Index := 1, Multi := 10, VID := 40, NBPState := 0, NBVID := 0 }],
    current := 0, cpus := 1 }

/-! ## Predicates on calls -/

/-- Calls of the northbridge part: `WriteNBPState` and `ReadPState`. -/
def Call.isNorthbridgeStep : Call → Bool
  | .WriteNBPState _ => true
  | .ReadPState _ => true
  | _ => false

/-- Primary P-state and global-feature writes: `WritePState`, `SetCurrentPState`,
`SetBoostSource`, `SetCPBDis` and `SetAPM`. -/
def Call.isPrimaryWrite : Call → Bool
  | .WritePState _ => true
  | .SetCurrentPState _ => true
  | .SetBoostSource _ => true
  | .SetCPBDis _ => true
  | .SetAPM _ => true
  | _ => false

/-- The worker after `P0=22` on two P-states. -/
def workerP0 : Worker :=
  (ParseParams (simInfo 2) Worker.new [[], ['P', '0', '=', '2', '2']]).2

/-! ## Decimal text of the directives -/

/-- Decimal text of a natural number, as printed by `Nat.repr`. -/
def decimal (n : Nat) : List Char :=
  Nat.toDigits 10 n

/-- Decimal text of an integer: a minus sign for a negative value, no sign otherwise. -/
def intDecimal (z : Int) : List Char :=
  if z < 0 then '-' :: decimal z.natAbs else decimal z.toNat

/-- Text of a value `<multi>[@<vid>]`. -/
def valueText (multi : List Char) (vid : Option (List Char)) : List Char :=
  match vid with
  | none => multi
  | some v => multi ++ '@' :: v

/-! ## The directive grammar of the specification -/

/-- Text of a decimal index: one or more digits. -/
def isIndexText (s : List Char) : Bool :=
  s ≠ [] && s.all isdigit

/-- Text of a decimal index `N` with `N < bound`. -/
def indexInRange (s : List Char) (bound : Int) : Bool :=
  isIndexText s && decide ((digitsValue s : Int) < bound)

/-- Text of a decimal integer: digits, with an optional minus sign in front. -/
def isIntegerText (s : List Char) : Bool :=
  match s with
  | '-' :: r => isIndexText r
  | r => isIndexText r

/-- The directive grammar in the words of the specification (section 4.1): bare `P<N>`,
`P<N>=<multi>[@<vid>]`, `NB_P<N>=<multi>[@<vid>]`, `NB_low=<N>`, `Turbo=0|1`, `APM=0|1`, keys
in any letter case, `<N>` of `P` and `NB_P` a decimal index in range.  The texts of
`<multi>` and `<vid>` are left free. -/
def specDirective (info : Info) (d : List Char) : Bool :=
  match find d '=' with
  | none =>
    match d with
    | c :: n => (c = 'P' || c = 'p') && indexInRange n info.NumPStates
    | [] => false
  | some i =>
    (match d.take i with
      | c :: n => (c = 'P' || c = 'p') && indexInRange n info.NumPStates
      | [] => false) ||
    (stricmpEq ((d.take i).take 4) ['N', 'B', '_', 'P'] &&
      indexInRange ((d.take i).drop 4) info.NumNBPStates) ||
    (stricmpEq (d.take i) ['N', 'B', '_', 'l', 'o', 'w'] && isIntegerText (d.drop (i + 1))) ||
    (stricmpEq (d.take i) ['T', 'u', 'r', 'b', 'o'] &&
      (d.drop (i + 1) = ['0'] || d.drop (i + 1) = ['1'])) ||
    (stricmpEq (d.take i) ['A', 'P', 'M'] &&
      (d.drop (i + 1) = ['0'] || d.drop (i + 1) = ['1']))

/-! ## Which directive assigns which field -/

/-- Key of a directive: the text before the first `=`, all of it without `=`. -/
def keyOf (d : List Char) : List Char :=
  (SplitPair d '=').1

/-- Value of a directive: the text after the first `=`, empty without `=`. -/
def valueOf (d : List Char) : List Char :=
  (SplitPair d '=').2

/-- The value has a non-empty `<multi>`: text before the first `@`. -/
def givesMulti (d : List Char) : Prop :=
  (SplitPair (valueOf d) '@').1 ≠ []

/-- The value has a non-empty `<vid>`: text after the first `@`. -/
def givesVid (d : List Char) : Prop :=
  (SplitPair (valueOf d) '@').2 ≠ []

/-- A directive with an empty value that starts with `p` or `P`. -/
def namesTarget (d : List Char) : Prop :=
  valueOf d = [] ∧ d.head?.map tolower = some 'p'

/-- A directive with a value whose key starts with `p` or `P` and whose index text
decodes to `i`. -/
def namesPState (i : Nat) (d : List Char) : Prop :=
  valueOf d ≠ [] ∧ (keyOf d).head?.map tolower = some 'p' ∧ atoi ((keyOf d).drop 1) = (i : Int)

/-- A directive with a value whose key starts with `NB_P` (any letter case) and whose index
text decodes to `i`. -/
def namesNBPState (i : Nat) (d : List Char) : Prop :=
  valueOf d ≠ [] ∧ ((keyOf d).take 4).map tolower = ['n', 'b', '_', 'p'] ∧
    atoi ((keyOf d).drop 4) = (i : Int)

/-- A directive with a value and the key `NB_low` (any letter case). -/
def namesNBLow (d : List Char) : Prop :=
  valueOf d ≠ [] ∧ (keyOf d).map tolower = ['n', 'b', '_', 'l', 'o', 'w']

/-- A directive with a value and the key `Turbo` (any letter case). -/
def namesTurbo (d : List Char) : Prop :=
  valueOf d ≠ [] ∧ (keyOf d).map tolower = ['t', 'u', 'r', 'b', 'o']

/-- A directive with a value and the key `APM` (any letter case). -/
def namesAPM (d : List Char) : Prop :=
  valueOf d ≠ [] ∧ (keyOf d).map tolower = ['a', 'p', 'm']

/-- Frame of entry `i` of the P-state table with respect to the directives `M`: a field
other than -1 comes from a directive of `M` that names it, and `NBVID` is -1. -/
def PEntryFrame (M : List Char → Prop) (i : Nat) (p : PStateInfo) : Prop :=
  (p.Multi ≠ -1 → ∃ d, M d ∧ namesPState i d ∧ givesMulti d) ∧
  (p.VID ≠ -1 → ∃ d, M d ∧ namesPState i d ∧ givesVid d) ∧
  (p.NBPState ≠ -1 → ∃ d, M d ∧ namesNBLow d) ∧
  p.NBVID = -1

/-- Frame of entry `i` of the northbridge table with respect to the directives `M`. -/
def NBEntryFrame (M : List Char → Prop) (i : Nat) (p : NBPStateInfo) : Prop :=
  (p.Multi ≠ -1 → ∃ d, M d ∧ namesNBPState i d ∧ givesMulti d) ∧
  (p.VID ≠ -1 → ∃ d, M d ∧ namesNBPState i d ∧ givesVid d)

/-- Frame of a worker with respect to the directives `M`: every field that is not unset
(-1) comes from a directive of `M` that names it. -/
def Frame (M : List Char → Prop) (w : Worker) : Prop :=
  (∀ (i : Nat) (p : PStateInfo), w._pStates[i]? = some p → PEntryFrame M i p) ∧
  (∀ (i : Nat) (p : NBPStateInfo), w._nbPStates[i]? = some p → NBEntryFrame M i p) ∧
  (w._pState ≠ -1 → ∃ d, M d ∧ namesTarget d) ∧
  (w._turbo ≠ -1 → ∃ d, M d ∧ namesTurbo d) ∧
  (w._apm ≠ -1 → ∃ d, M d ∧ namesAPM d)

/-- The bare form `P<N>` of the specification: `P` or `p` and a decimal index, no `=`. -/
def isBareTargetText (d : List Char) : Bool :=
  match d with
  | c :: n => (c = 'P' || c = 'p') && isIndexText n
  | [] => false

/-- The form `P<N>=...` of the specification for the index `i`: `P` or `p`, the decimal
text of `i`, and `=`. -/
def isPStateText (i : Nat) (d : List Char) : Bool :=
  match find d '=' with
  | none => false
  | some j =>
    match d.take j with
    | c :: n => (c = 'P' || c = 'p') && isIndexText n && decide (digitsValue n = i)
    | [] => false

/-! ## The call trace of `ApplyChanges` in the words of the specification -/

/-- Step 4: the global boost-source and power-feature writes. -/
def globalCalls (info : Info) (w : Worker) : List Call :=
  (if 0 ≤ w._turbo ∧ info.IsBoostSupported then [Call.SetBoostSource (w._turbo = 1)] else []) ++
  (if 0 ≤ w._apm ∧ info.Family = 0x15 then [Call.SetAPM (w._apm = 1)] else [])

/-- The per-core boost-disable write of step 6, made when the boost flag is set and boost
is supported. -/
def boostDisableCalls (info : Info) (w : Worker) : List Call :=
  if 0 ≤ w._turbo ∧ info.IsBoostSupported then [Call.SetCPBDis (w._turbo = 1)] else []

/-- Step 6 on unit `j`: bind the affinity, write every P-state entry that has a
non-negative field, in ascending index order, then the optional boost-disable write. -/
def tableWriteCalls (info : Info) (w : Worker) (j : Nat) : List Call :=
  Call.SwitchTo j ::
    ((w._pStates.filter ContainsChanges).map Call.WritePState ++ boostDisableCalls info w)

/-- The P-state used for the re-latch: the last one, or 0 when the current one is the
last. -/
def relatchPState (info : Info) (c : Int) : Int :=
  if c = info.NumPStates - 1 then 0 else info.NumPStates - 1

/-- Step 7 for the active index `c`: a direct switch when the target is set and differs
from `c`; otherwise, when entry `c` has a non-negative field, a switch to the re-latch
P-state, the settling delay and a switch back; otherwise nothing. -/
def selectCalls (info : Info) (w : Worker) (c : Int) : List Call :=
  if 0 ≤ w._pState ∧ w._pState ≠ c then [Call.SetCurrentPState w._pState]
  else
    match getInt? w._pStates c with
    | some psi =>
      if ContainsChanges psi then
        [Call.SetCurrentPState (relatchPState info c), Call.Sleep 1, Call.SetCurrentPState c]
      else []
    | none => []

/-- Step 7 on unit `j` whose active index is `c`: bind the affinity, read the active
index, then the selection calls. -/
def activeStateCalls (info : Info) (w : Worker) (jc : Nat × Int) : List Call :=
  Call.SwitchTo jc.1 :: Call.GetCurrentPState :: selectCalls info w jc.2

/-- Steps 4 to 7 with the priority raise and restore, over `n` units whose active indexes
are `cs`. -/
def primaryCalls (info : Info) (w : Worker) (n : Nat) (cs : List Int) : List Call :=
  globalCalls info w ++
  [Call.GetSystemInfo, Call.SetPriorityClass true, Call.SetThreadPriority true] ++
  (List.range n).flatMap (tableWriteCalls info w) ++
  ((List.range n).zip cs).flatMap (activeStateCalls info w) ++
  [Call.SetThreadPriority false, Call.SetPriorityClass false]

/-- The preconditions under which every table read of `ApplyChanges` is inside its table:
the boost-state count and every live active index are indexes of the P-state table, and on
family 0x10 the northbridge table has two entries and holds every requested and every
live northbridge association. -/
def TablesInBounds {σ : Type} (m : Machine σ) (info : Info) (w : Worker) : Prop :=
  (0 ≤ info.NumBoostStates ∧ info.NumBoostStates < w._pStates.length) ∧
  (∀ hw : σ, 0 ≤ m.GetCurrentPState hw ∧ m.GetCurrentPState hw < w._pStates.length) ∧
  (info.Family = 0x10 →
    2 ≤ w._nbPStates.length ∧
    (∀ p ∈ w._pStates, p.NBPState < w._nbPStates.length) ∧
    (∀ (hw : σ) (i : Int), 0 ≤ (m.ReadPState hw i).NBPState ∧
      (m.ReadPState hw i).NBPState < w._nbPStates.length))

/-! ## The voltage derivation of family 0x10 in the words of the specification -/

/-- The northbridge index resolved for P-state entry `i`: the requested association when
it is set, otherwise the association read live for that P-state. -/
def resolveNB {σ : Type} (m : Machine σ) (hw : σ) (i : Nat) (p : PStateInfo) : Int :=
  if 0 ≤ p.NBPState then p.NBPState else (m.ReadPState hw i).NBPState

/-- Entry `i` after the derivation: `NBVID` becomes the voltage of the resolved
northbridge entry when that voltage is set, and stays otherwise; `none` when the resolved
index is outside the northbridge table. -/
def derivedEntry {σ : Type} (m : Machine σ) (hw : σ) (nbs : List NBPStateInfo) (i : Nat)
    (p : PStateInfo) : Option PStateInfo :=
  match getInt? nbs (resolveNB m hw i p) with
  | none => none
  | some nb => some (if 0 ≤ nb.VID then { p with NBVID := nb.VID } else p)

/-- `ReadPState` calls. -/
def Call.isReadPState : Call → Bool
  | .ReadPState _ => true
  | _ => false

/-! ## More predicates on calls, and the process priority -/

/-- The calls that write hardware state: `WritePState`, `WriteNBPState`, `SetBoostSource`,
`SetCPBDis`, `SetAPM` and `SetCurrentPState`. -/
def Call.isWrite : Call → Bool
  | .WritePState _ => true
  | .WriteNBPState _ => true
  | .SetBoostSource _ => true
  | .SetCPBDis _ => true
  | .SetAPM _ => true
  | .SetCurrentPState _ => true
  | _ => false

/-- `WritePState` calls. -/
def Call.isWritePState : Call → Bool
  | .WritePState _ => true
  | _ => false

/-- `SetCPBDis` calls. -/
def Call.isSetCPBDis : Call → Bool
  | .SetCPBDis _ => true
  | _ => false

/-- `SetBoostSource` calls. -/
def Call.isSetBoostSource : Call → Bool
  | .SetBoostSource _ => true
  | _ => false

/-- `GetCurrentPState` and `SetCurrentPState` calls. -/
def Call.isActiveState : Call → Bool
  | .GetCurrentPState => true
  | .SetCurrentPState _ => true
  | _ => false

/-- The core-local writes: `WritePState`, `SetCPBDis` and `SetCurrentPState`. -/
def Call.isCoreWrite : Call → Bool
  | .WritePState _ => true
  | .SetCPBDis _ => true
  | .SetCurrentPState _ => true
  | _ => false

/-- `SetPriorityClass` and `SetThreadPriority` calls. -/
def Call.isPriority : Call → Bool
  | .SetPriorityClass _ => true
  | .SetThreadPriority _ => true
  | _ => false

/-- The process priority as state: `(realtime class, highest thread priority)`, changed by
`SetPriorityClass` and `SetThreadPriority` only. -/
def priorityStep (p : Bool × Bool) : Call → Bool × Bool
  | .SetPriorityClass realtime => (realtime, p.2)
  | .SetThreadPriority highest => (p.1, highest)
  | _ => p

/-- The priority after the calls `t`, starting from `p`. -/
def priorityAfter (p : Bool × Bool) (t : List Call) : Bool × Bool :=
  t.foldl priorityStep p

/-- Normal priority: `NORMAL_PRIORITY_CLASS` and `THREAD_PRIORITY_NORMAL`. -/
def normalPriority : Bool × Bool := (false, false)

/-- Elevated priority: `REALTIME_PRIORITY_CLASS` and `THREAD_PRIORITY_HIGHEST`. -/
def elevatedPriority : Bool × Bool := (true, true)

/-- Example capability descriptor of family 0x10 with two P-states, `numNB` northbridge
P-states and no boost states. -/
def simInfo10 (numNB : Int) : Info :=
  { Family := 0x10, NumPStates := 2, NumNBPStates := numNB, NumBoostStates := 0,
    IsBoostSupported := true, multiScaleFactor := 1, EncodeVID := fun v => round (v * 100) }

/-- Example machine state with a single P-state (live multiplier 20), active, and two
logical processors. -/
def simHw1 : SimHw :=
  { pStates := [{ Index := 0, Multi := 20, VID := 30, NBPState := 0, NBVID := 0 }],
    current := 0, cpus := 2 }

/-- A machine without state: every P-state reads as multiplier 20 with northbridge
association 0, P-state 0 is active on each of the two logical processors, and no call has
an effect. -/
def fixedMachine : Machine Unit where
  ReadPState _ i := { Index := i, Multi := 20, VID := 30, NBPState := 0, NBVID := 0 }
  GetCurrentPState _ := 0
  dwNumberOfProcessors _ := 2
  exec _ _ := ()

/-- Northbridge entry 0 or entry 1 has a voltage set. -/
def lowNBVoltageSet (w : Worker) : Prop :=
  (∃ nb, w._nbPStates[0]? = some nb ∧ 0 ≤ nb.VID) ∨
  (∃ nb, w._nbPStates[1]? = some nb ∧ 0 ≤ nb.VID)

/-- Example machine state for family 0x10: two P-states whose live northbridge
association is 2. -/
def simHwNB2 : SimHw :=
  { pStates := [{ Index := 0, Multi := 20, VID := 30, NBPState := 2, NBVID := 0 },
                { Index := 1, Multi := 10, VID := 40, NBPState := 2, NBVID := 0 }],
    current := 0, cpus := 1 }

/-- The active P-state of a unit after the calls `t` when it was `c` before them: the index
of the last `SetCurrentPState`, and `c` when there is none. -/
def activeAfter (c : Int) (t : List Call) : Int :=
  t.foldl (fun a x => match x with
    | .SetCurrentPState i => i
    | _ => a) c

/-- Every core-local write of the calls `t` is made at elevated priority, when the priority
before `t` is `p`. -/
def coreWritesElevated (p : Bool × Bool) : List Call → Bool
  | [] => true
  | x :: t =>
    (!x.isCoreWrite || decide (p = elevatedPriority)) && coreWritesElevated (priorityStep p x) t

/-! ## Letter case of the keys, in the words of the specification -/

/-- The other-case form of a letter `A`-`Z` or `a`-`z`; any other character is left
alone. -/
def otherCase (c : Char) : Char :=
  if 65 ≤ c.toNat ∧ c.toNat ≤ 90 then Char.ofNat (c.toNat + 32)
  else if 97 ≤ c.toNat ∧ c.toNat ≤ 122 then Char.ofNat (c.toNat - 32)
  else c

/-- The text `k'` is the text `k` with some of its letters replaced by their other-case
form. -/
def caseVariant : List Char → List Char → Bool
  | [], [] => true
  | c :: k, c' :: k' => (c' == c || c' == otherCase c) && caseVariant k k'
  | _, _ => false

/-- The directive `d'` is the directive `d` with some letters of its key replaced by their
other-case form: the keys are case variants and the text from the first `=` on is the
same. -/
def keyCaseVariant (d d' : List Char) : Bool :=
  caseVariant (keyOf d) (keyOf d') &&
    (d.drop (keyOf d).length == d'.drop (keyOf d').length)

/-! ## The value that one directive assigns to one field -/

/-- The target index that the directive assigns: lines 66-74. -/
def targetOf (info : Info) (d : List Char) : Option Int :=
  if valueOf d = [] ∧ (2 ≤ d.length ∧ d.head?.map tolower = some 'p') ∧
      (0 ≤ atoi (d.drop 1) ∧ atoi (d.drop 1) < info.NumPStates) then
    some (atoi (d.drop 1))
  else none

/-- The directive takes the P-state branch of lines 80-95 with the index `i`. -/
def entersPState (info : Info) (i : Nat) (d : List Char) : Bool :=
  decide (valueOf d ≠ [] ∧ (2 ≤ (keyOf d).length ∧ (keyOf d).head?.map tolower = some 'p') ∧
    (0 ≤ atoi ((keyOf d).drop 1) ∧ atoi ((keyOf d).drop 1) < info.NumPStates) ∧
    (atoi ((keyOf d).drop 1)).toNat = i)

/-- The multiplier that the directive assigns to P-state entry `i`: line 89. -/
def multiOf (info : Info) (i : Nat) (d : List Char) : Option ℚ :=
  if entersPState info i d = true ∧ (SplitPair (valueOf d) '@').1 ≠ [] then
    some (info.multiScaleFactor * atof (SplitPair (valueOf d) '@').1)
  else none

/-- The voltage that the directive assigns to P-state entry `i`: line 91. -/
def vidOf (info : Info) (i : Nat) (d : List Char) : Option Int :=
  if entersPState info i d = true ∧ (SplitPair (valueOf d) '@').2 ≠ [] then
    some (info.EncodeVID (atof (SplitPair (valueOf d) '@').2))
  else none

/-- The northbridge association that the directive assigns to P-state entry `i`: lines
114-125. -/
def nbStateOf (info : Info) (i : Nat) (d : List Char) : Option Int :=
  if valueOf d ≠ [] ∧ stricmpEq (keyOf d) ['N', 'B', '_', 'l', 'o', 'w'] = true ∧
      (i : Int) < info.NumPStates then
    some (if (i : Int) < atoi (valueOf d) then 0 else 1)
  else none

/-- The directive takes the northbridge branch of lines 97-112 with the index `i`. -/
def entersNBPState (info : Info) (i : Nat) (d : List Char) : Bool :=
  decide (valueOf d ≠ [] ∧
    (5 ≤ (keyOf d).length ∧ strnicmpEq (keyOf d) ['N', 'B', '_', 'P'] 4 = true) ∧
    (0 ≤ atoi ((keyOf d).drop 4) ∧ atoi ((keyOf d).drop 4) < info.NumNBPStates) ∧
    (atoi ((keyOf d).drop 4)).toNat = i)

/-- The multiplier that the directive assigns to northbridge entry `i`: line 106. -/
def nbMultiOf (info : Info) (i : Nat) (d : List Char) : Option ℚ :=
  if entersNBPState info i d = true ∧ (SplitPair (valueOf d) '@').1 ≠ [] then
    some (atof (SplitPair (valueOf d) '@').1)
  else none

/-- The voltage that the directive assigns to northbridge entry `i`: line 108. -/
def nbVidOf (info : Info) (i : Nat) (d : List Char) : Option Int :=
  if entersNBPState info i d = true ∧ (SplitPair (valueOf d) '@').2 ≠ [] then
    some (info.EncodeVID (atof (SplitPair (valueOf d) '@').2))
  else none

/-- The boost flag that the directive assigns: lines 127-135. -/
def turboOf (d : List Char) : Option Int :=
  if valueOf d ≠ [] ∧ stricmpEq (keyOf d) ['T', 'u', 'r', 'b', 'o'] = true ∧
      (atoi (valueOf d) = 0 ∨ atoi (valueOf d) = 1) then
    some (atoi (valueOf d))
  else none

/-- The power-feature flag that the directive assigns: lines 137-145. -/
def apmOf (d : List Char) : Option Int :=
  if valueOf d ≠ [] ∧ stricmpEq (keyOf d) ['A', 'P', 'M'] = true ∧
      (atoi (valueOf d) = 0 ∨ atoi (valueOf d) = 1) then
    some (atoi (valueOf d))
  else none

/-- The single-directive update, field by field: every field gets the value that the
directive assigns to it and keeps its value when the directive assigns none. -/
def updateFields (info : Info) (w : Worker) (d : List Char) : Worker :=
  { _pStates := w._pStates.mapIdx fun i p =>
      { Index := p.Index, Multi := (multiOf info i d).getD p.Multi,
        VID := (vidOf info i d).getD p.VID,
        NBPState := (nbStateOf info i d).getD p.NBPState, NBVID := p.NBVID },
    _nbPStates := w._nbPStates.mapIdx fun i p =>
      { Index := p.Index, Multi := (nbMultiOf info i d).getD p.Multi,
        VID := (nbVidOf info i d).getD p.VID },
    _turbo := (turboOf d).getD w._turbo,
    _apm := (apmOf d).getD w._apm,
    _pState := (targetOf info d).getD w._pState }

/-- Last write wins: the value of the last directive of `ds` that assigns the field, and
`dflt` when no directive of `ds` assigns it. -/
def lastAssigned {α : Type} (f : List Char → Option α) (ds : List (List Char)) (dflt : α) : α :=
  ((ds.filterMap f).getLast?).getD dflt

/-! ## The directives that are read as one of the forms -/

/-- The lenient reading of a directive as one of the forms of the specification, with the
index and the flag decoded by `atoi` and the `P` key recognized by its first letter:
a bare target when nothing follows the first `=` (or there is none), the text has at least
two characters, starts with `p` or `P` and the rest decodes to an index below `NumPStates`;
with a value, a P-state directive when the key has at least two characters, starts with
`p` or `P` and the rest decodes to an index below `NumPStates`; a northbridge directive when
the key has at least five characters, starts with `NB_P` in any letter case and the rest
decodes to an index below `NumNBPStates`; `NB_low` with any value; `Turbo` or `APM` with a
value that decodes to 0 or 1. -/
def readAsDirective (info : Info) (d : List Char) : Bool :=
  if valueOf d = [] then
    decide (2 ≤ d.length ∧ d.head?.map tolower = some 'p' ∧
      0 ≤ atoi (d.drop 1) ∧ atoi (d.drop 1) < info.NumPStates)
  else
    decide (2 ≤ (keyOf d).length ∧ (keyOf d).head?.map tolower = some 'p' ∧
      0 ≤ atoi ((keyOf d).drop 1) ∧ atoi ((keyOf d).drop 1) < info.NumPStates) ||
    decide (5 ≤ (keyOf d).length ∧ ((keyOf d).take 4).map tolower = ['n', 'b', '_', 'p'] ∧
      0 ≤ atoi ((keyOf d).drop 4) ∧ atoi ((keyOf d).drop 4) < info.NumNBPStates) ||
    decide ((keyOf d).map tolower = ['n', 'b', '_', 'l', 'o', 'w']) ||
    decide ((keyOf d).map tolower = ['t', 'u', 'r', 'b', 'o'] ∧
      (atoi (valueOf d) = 0 ∨ atoi (valueOf d) = 1)) ||
    decide ((keyOf d).map tolower = ['a', 'p', 'm'] ∧
      (atoi (valueOf d) = 0 ∨ atoi (valueOf d) = 1))

/-- A P-state entry has a field set, in the words of the specification: its multiplier,
its voltage, its northbridge voltage or its northbridge association is not negative (the
unset value is -1 and the values of the directives are not negative). -/
def anyFieldSet (p : PStateInfo) : Bool :=
  decide (0 ≤ p.Multi ∨ 0 ≤ p.VID ∨ 0 ≤ p.NBVID ∨ 0 ≤ p.NBPState)

/-- The machine state after the calls `t`, from the state `hw`. -/
def stateAfter {σ : Type} (m : Machine σ) (hw : σ) (t : List Call) : σ :=
  t.foldl m.exec hw

/-- State of the example machine with two units: the unit that the thread is bound to, and
for each unit whether its active P-state is 1 (otherwise it is 0). -/
structure UnitHw where
  unit : Int
  active0 : Bool
  active1 : Bool
deriving DecidableEq

/-- The example machine with two units: `SwitchTo` binds the thread to a unit,
`GetCurrentPState` and `SetCurrentPState` read and set the active P-state of the bound
unit, every P-state reads as multiplier 20 with northbridge association 0. -/
def unitMachine : Machine UnitHw where
  ReadPState _ i := { Index := i, Multi := 20, VID := 30, NBPState := 0, NBVID := 0 }
  GetCurrentPState hw := if (if hw.unit = 0 then hw.active0 else hw.active1) then 1 else 0
  dwNumberOfProcessors _ := 2
  exec hw c :=
    match c with
    | .SwitchTo j => { hw with unit := j }
    | .SetCurrentPState i =>
      if hw.unit = 0 then { hw with active0 := decide (i = 1) }
      else { hw with active1 := decide (i = 1) }
    | _ => hw

/-- Example state of the machine with two units: the thread is bound to unit 1, unit 0 is
at P-state 0 and unit 1 at P-state 1. -/
def unitHw : UnitHw :=
  { unit := 1, active0 := false, active1 := true }

/-! # Theorems -/

/-! ## Lemmas on the northbridge part of `ApplyChanges` -/

theorem foldlM_option_invariant {α β : Type} (P : β → Prop) (f : β → α → Option β)
    (hstep : ∀ b a b1, P b → f b a = some b1 → P b1) :
    ∀ (l : List α) (b b1 : β), P b → l.foldlM f b = some b1 → P b1 := by
  intro l
  induction l with
  | nil =>
    intro b b1 hb h
    simp only [List.foldlM_nil] at h
    cases h
    exact hb
  | cons a l ih =>
    intro b b1 hb h
    rw [List.foldlM_cons] at h
    cases hfa : f b a with
    | none => rw [hfa] at h; cases h
    | some b2 =>
      rw [hfa] at h
      exact ih b2 b1 (hstep b a b2 hb hfa) h

theorem foldl_invariant {α β : Type} (P : β → Prop) (f : β → α → β)
    (hstep : ∀ b a, P b → P (f b a)) :
    ∀ (l : List α) (b : β), P b → P (l.foldl f b) := by
  intro l
  induction l with
  | nil => intro b hb; exact hb
  | cons a l ih => intro b hb; exact ih (f b a) (hstep b a hb)

theorem emit_trace_all {σ : Type} (m : Machine σ) (s : Sys σ) (c : Call) (P : Call → Prop)
    (hs : ∀ x ∈ s.trace, P x) (hc : P c) : ∀ x ∈ (emit m s c).trace, P x := by
  intro x hx
  simp only [emit, List.mem_append, List.mem_singleton] at hx
  rcases hx with hx | hx
  · exact hs x hx
  · exact hx ▸ hc

theorem writeNBPStates_trace {σ : Type} (m : Machine σ) (w : Worker) (s : Sys σ)
    (hs : ∀ x ∈ s.trace, x.isNorthbridgeStep = true) :
    ∀ x ∈ (writeNBPStates m w s).trace, x.isNorthbridgeStep = true := by
  unfold writeNBPStates
  refine foldl_invariant (fun s : Sys σ => ∀ x ∈ s.trace, x.isNorthbridgeStep = true) _ ?_ _ s hs
  intro b a hb
  by_cases hc : ContainsChangesNB a = true
  · simp only [hc, if_true]
    exact emit_trace_all m b _ _ hb rfl
  · simp only [hc]
    exact hb

/-- One iteration of the family 0x10 loop keeps the requested multipliers and makes only
`ReadPState` calls. -/
theorem deriveNBVID_invariant {σ : Type} (m : Machine σ) (ms : List ℚ)
    (ws ws1 : Worker × Sys σ) (i : Nat)
    (h : (ws.1._pStates.map (fun p => p.Multi) = ms) ∧
      ∀ x ∈ ws.2.trace, x.isNorthbridgeStep = true)
    (hstep : deriveNBVID m ws i = some ws1) :
    (ws1.1._pStates.map (fun p => p.Multi) = ms) ∧
      ∀ x ∈ ws1.2.trace, x.isNorthbridgeStep = true := by
  unfold deriveNBVID at hstep
  cases hpsi : ws.1._pStates[i]? with
  | none => rw [hpsi] at hstep; cases hstep
  | some psi =>
    rw [hpsi] at hstep
    simp only at hstep
    have htr : ∀ x ∈ (if 0 ≤ psi.NBPState then (psi.NBPState, ws.2)
        else ((m.ReadPState ws.2.hw i).NBPState, emit m ws.2 (.ReadPState i))).2.trace,
        x.isNorthbridgeStep = true := by
      split
      · exact h.2
      · exact emit_trace_all m ws.2 _ _ h.2 rfl
    revert hstep
    generalize (if 0 ≤ psi.NBPState then (psi.NBPState, ws.2)
        else ((m.ReadPState ws.2.hw i).NBPState, emit m ws.2 (.ReadPState i))) = r at htr
    intro hstep
    cases hnb : getInt? ws.1._nbPStates r.1 with
    | none => rw [hnb] at hstep; cases hstep
    | some nbpsi =>
      rw [hnb] at hstep
      simp only at hstep
      split at hstep
      · cases hstep
        refine ⟨?_, htr⟩
        simp only [List.map_set]
        rw [← h.1]
        have hi : i < ws.1._pStates.length := by
          rcases List.getElem?_eq_some.1 hpsi with ⟨hi, _⟩
          exact hi
        have hget : ws.1._pStates[i] = psi := by
          rcases List.getElem?_eq_some.1 hpsi with ⟨_, hv⟩
          exact hv
        apply List.ext_getElem
        · simp
        · intro n h1 h2
          simp only [List.getElem_set, List.getElem_map]
          split
          · next hin => subst hin; rw [hget]
          · rfl
      · cases hstep
        exact ⟨h.1, htr⟩

/-- The northbridge part keeps the requested multipliers of the P-state table and makes
only `WriteNBPState` and `ReadPState` calls. -/
theorem applyNorthbridge_invariant {σ : Type} (m : Machine σ) (info : Info) (w w1 : Worker)
    (s s1 : Sys σ) (hs : ∀ x ∈ s.trace, x.isNorthbridgeStep = true)
    (h : applyNorthbridge m info w s = some (w1, s1)) :
    (w1._pStates.map (fun p => p.Multi) = w._pStates.map (fun p => p.Multi)) ∧
      ∀ x ∈ s1.trace, x.isNorthbridgeStep = true := by
  unfold applyNorthbridge at h
  split at h
  · cases h
    exact ⟨rfl, writeNBPStates_trace m w s hs⟩
  · split at h
    · cases hany : anyNBVID w with
      | none => rw [hany] at h; cases h
      | some b =>
        rw [hany] at h
        cases b with
        | false => cases h; exact ⟨rfl, hs⟩
        | true =>
          simp only at h
          exact foldlM_option_invariant
            (fun ws : Worker × Sys σ =>
              (ws.1._pStates.map (fun p => p.Multi) = w._pStates.map (fun p => p.Multi)) ∧
              ∀ x ∈ ws.2.trace, x.isNorthbridgeStep = true)
            (deriveNBVID m)
            (fun b a b1 hb hf => deriveNBVID_invariant m _ b b1 a hb hf)
            _ (w, s) (w1, s1) ⟨rfl, hs⟩ h
    · cases h
      exact ⟨rfl, hs⟩

theorem getInt?_map {α β : Type} (f : α → β) (l : List α) (i : Int) :
    getInt? (l.map f) i = (getInt? l i).map f := by
  unfold getInt?
  split
  · simp
  · rfl

/-! ## The safety check of `ApplyChanges` -/

/-- C1: safety abort.  Let `(w1, s1)` be the worker and machine after the northbridge part
(lines 179-201) has run without leaving a table.  If the entry of the P-state table at
index `NumBoostStates` holds a multiplier different from the live multiplier that
`ReadPState` returns for that index, `ApplyChanges(false)` returns `false`, and the calls
it made contain no `WritePState`, `SetCurrentPState`, `SetBoostSource`, `SetCPBDis` or
`SetAPM`. -/
theorem C1_safety_abort {σ : Type} (m : Machine σ) (info : Info) (w w1 : Worker) (hw : σ)
    (s1 : Sys σ) (requested : PStateInfo)
    (hnb : applyNorthbridge m info w { hw := hw, trace := [] } = some (w1, s1))
    (hreq : getInt? w._pStates info.NumBoostStates = some requested)
    (hne : requested.Multi ≠ (m.ReadPState s1.hw info.NumBoostStates).Multi) :
    ∃ s2 : Sys σ, ApplyChanges m info w false hw = some (false, w1, s2) ∧
      ∀ c ∈ s2.trace, c.isPrimaryWrite = false := by
  have hinv := applyNorthbridge_invariant m info w w1 { hw := hw, trace := [] } s1
    (by intro x hx; cases hx) hnb
  have hmulti : (getInt? w1._pStates info.NumBoostStates).map (fun p => p.Multi)
      = some requested.Multi := by
    rw [← getInt?_map, hinv.1, getInt?_map, hreq]
    rfl
  cases hreq1 : getInt? w1._pStates info.NumBoostStates with
  | none => rw [hreq1] at hmulti; cases hmulti
  | some requested1 =>
    rw [hreq1] at hmulti
    simp only [Option.map_some', Option.some.injEq] at hmulti
    refine ⟨emit m s1 (.ReadPState info.NumBoostStates), ?_, ?_⟩
    · unfold ApplyChanges
      rw [hnb]
      simp only [hreq1, hmulti]
      rw [if_pos ⟨hne, trivial⟩]
    · intro c hc
      have hstep := emit_trace_all m s1 (.ReadPState info.NumBoostStates)
        (fun x => x.isNorthbridgeStep = true) hinv.2 rfl c hc
      cases c <;> first | rfl | cases hstep

/-- C1 at the live multiplier 20 and the requested multiplier 22. -/
theorem C1_safety_abort_witness :
    ∃ s2 : Sys SimHw, ApplyChanges simMachine (simInfo 2) workerP0 false simHw
        = some (false, workerP0, s2) ∧
      ∀ c ∈ s2.trace, c.isPrimaryWrite = false :=
  C1_safety_abort simMachine (simInfo 2) workerP0 workerP0 simHw { hw := simHw, trace := [] }
    { Index := 0, Multi := 22, VID := -1, NBPState := -1, NBVID := -1 }
    (by decide!) (by decide!) (by decide!)

/-- C2: the worker of an empty parameter list has every multiplier unset, and
`ApplyChanges(false)` still returns `false` on a machine whose live multiplier of the
highest non-boost P-state is 20; the only call made is the `ReadPState` of that state. -/
theorem C2_unset_multiplier_aborts :
    (ParseParams (simInfo 2) Worker.new [[]]).1 = true ∧
    ((ParseParams (simInfo 2) Worker.new [[]]).2._pStates.map fun p => p.Multi) = [-1, -1] ∧
    (ApplyChanges simMachine (simInfo 2) (ParseParams (simInfo 2) Worker.new [[]]).2 false
        simHw).map (fun r => (r.1, r.2.2.trace)) = some (false, [Call.ReadPState 0]) := by
  decide!

/-! ## Lemmas on the C library model -/

theorem digitChar_toNat (d : Nat) (h : d < 10) : (Nat.digitChar d).toNat = d + 48 := by
  interval_cases d <;> rfl

theorem digitChar_isdigit (d : Nat) (h : d < 10) : isdigit (Nat.digitChar d) = true := by
  interval_cases d <;> rfl

theorem toDigitsCore_acc (fuel : Nat) : ∀ (n : Nat) (acc : List Char),
    Nat.toDigitsCore 10 fuel n acc = Nat.toDigitsCore 10 fuel n [] ++ acc := by
  induction fuel with
  | zero => intro n acc; simp [Nat.toDigitsCore]
  | succ f ih =>
    intro n acc
    simp only [Nat.toDigitsCore]
    split
    · simp
    · rw [ih (n / 10) (Nat.digitChar (n % 10) :: acc), ih (n / 10) [Nat.digitChar (n % 10)]]
      simp

theorem digitsValue_snoc (ds : List Char) (c : Char) :
    digitsValue (ds ++ [c]) = 10 * digitsValue ds + (c.toNat - 48) := by
  simp [digitsValue, List.foldl_append]

/-- The digits printed for `n`: their value is `n`, all of them are digits, and there is
at least one. -/
theorem toDigitsCore_spec (fuel : Nat) : ∀ n : Nat, n < fuel →
    digitsValue (Nat.toDigitsCore 10 fuel n []) = n ∧
    (∀ c ∈ Nat.toDigitsCore 10 fuel n [], isdigit c = true) ∧
    Nat.toDigitsCore 10 fuel n [] ≠ [] := by
  induction fuel with
  | zero => intro n h; omega
  | succ f ih =>
    intro n h
    simp only [Nat.toDigitsCore]
    split
    · next h0 =>
      have hn : n < 10 := by
        by_contra hc
        have : 1 ≤ n / 10 := Nat.div_pos (by omega) (by omega)
        omega
      have hmod : n % 10 = n := Nat.mod_eq_of_lt hn
      rw [hmod]
      refine ⟨?_, ?_, by simp⟩
      · simp [digitsValue, digitChar_toNat n hn]
      · intro c hc
        simp only [List.mem_singleton] at hc
        rw [hc]
        exact digitChar_isdigit n hn
    · next h0 =>
      have hlt : n / 10 < f := by
        have : n / 10 < n := Nat.div_lt_self (by omega) (by omega)
        omega
      obtain ⟨hv, hd, hne⟩ := ih (n / 10) hlt
      rw [toDigitsCore_acc]
      have hm : n % 10 < 10 := Nat.mod_lt _ (by omega)
      refine ⟨?_, ?_, by simp⟩
      · rw [digitsValue_snoc, hv, digitChar_toNat _ hm]
        omega
      · intro c hc
        simp only [List.mem_append, List.mem_singleton] at hc
        rcases hc with hc | hc
        · exact hd c hc
        · rw [hc]; exact digitChar_isdigit _ hm

theorem digitsValue_decimal (n : Nat) : digitsValue (decimal n) = n :=
  (toDigitsCore_spec (n + 1) n (Nat.lt_succ_self n)).1

theorem isdigit_of_mem_decimal (n : Nat) : ∀ c ∈ decimal n, isdigit c = true :=
  (toDigitsCore_spec (n + 1) n (Nat.lt_succ_self n)).2.1

theorem decimal_ne_nil (n : Nat) : decimal n ≠ [] :=
  (toDigitsCore_spec (n + 1) n (Nat.lt_succ_self n)).2.2

theorem isspace_of_isdigit (c : Char) (h : isdigit c = true) : isspace c = false := by
  simp only [isdigit, Bool.and_eq_true, decide_eq_true_eq] at h
  simp only [isspace, Bool.or_eq_false_iff, Bool.and_eq_false_iff, decide_eq_false_iff_not]
  omega

theorem takeSign_of_isdigit (c : Char) (r : List Char) (h : isdigit c = true) :
    takeSign (c :: r) = (false, c :: r) := by
  unfold takeSign
  split
  · next heq =>
    simp only [List.cons.injEq] at heq
    rw [heq.1] at h
    exact absurd h (by decide)
  · next heq =>
    simp only [List.cons.injEq] at heq
    rw [heq.1] at h
    exact absurd h (by decide)
  · rfl

theorem takeWhile_digits_append (ds rest : List Char) (hds : ∀ c ∈ ds, isdigit c = true)
    (hrest : ∀ c, rest.head? = some c → isdigit c = false) :
    (ds ++ rest).takeWhile isdigit = ds := by
  rw [List.takeWhile_append_of_pos hds]
  cases rest with
  | nil => simp
  | cons c r =>
    have := hrest c rfl
    simp [List.takeWhile_cons, this]

/-- On digits followed by something that is not a digit, `atoi` gives the value of the
digits, saturated at `INT_MAX`. -/
theorem atoi_digits (ds rest : List Char) (hds : ∀ c ∈ ds, isdigit c = true) (hne : ds ≠ [])
    (hrest : ∀ c, rest.head? = some c → isdigit c = false) :
    atoi (ds ++ rest) = max INT_MIN (min INT_MAX (digitsValue ds : Nat)) := by
  cases ds with
  | nil => exact absurd rfl hne
  | cons c ds1 =>
    have hc : isdigit c = true := hds c (List.mem_cons_self _ _)
    have hsp : ¬ isspace c = true := by rw [isspace_of_isdigit c hc]; simp
    have htw := takeWhile_digits_append (c :: ds1) rest hds hrest
    simp only [List.cons_append] at htw
    simp only [atoi, List.cons_append, List.dropWhile_cons_of_neg hsp,
      takeSign_of_isdigit c _ hc, htw]
    simp

/-- On a minus sign, digits and something that is not a digit, `atoi` gives the negated
value of the digits, saturated at `INT_MIN`. -/
theorem atoi_minus_digits (ds rest : List Char) (hds : ∀ c ∈ ds, isdigit c = true)
    (hrest : ∀ c, rest.head? = some c → isdigit c = false) :
    atoi ('-' :: (ds ++ rest)) = max INT_MIN (min INT_MAX (-(digitsValue ds : Nat))) := by
  have hsp : ¬ isspace '-' = true := by decide
  have htw := takeWhile_digits_append ds rest hds hrest
  simp only [atoi, List.dropWhile_cons_of_neg hsp, takeSign, htw]
  simp

theorem atoi_intDecimal (z : Int) (rest : List Char)
    (hrest : ∀ c, rest.head? = some c → isdigit c = false) :
    atoi (intDecimal z ++ rest) = max INT_MIN (min INT_MAX z) := by
  unfold intDecimal
  split
  · next hz =>
    rw [List.cons_append, atoi_minus_digits _ _ (isdigit_of_mem_decimal _) hrest,
      digitsValue_decimal]
    have : -(z.natAbs : Int) = z := by omega
    rw [this]
  · next hz =>
    rw [atoi_digits _ _ (isdigit_of_mem_decimal _) (decimal_ne_nil _) hrest,
      digitsValue_decimal]
    have : (z.toNat : Int) = z := by omega
    rw [this]

theorem atoi_intDecimal_nil (z : Int) : atoi (intDecimal z) = max INT_MIN (min INT_MAX z) := by
  have := atoi_intDecimal z [] (by intro c h; cases h)
  simpa using this

/-! ## Lemmas on `SplitPair` and the loop of `ParseParams` -/

theorem SplitPair_not_mem (a : List Char) (d : Char) (h : d ∉ a) : SplitPair a d = (a, []) := by
  have hi : ¬ List.indexOf d a < a.length := by
    rw [List.indexOf_lt_length]; exact h
  simp [SplitPair, find, hi]

theorem SplitPair_append (a b : List Char) (d : Char) (h : d ∉ a) :
    SplitPair (a ++ d :: b) d = (a, b) := by
  have hidx : List.indexOf d (a ++ d :: b) = a.length := by
    rw [List.indexOf_append_of_not_mem h, List.indexOf_cons_eq _ rfl]
    rfl
  have hlt : List.indexOf d (a ++ d :: b) < (a ++ d :: b).length := by
    rw [hidx]; simp
  simp [SplitPair, find, hlt, hidx]

theorem SplitPair_fst_head (s : List Char) (d x : Char)
    (h : (SplitPair s d).1.head? = some x) : s.head? = some x := by
  unfold SplitPair at h
  split at h
  · exact h
  · next i hi =>
    simp only at h
    cases s with
    | nil => simp at h
    | cons c r =>
      cases i with
      | zero => simp at h
      | succ j => simpa using h

theorem not_mem_of_map_tolower (k l : List Char) (d : Char) (hk : k.map tolower = l)
    (hd : tolower d = d) (hl : d ∉ l) : d ∉ k := by
  intro hmem
  apply hl
  rw [← hk, ← hd]
  exact List.mem_map_of_mem tolower hmem

theorem not_mem_decimal_of_not_isdigit (n : Nat) (d : Char) (hd : isdigit d = false) :
    d ∉ decimal n := by
  intro h
  rw [isdigit_of_mem_decimal n d h] at hd
  cases hd

theorem not_mem_intDecimal (z : Int) (d : Char) (hd : isdigit d = false) (hm : d ≠ '-') :
    d ∉ intDecimal z := by
  unfold intDecimal
  split
  · intro h
    rcases List.mem_cons.1 h with h | h
    · exact hm h
    · exact not_mem_decimal_of_not_isdigit _ d hd h
  · exact not_mem_decimal_of_not_isdigit _ d hd

theorem intDecimal_ne_nil (z : Int) : intDecimal z ≠ [] := by
  unfold intDecimal
  split
  · simp
  · exact decimal_ne_nil _

theorem parseParam_bare (info : Info) (w : Worker) (param : List Char)
    (h : (SplitPair param '=').2 = []) : parseParam info w param = parseBare info w param := by
  unfold parseParam
  simp [h]

theorem parseParam_valued (info : Info) (w : Worker) (key value : List Char)
    (hk : '=' ∉ key) (hv : value ≠ []) :
    parseParam info w (key ++ '=' :: value) =
      (parsePState info w key value).orElse fun _ =>
      (parseNBPState info w key value).orElse fun _ =>
      (parseNBLow info w key value).orElse fun _ =>
      (parseTurbo w key value).orElse fun _ =>
      parseAPM w key value := by
  unfold parseParam
  rw [SplitPair_append key value '=' hk]
  simp [hv]

theorem parseLoop_append (info : Info) (a b : List (List Char)) : ∀ w : Worker,
    parseLoop info w (a ++ b) =
      if (parseLoop info w a).1 = true then parseLoop info (parseLoop info w a).2 b
      else parseLoop info w a := by
  induction a with
  | nil => intro w; simp [parseLoop]
  | cons p a ih =>
    intro w
    simp only [List.cons_append, parseLoop]
    cases hp : parseParam info w p with
    | none => simp
    | some w1 => simp only []; exact ih w1

theorem parseLoop_rejected (info : Info) (d : List Char) (post : List (List Char))
    (hd : ∀ w : Worker, parseParam info w d = none) :
    ∀ (pre : List (List Char)) (w : Worker), (parseLoop info w (pre ++ d :: post)).1 = false := by
  intro pre
  induction pre with
  | nil => intro w; simp [parseLoop, hd w]
  | cons p pre ih =>
    intro w
    simp only [List.cons_append, parseLoop]
    cases hp : parseParam info w p with
    | none => rfl
    | some w1 => exact ih w1

theorem clamp_inrange_iff (z bound : Int) (hb : bound ≤ INT_MAX) :
    (0 ≤ max INT_MIN (min INT_MAX z) ∧ max INT_MIN (min INT_MAX z) < bound) ↔
      (0 ≤ z ∧ z < bound) := by
  simp only [INT_MAX, INT_MIN] at *
  omega

theorem clamp_eq_self (z bound : Int) (hb : bound ≤ INT_MAX) (h0 : 0 ≤ z) (h1 : z < bound) :
    max INT_MIN (min INT_MAX z) = z := by
  simp only [INT_MAX, INT_MIN] at *
  omega

theorem parseBare_target (info : Info) (hmax : info.NumPStates ≤ INT_MAX) (w : Worker)
    (c : Char) (hc : c = 'P' ∨ c = 'p') (N : Int) :
    parseParam info w (c :: intDecimal N) =
      if 0 ≤ N ∧ N < info.NumPStates then some { w with _pState := N } else none := by
  have hceq : c ≠ '=' := by rcases hc with h | h <;> rw [h] <;> decide
  have hnot : '=' ∉ c :: intDecimal N := by
    intro h
    rcases List.mem_cons.1 h with h | h
    · exact hceq h.symm
    · exact not_mem_intDecimal N '=' (by decide) (by decide) h
  have hlen : 2 ≤ (c :: intDecimal N).length := by
    have := List.length_pos.2 (intDecimal_ne_nil N)
    simp only [List.length_cons]
    omega
  have hhead : (c :: intDecimal N).head?.map tolower = some 'p' := by
    rcases hc with h | h <;> rw [h] <;> rfl
  rw [parseParam_bare info w _ (by rw [SplitPair_not_mem _ _ hnot])]
  unfold parseBare
  rw [if_pos ⟨hlen, hhead⟩]
  simp only [List.drop_succ_cons, List.drop_zero, atoi_intDecimal_nil]
  by_cases hr : 0 ≤ N ∧ N < info.NumPStates
  · rw [if_pos hr, if_pos ((clamp_inrange_iff N _ hmax).2 hr),
      clamp_eq_self N _ hmax hr.1 hr.2]
  · rw [if_neg hr, if_neg (fun h => hr ((clamp_inrange_iff N _ hmax).1 h))]

/-- C6: the single directive `P<N>` or `p<N>`, with `N` an integer in the range of `int`
in decimal text, makes `ParseParams` return `true` with `_pState = N` when
`0 <= N < NumPStates`, and return `false` otherwise. -/
theorem C6_bare_target (info : Info) (hmax : info.NumPStates ≤ INT_MAX) (c : Char)
    (hc : c = 'P' ∨ c = 'p') (N : Int) (_hN : INT_MIN ≤ N ∧ N ≤ INT_MAX) (prog : List Char) :
    ParseParams info Worker.new [prog, c :: intDecimal N] =
      if 0 ≤ N ∧ N < info.NumPStates then
        (true, { initTables info Worker.new with _pState := N })
      else (false, initTables info Worker.new) := by
  unfold ParseParams
  simp only [List.drop_succ_cons, List.drop_zero, parseLoop,
    parseBare_target info hmax _ c hc N]
  by_cases hr : 0 ≤ N ∧ N < info.NumPStates
  · simp only [if_pos hr, parseLoop]
  · simp only [if_neg hr]

/-- C6 on `P3` with 8 P-states (target 3) and with 2 P-states (failure). -/
theorem C6_bare_target_witness :
    ParseParams (simInfo 8) Worker.new [[], 'P' :: intDecimal 3] =
        (true, { initTables (simInfo 8) Worker.new with _pState := 3 }) ∧
    ParseParams (simInfo 2) Worker.new [[], 'P' :: intDecimal 3] =
        (false, initTables (simInfo 2) Worker.new) ∧
    'P' :: intDecimal 3 = ['P', '3'] :=
  ⟨(C6_bare_target (simInfo 8) (by decide) 'P' (Or.inl rfl) 3 (by decide) []).trans
      (if_pos (by decide)),
   (C6_bare_target (simInfo 2) (by decide) 'P' (Or.inl rfl) 3 (by decide) []).trans
      (if_neg (by decide)),
   by decide⟩

/-! ## The tables keep their sizes during parsing -/

theorem assignNBLow_length (info : Info) (index : Int) (ps : List PStateInfo) :
    (assignNBLow info index ps).length = ps.length := by
  unfold assignNBLow
  simp only
  apply foldl_invariant (fun t : List PStateInfo => t.length = ps.length)
  · intro b a hb; rw [List.length_modify]; exact hb
  · apply foldl_invariant (fun t : List PStateInfo => t.length = ps.length)
    · intro b a hb; rw [List.length_modify]; exact hb
    · rfl

theorem orElse_eq_some {α : Type} (a : Option α) (b : Unit → Option α) (x : α)
    (h : a.orElse b = some x) : a = some x ∨ (a = none ∧ b () = some x) := by
  cases a with
  | none => right; exact ⟨rfl, h⟩
  | some y => left; exact h

/-- The branches of one loop iteration, as the alternatives of an accepted parameter. -/
theorem parseParam_cases (info : Info) (w w1 : Worker) (param : List Char)
    (h : parseParam info w param = some w1) :
    ((SplitPair param '=').2 = [] ∧ parseBare info w param = some w1) ∨
    ((SplitPair param '=').2 ≠ [] ∧
      (parsePState info w (SplitPair param '=').1 (SplitPair param '=').2 = some w1 ∨
       parseNBPState info w (SplitPair param '=').1 (SplitPair param '=').2 = some w1 ∨
       parseNBLow info w (SplitPair param '=').1 (SplitPair param '=').2 = some w1 ∨
       parseTurbo w (SplitPair param '=').1 (SplitPair param '=').2 = some w1 ∨
       parseAPM w (SplitPair param '=').1 (SplitPair param '=').2 = some w1)) := by
  unfold parseParam at h
  simp only at h
  split at h
  · next hv => exact Or.inl ⟨hv, h⟩
  · next hv =>
    refine Or.inr ⟨hv, ?_⟩
    rcases orElse_eq_some _ _ _ h with h1 | ⟨_, h1⟩
    · exact Or.inl h1
    rcases orElse_eq_some _ _ _ h1 with h2 | ⟨_, h2⟩
    · exact Or.inr (Or.inl h2)
    rcases orElse_eq_some _ _ _ h2 with h3 | ⟨_, h3⟩
    · exact Or.inr (Or.inr (Or.inl h3))
    rcases orElse_eq_some _ _ _ h3 with h4 | ⟨_, h4⟩
    · exact Or.inr (Or.inr (Or.inr (Or.inl h4)))
    · exact Or.inr (Or.inr (Or.inr (Or.inr h4)))

theorem parseParam_length (info : Info) (w w1 : Worker) (param : List Char)
    (h : parseParam info w param = some w1) :
    w1._pStates.length = w._pStates.length ∧ w1._nbPStates.length = w._nbPStates.length := by
  rcases parseParam_cases info w w1 param h with ⟨_, hb⟩ | ⟨_, hp | hn | hl | ht | ha⟩
  · unfold parseBare at hb
    split at hb
    · split at hb
      · cases hb; exact ⟨rfl, rfl⟩
      · cases hb
    · cases hb
  · unfold parsePState at hp
    split at hp
    · split at hp
      · simp only [Option.some.injEq] at hp
        rw [← hp]
        split <;> split <;> simp [List.length_modify]
      · cases hp
    · cases hp
  · unfold parseNBPState at hn
    split at hn
    · split at hn
      · simp only [Option.some.injEq] at hn
        rw [← hn]
        split <;> split <;> simp [List.length_modify]
      · cases hn
    · cases hn
  · unfold parseNBLow at hl
    split at hl
    · cases hl; exact ⟨assignNBLow_length _ _ _, rfl⟩
    · cases hl
  · unfold parseTurbo at ht
    split at ht
    · split at ht
      · cases ht; exact ⟨rfl, rfl⟩
      · cases ht
    · cases ht
  · unfold parseAPM at ha
    split at ha
    · split at ha
      · cases ha; exact ⟨rfl, rfl⟩
      · cases ha
    · cases ha

theorem parseLoop_length (info : Info) (ds : List (List Char)) : ∀ (w w1 : Worker),
    parseLoop info w ds = (true, w1) →
    w1._pStates.length = w._pStates.length ∧ w1._nbPStates.length = w._nbPStates.length := by
  induction ds with
  | nil => intro w w1 h; simp only [parseLoop] at h; cases h; exact ⟨rfl, rfl⟩
  | cons d ds ih =>
    intro w w1 h
    simp only [parseLoop] at h
    cases hd : parseParam info w d with
    | none => rw [hd] at h; cases h
    | some w2 =>
      rw [hd] at h
      have h1 := parseParam_length info w w2 d hd
      have h2 := ih w2 w1 h
      exact ⟨h2.1.trans h1.1, h2.2.trans h1.2⟩

/-- After a successful `ParseParams` on a new worker the tables have `NumPStates` and
`NumNBPStates` entries. -/
theorem ParseParams_length (info : Info) (argv : List (List Char)) (w1 : Worker)
    (h : ParseParams info Worker.new argv = (true, w1)) :
    w1._pStates.length = info.NumPStates.toNat ∧
      w1._nbPStates.length = info.NumNBPStates.toNat := by
  unfold ParseParams at h
  have := parseLoop_length info _ _ _ h
  simpa [initTables, Worker.new] using this

theorem ParseParams_snoc (info : Info) (w w1 : Worker) (prog : List Char)
    (pre : List (List Char)) (d : List Char)
    (hpre : ParseParams info w (prog :: pre) = (true, w1)) :
    ParseParams info w (prog :: (pre ++ [d])) =
      match parseParam info w1 d with
      | none => (false, w1)
      | some w2 => (true, w2) := by
  unfold ParseParams at *
  simp only [List.drop_succ_cons, List.drop_zero] at *
  rw [parseLoop_append, hpre]
  simp only [if_true, parseLoop]

/-! ## Keys and the branches they reach -/

theorem stricmpEq_head (a b : List Char) (h : stricmpEq a b = true) :
    a.head?.map tolower = b.head?.map tolower := by
  simp only [stricmpEq, decide_eq_true_eq] at h
  rw [← List.head?_map, ← List.head?_map, h]

theorem strnicmpEq_head (a b : List Char) (n : Nat) (h : strnicmpEq a b (n + 1) = true) :
    a.head?.map tolower = b.head?.map tolower := by
  simp only [strnicmpEq, decide_eq_true_eq] at h
  have h1 := congrArg List.head? h
  simp only [List.head?_map, List.head?_take] at h1
  simpa using h1

/-- A key that starts with `p` or `P` reaches none of the branches after the first. -/
theorem branches_none_of_head_p (info : Info) (w : Worker) (key value : List Char)
    (hk : key.head?.map tolower = some 'p') :
    parseNBPState info w key value = none ∧ parseNBLow info w key value = none ∧
      parseTurbo w key value = none ∧ parseAPM w key value = none := by
  refine ⟨?_, ?_, ?_, ?_⟩
  · unfold parseNBPState
    rw [if_neg]
    rintro ⟨_, h⟩
    have := strnicmpEq_head _ _ 3 h
    rw [hk] at this
    exact absurd this (by decide)
  · unfold parseNBLow
    rw [if_neg]
    intro h
    have := stricmpEq_head _ _ h
    rw [hk] at this
    exact absurd this (by decide)
  · unfold parseTurbo
    rw [if_neg]
    intro h
    have := stricmpEq_head _ _ h
    rw [hk] at this
    exact absurd this (by decide)
  · unfold parseAPM
    rw [if_neg]
    intro h
    have := stricmpEq_head _ _ h
    rw [hk] at this
    exact absurd this (by decide)

theorem modify_modify_same {α : Type} (f g : α → α) (n : Nat) (l : List α) :
    List.modify g n (List.modify f n l) = List.modify (fun a => g (f a)) n l := by
  apply List.ext_getElem?
  intro m
  simp only [List.getElem?_modify]
  cases l[m]? with
  | none => rfl
  | some a =>
    by_cases hnm : n = m <;> simp [hnm]

theorem modify_eq_self {α : Type} (f : α → α) (hf : ∀ a, f a = a) (n : Nat) (l : List α) :
    List.modify f n l = l := by
  apply List.ext_getElem?
  intro m
  simp only [List.getElem?_modify]
  cases l[m]? with
  | none => rfl
  | some a => by_cases hnm : n = m <;> simp [hnm, hf]

theorem atoi_decimal (n : Nat) (rest : List Char)
    (hrest : ∀ c, rest.head? = some c → isdigit c = false) :
    atoi (decimal n ++ rest) = max INT_MIN (min INT_MAX (n : Int)) := by
  rw [atoi_digits _ _ (isdigit_of_mem_decimal _) (decimal_ne_nil _) hrest, digitsValue_decimal]

theorem atoi_decimal_nil (n : Nat) : atoi (decimal n) = max INT_MIN (min INT_MAX (n : Int)) := by
  have := atoi_decimal n [] (by intro c h; cases h)
  simpa using this

/-- The loop iteration on `P<N>=<multi>@<vid>` with `N` in range. -/
theorem parseParam_pState (info : Info) (hmax : info.NumPStates ≤ INT_MAX) (w : Worker)
    (c : Char) (hc : c = 'P' ∨ c = 'p') (N : Nat) (hN : (N : Int) < info.NumPStates)
    (multi vid : List Char) (hm : '@' ∉ multi) :
    parseParam info w (c :: decimal N ++ '=' :: (multi ++ '@' :: vid)) =
      some { w with _pStates := w._pStates.modify (fun p => { p with
        Multi := if multi = [] then p.Multi else info.multiScaleFactor * atof multi,
        VID := if vid = [] then p.VID else info.EncodeVID (atof vid) }) N } := by
  have hceq : c ≠ '=' := by rcases hc with h | h <;> rw [h] <;> decide
  have hnot : '=' ∉ c :: decimal N := by
    intro h
    rcases List.mem_cons.1 h with h | h
    · exact hceq h.symm
    · exact not_mem_decimal_of_not_isdigit N '=' (by decide) h
  have hlen : 2 ≤ (c :: decimal N).length := by
    have := List.length_pos.2 (decimal_ne_nil N)
    simp only [List.length_cons]
    omega
  have hhead : (c :: decimal N).head?.map tolower = some 'p' := by
    rcases hc with h | h <;> rw [h] <;> rfl
  have hidx : atoi (List.drop 1 (c :: decimal N)) = (N : Int) := by
    simp only [List.drop_succ_cons, List.drop_zero, atoi_decimal_nil]
    exact clamp_eq_self _ _ hmax (Int.natCast_nonneg N) hN
  have hv : multi ++ '@' :: vid ≠ [] := by simp
  have hp : parsePState info w (c :: decimal N) (multi ++ '@' :: vid) =
      some { w with _pStates := w._pStates.modify (fun p => { p with
        Multi := if multi = [] then p.Multi else info.multiScaleFactor * atof multi,
        VID := if vid = [] then p.VID else info.EncodeVID (atof vid) }) N } := by
    unfold parsePState
    rw [if_pos ⟨hlen, hhead⟩, hidx, if_pos ⟨Int.natCast_nonneg N, hN⟩,
      SplitPair_append multi vid '@' hm]
    simp only [Int.toNat_ofNat]
    by_cases h1 : multi = [] <;> by_cases h2 : vid = [] <;>
      simp [h1, h2, modify_modify_same]
    rw [modify_eq_self _ (fun _ => rfl)]
  have := parseParam_valued info w (c :: decimal N) (multi ++ '@' :: vid) hnot hv
  rw [List.cons_append] at this
  exact this.trans (by rw [hp]; rfl)

/-- C7: after any accepted directives (worker `w1`), the directive `P<N>=<multi>@<vid>` with
`0 <= N < NumPStates` is accepted, entry `N` of the P-state table exists, its `Multi`
becomes `multiScaleFactor * atof(<multi>)` when `<multi>` is not empty and its `VID` becomes
`EncodeVID(atof(<vid>))` when `<vid>` is not empty; an empty sub-field leaves the field as it
was, and nothing else of the worker changes. -/
theorem C7_pstate_directive (info : Info) (hmax : info.NumPStates ≤ INT_MAX)
    (prog : List Char) (pre : List (List Char)) (w1 : Worker)
    (hpre : ParseParams info Worker.new (prog :: pre) = (true, w1))
    (c : Char) (hc : c = 'P' ∨ c = 'p') (N : Nat) (hN : (N : Int) < info.NumPStates)
    (multi vid : List Char) (hm : '@' ∉ multi) :
    N < w1._pStates.length ∧
    ParseParams info Worker.new
        (prog :: (pre ++ [c :: decimal N ++ '=' :: (multi ++ '@' :: vid)])) =
      (true, { w1 with _pStates := w1._pStates.modify (fun p => { p with
        Multi := if multi = [] then p.Multi else info.multiScaleFactor * atof multi,
        VID := if vid = [] then p.VID else info.EncodeVID (atof vid) }) N }) := by
  constructor
  · rw [(ParseParams_length info _ w1 hpre).1]
    omega
  · rw [ParseParams_snoc info Worker.new w1 prog pre _ hpre,
      parseParam_pState info hmax w1 c hc N hN multi vid hm]

/-- C7 on `P2=20@1.1` with scale factor 1 and `EncodeVID v = round (v * 100)`: entry 2
becomes multiplier 20 and voltage id 110. -/
theorem C7_pstate_directive_witness :
    (ParseParams (simInfo 8) Worker.new
        [[], 'P' :: decimal 2 ++ '=' :: (['2', '0'] ++ '@' :: ['1', '.', '1'])]).2._pStates[2]?
      = some { Index := 2, Multi := 20, VID := 110, NBPState := -1, NBVID := -1 } ∧
    'P' :: decimal 2 ++ '=' :: (['2', '0'] ++ '@' :: ['1', '.', '1'])
      = ['P', '2', '=', '2', '0', '@', '1', '.', '1'] := by
  constructor
  · have h := (C7_pstate_directive (simInfo 8) (by decide) [] []
      (initTables (simInfo 8) Worker.new) rfl 'P' (Or.inl rfl) 2 (by decide) ['2', '0']
      ['1', '.', '1'] (by decide)).2
    rw [List.nil_append] at h
    rw [h]
    decide!
  · decide

theorem SplitPair_valueText (multi : List Char) (vid : Option (List Char)) (hm : '@' ∉ multi) :
    SplitPair (valueText multi vid) '@' = (multi, vid.getD []) := by
  cases vid with
  | none => exact SplitPair_not_mem multi '@' hm
  | some v => exact SplitPair_append multi v '@' hm

theorem parseBare_none_of_head (info : Info) (w : Worker) (param : List Char)
    (h : param.head?.map tolower ≠ some 'p') : parseBare info w param = none := by
  unfold parseBare
  rw [if_neg]
  rintro ⟨_, h1⟩
  exact h h1

theorem parsePState_none_of_head (info : Info) (w : Worker) (key value : List Char)
    (h : key.head?.map tolower ≠ some 'p') : parsePState info w key value = none := by
  unfold parsePState
  rw [if_neg]
  rintro ⟨_, h1⟩
  exact h h1

/-- The loop iteration on `NB_P<N>=<value>`, key in any letter case. -/
theorem parseParam_nbPState (info : Info) (hmax : info.NumNBPStates ≤ INT_MAX) (w : Worker)
    (k : List Char) (hk : k.map tolower = ['n', 'b', '_', 'p']) (N : Int)
    (multi : List Char) (vid : Option (List Char)) (hm : '@' ∉ multi) :
    parseParam info w (k ++ intDecimal N ++ '=' :: valueText multi vid) =
      if (0 ≤ N ∧ N < info.NumNBPStates) ∧ valueText multi vid ≠ [] then
        some { w with _nbPStates := w._nbPStates.modify (fun p => { p with
          Multi := if multi = [] then p.Multi else atof multi,
          VID := if vid.getD [] = [] then p.VID else info.EncodeVID (atof (vid.getD [])) }) N.toNat }
      else none := by
  have hklen : k.length = 4 := by
    have := congrArg List.length hk
    simpa using this
  have hnotk : '=' ∉ k := not_mem_of_map_tolower k _ '=' hk (by decide) (by decide)
  have hnot : '=' ∉ k ++ intDecimal N := by
    intro h
    rcases List.mem_append.1 h with h | h
    · exact hnotk h
    · exact not_mem_intDecimal N '=' (by decide) (by decide) h
  have hdpos := List.length_pos.2 (intDecimal_ne_nil N)
  have hhead : (k ++ intDecimal N).head?.map tolower = some 'n' := by
    cases k with
    | nil => simp at hklen
    | cons a r =>
      simp only [List.map_cons, List.cons.injEq] at hk
      simp [hk.1]
  have hheadne : (k ++ intDecimal N).head?.map tolower ≠ some 'p' := by
    rw [hhead]; decide
  have htake : ((k ++ intDecimal N).take 4).map tolower = ['n', 'b', '_', 'p'] := by
    rw [List.take_append_of_le_length (by omega), List.take_of_length_le (by omega), hk]
  have hdrop : (k ++ intDecimal N).drop 4 = intDecimal N := by
    rw [← hklen, List.drop_left]
  by_cases hv : valueText multi vid = []
  · rw [if_neg (fun h => h.2 hv), hv,
      parseParam_bare info w _ (by rw [SplitPair_append _ _ _ hnot])]
    apply parseBare_none_of_head
    rw [List.head?_append_of_ne_nil _ (by intro h; rw [h] at hnot; exact hdpos.ne' (by
      simp at h; simp [h.2]))]
    exact hheadne
  · rw [parseParam_valued info w _ _ hnot hv, parsePState_none_of_head info w _ _ hheadne]
    simp only [Option.orElse]
    by_cases hr : 0 ≤ N ∧ N < info.NumNBPStates
    · rw [if_pos ⟨hr, hv⟩]
      have hnb : parseNBPState info w (k ++ intDecimal N) (valueText multi vid) =
          some { w with _nbPStates := w._nbPStates.modify (fun p => { p with
            Multi := if multi = [] then p.Multi else atof multi,
            VID := if vid.getD [] = [] then p.VID else info.EncodeVID (atof (vid.getD [])) }) N.toNat } := by
        unfold parseNBPState
        have hcond : 5 ≤ (k ++ intDecimal N).length ∧
            strnicmpEq (k ++ intDecimal N) ['N', 'B', '_', 'P'] 4 = true := by
          refine ⟨by simp only [List.length_append]; omega, ?_⟩
          simp only [strnicmpEq, htake, decide_eq_true_eq]
          rfl
        rw [if_pos hcond, hdrop, atoi_intDecimal_nil,
          if_pos ((clamp_inrange_iff N _ hmax).2 hr), clamp_eq_self N _ hmax hr.1 hr.2,
          SplitPair_valueText multi vid hm]
        by_cases h1 : multi = [] <;> by_cases h2 : vid.getD [] = [] <;>
          simp [h1, h2, modify_modify_same]
        rw [modify_eq_self _ (fun _ => rfl)]
      rw [hnb]
    · rw [if_neg (fun h => hr h.1)]
      have hnb : parseNBPState info w (k ++ intDecimal N) (valueText multi vid) = none := by
        unfold parseNBPState
        split
        · rw [hdrop, atoi_intDecimal_nil,
            if_neg (fun h => hr ((clamp_inrange_iff N _ hmax).1 h))]
        · rfl
      have hlow : parseNBLow info w (k ++ intDecimal N) (valueText multi vid) = none := by
        unfold parseNBLow
        rw [if_neg]
        intro h
        simp only [stricmpEq, decide_eq_true_eq] at h
        have h4 := congrArg (List.take 4) h
        rw [← List.map_take, htake] at h4
        exact absurd h4 (by decide)
      have hturbo : parseTurbo w (k ++ intDecimal N) (valueText multi vid) = none := by
        unfold parseTurbo
        rw [if_neg]
        intro h
        have := stricmpEq_head _ _ h
        rw [hhead] at this
        exact absurd this (by decide)
      have hapm : parseAPM w (k ++ intDecimal N) (valueText multi vid) = none := by
        unfold parseAPM
        rw [if_neg]
        intro h
        have := stricmpEq_head _ _ h
        rw [hhead] at this
        exact absurd this (by decide)
      rw [hnb, hlow, hturbo, hapm]

/-- C8, counterexample: `NB_P0=` has the index 0 in range of two northbridge P-states, an
empty `<multi>` and no `@<vid>`, and `ParseParams` rejects it. -/
theorem C8_empty_value_rejected :
    (0 ≤ (0 : Int) ∧ (0 : Int) < (simInfo 2).NumNBPStates) ∧
    ['N', 'B', '_', 'P'] ++ intDecimal 0 ++ '=' :: valueText [] none
      = ['N', 'B', '_', 'P', '0', '='] ∧
    (ParseParams (simInfo 2) Worker.new [[], ['N', 'B', '_', 'P', '0', '=']]).1 = false := by
  decide

/-- C8, amended: after any accepted directives (worker `w1`), the directive
`NB_P<N>=<multi>[@<vid>]` (key in any letter case, `N` an integer in the range of `int`
in decimal text) is accepted iff `0 <= N < NumNBPStates` and the text after `=` is not empty.  When accepted,
entry `N` of the northbridge table exists, its `Multi` becomes `atof(<multi>)`, not scaled
by `multiScaleFactor`, when `<multi>` is not empty, its `VID` becomes
`EncodeVID(atof(<vid>))` when `<vid>` is not empty, and the P-state table and the scalars of
the worker are unchanged.  When rejected the worker is unchanged. -/
theorem C8_nb_directive (info : Info) (hmax : info.NumNBPStates ≤ INT_MAX)
    (prog : List Char) (pre : List (List Char)) (w1 : Worker)
    (hpre : ParseParams info Worker.new (prog :: pre) = (true, w1))
    (k : List Char) (hk : k.map tolower = ['n', 'b', '_', 'p']) (N : Int)
    (_hN : INT_MIN ≤ N ∧ N ≤ INT_MAX)
    (multi : List Char) (vid : Option (List Char)) (hm : '@' ∉ multi) :
    (0 ≤ N ∧ N < info.NumNBPStates → N.toNat < w1._nbPStates.length) ∧
    ParseParams info Worker.new
        (prog :: (pre ++ [k ++ intDecimal N ++ '=' :: valueText multi vid])) =
      if (0 ≤ N ∧ N < info.NumNBPStates) ∧ valueText multi vid ≠ [] then
        (true, { w1 with _nbPStates := w1._nbPStates.modify (fun p => { p with
          Multi := if multi = [] then p.Multi else atof multi,
          VID := if vid.getD [] = [] then p.VID else info.EncodeVID (atof (vid.getD [])) }) N.toNat })
      else (false, w1) := by
  constructor
  · intro hr
    rw [(ParseParams_length info _ w1 hpre).2]
    omega
  · rw [ParseParams_snoc info Worker.new w1 prog pre _ hpre,
      parseParam_nbPState info hmax w1 k hk N multi vid hm]
    by_cases hc : (0 ≤ N ∧ N < info.NumNBPStates) ∧ valueText multi vid ≠ []
    · simp only [if_pos hc]
    · simp only [if_neg hc]

/-- C8 on `NB_P1=8@1.0` with two northbridge P-states: entry 1 gets the multiplier 8
(scale factor not applied) and the voltage id 100. -/
theorem C8_nb_directive_witness :
    (ParseParams (simInfo 2) Worker.new
        [[], ['N', 'B', '_', 'P'] ++ intDecimal 1 ++ '=' ::
          valueText ['8'] (some ['1', '.', '0'])]).2._nbPStates
      = [{ Index := 0, Multi := -1, VID := -1 }, { Index := 1, Multi := 8, VID := 100 }] ∧
    ['N', 'B', '_', 'P'] ++ intDecimal 1 ++ '=' :: valueText ['8'] (some ['1', '.', '0'])
      = ['N', 'B', '_', 'P', '1', '=', '8', '@', '1', '.', '0'] := by
  constructor
  · have h := (C8_nb_directive (simInfo 2) (by decide) [] []
      (initTables (simInfo 2) Worker.new) rfl ['N', 'B', '_', 'P'] (by decide) 1 (by decide)
      ['8'] (some ['1', '.', '0']) (by decide)).2
    rw [List.nil_append] at h
    rw [h]
    decide!
  · decide

/-! ## The two loops of `NB_low` -/

theorem foldl_modify_range' {α : Type} (f : α → α) (n : Nat) : ∀ (s : Nat) (l : List α) (i : Nat),
    ((List.range' s n).foldl (fun t j => List.modify f j t) l)[i]? =
      (l[i]?).map (fun a => if s ≤ i ∧ i < s + n then f a else a) := by
  induction n with
  | zero =>
    intro s l i
    simp only [List.range'_zero, List.foldl_nil]
    cases l[i]? with
    | none => rfl
    | some a =>
      have h3 : ¬ (s ≤ i ∧ i < s) := by omega
      simp [h3]
  | succ n ih =>
    intro s l i
    rw [List.range'_succ, List.foldl_cons, ih (s + 1) (List.modify f s l) i,
      List.getElem?_modify]
    cases l[i]? with
    | none => rfl
    | some a =>
      simp only [Option.map_some', Option.some.injEq, Functor.map]
      by_cases h1 : s = i
      · subst h1
        simp
      · by_cases h2 : s + 1 ≤ i ∧ i < s + 1 + n
        · have h3 : s ≤ i ∧ i < s + (n + 1) := by omega
          simp [h1, h2, h3]
        · have h3 : ¬ (s ≤ i ∧ i < s + (n + 1)) := by omega
          simp [h1, h2, h3]

/-- Entry `i` after the two loops of lines 118-122. -/
theorem assignNBLow_getElem? (info : Info) (index : Int) (ps : List PStateInfo) (i : Nat) :
    (assignNBLow info index ps)[i]? = (ps[i]?).map (fun p =>
      if (i : Int) < info.NumPStates then
        { p with NBPState := if (i : Int) < index then 0 else 1 }
      else p) := by
  unfold assignNBLow
  simp only
  rw [foldl_modify_range', foldl_modify_range']
  cases ps[i]? with
  | none => rfl
  | some p =>
    simp only [Option.map_some', Option.some.injEq]
    by_cases hn : (i : Int) < info.NumPStates
    · by_cases hi : (i : Int) < index
      · have h1 : 0 ≤ i ∧ i < 0 + (min index info.NumPStates).toNat := by omega
        have h2 : ¬ ((min index info.NumPStates).toNat ≤ i ∧ i < (min index info.NumPStates).toNat
            + (info.NumPStates.toNat - (min index info.NumPStates).toNat)) := by omega
        simp [hn, hi, h1, h2]
      · have h1 : ¬ (0 ≤ i ∧ i < 0 + (min index info.NumPStates).toNat) := by omega
        have h2 : (min index info.NumPStates).toNat ≤ i ∧ i < (min index info.NumPStates).toNat
            + (info.NumPStates.toNat - (min index info.NumPStates).toNat) := by omega
        simp [hn, hi, h1, h2]
    · have h1 : ¬ (0 ≤ i ∧ i < 0 + (min index info.NumPStates).toNat) := by omega
      have h2 : ¬ ((min index info.NumPStates).toNat ≤ i ∧ i < (min index info.NumPStates).toNat
          + (info.NumPStates.toNat - (min index info.NumPStates).toNat)) := by omega
      simp [hn, h1, h2]

/-- The loop iteration on `NB_low=<N>`, key in any letter case. -/
theorem parseParam_nbLow (info : Info) (w : Worker) (k : List Char)
    (hk : k.map tolower = ['n', 'b', '_', 'l', 'o', 'w']) (N : Int) :
    parseParam info w (k ++ '=' :: intDecimal N) =
      some { w with _pStates := assignNBLow info (max INT_MIN (min INT_MAX N)) w._pStates } := by
  have hnotk : '=' ∉ k := not_mem_of_map_tolower k _ '=' hk (by decide) (by decide)
  have hhead : k.head?.map tolower = some 'n' := by
    rw [← List.head?_map, hk]; rfl
  have hheadne : k.head?.map tolower ≠ some 'p' := by rw [hhead]; decide
  rw [parseParam_valued info w k _ hnotk (intDecimal_ne_nil N),
    parsePState_none_of_head info w _ _ hheadne]
  have hnb : parseNBPState info w k (intDecimal N) = none := by
    unfold parseNBPState
    rw [if_neg]
    rintro ⟨_, h⟩
    simp only [strnicmpEq, decide_eq_true_eq] at h
    rw [List.map_take, hk] at h
    exact absurd h (by decide)
  have hlow : parseNBLow info w k (intDecimal N) =
      some { w with _pStates := assignNBLow info (max INT_MIN (min INT_MAX N)) w._pStates } := by
    unfold parseNBLow
    rw [if_pos (by simp only [stricmpEq, hk, decide_eq_true_eq]; rfl), atoi_intDecimal_nil]
  rw [hnb, hlow]
  rfl

/-- C9: after any accepted directives (worker `w1`), the directive `NB_low=<N>` (key in any
letter case, `N` an integer in the range of `int` in decimal text, also `N <= 0` or
`N >= NumPStates`) is always accepted; the P-state table keeps its `NumPStates` entries, every entry with index `i < N`
gets `NBPState = 0` and every entry with index `i >= N` gets `NBPState = 1`, and no other
field of the worker changes. -/
theorem C9_nb_low (info : Info) (hmax : info.NumPStates ≤ INT_MAX)
    (prog : List Char) (pre : List (List Char)) (w1 : Worker)
    (hpre : ParseParams info Worker.new (prog :: pre) = (true, w1))
    (k : List Char) (hk : k.map tolower = ['n', 'b', '_', 'l', 'o', 'w']) (N : Int)
    (_hN : INT_MIN ≤ N ∧ N ≤ INT_MAX) :
    ∃ w2 : Worker,
      ParseParams info Worker.new (prog :: (pre ++ [k ++ '=' :: intDecimal N])) = (true, w2) ∧
      w2._pStates.length = info.NumPStates.toNat ∧
      (∀ i : Nat, w2._pStates[i]? = (w1._pStates[i]?).map
        (fun p => { p with NBPState := if (i : Int) < N then 0 else 1 })) ∧
      w2 = { w1 with _pStates := w2._pStates } := by
  have hlen := (ParseParams_length info _ w1 hpre).1
  refine ⟨{ w1 with _pStates := assignNBLow info (max INT_MIN (min INT_MAX N)) w1._pStates },
    ?_, ?_, ?_, rfl⟩
  · rw [ParseParams_snoc info Worker.new w1 prog pre _ hpre, parseParam_nbLow info w1 k hk N]
  · simp only [assignNBLow_length, hlen]
  · intro i
    simp only [assignNBLow_getElem?]
    cases hi : w1._pStates[i]? with
    | none => rfl
    | some p =>
      have hlt : i < w1._pStates.length := (List.getElem?_eq_some.1 hi).1
      have hn : (i : Int) < info.NumPStates := by omega
      have hiff : ((i : Int) < max INT_MIN (min INT_MAX N)) ↔ ((i : Int) < N) := by
        simp only [INT_MAX, INT_MIN] at *
        omega
      simp only [Option.map_some', Option.some.injEq, if_pos hn]
      by_cases hc : (i : Int) < N
      · rw [if_pos hc, if_pos (hiff.2 hc)]
      · rw [if_neg hc, if_neg (fun h => hc (hiff.1 h))]

/-- C9 on `NB_low=2` with four P-states: the associations are 0, 0, 1, 1. -/
theorem C9_nb_low_witness :
    (∃ w2 : Worker,
      ParseParams (simInfo 4) Worker.new
        ([] :: ([] ++ [['N', 'B', '_', 'l', 'o', 'w'] ++ '=' :: intDecimal 2])) = (true, w2) ∧
      w2._pStates.length = (simInfo 4).NumPStates.toNat ∧
      (∀ i : Nat, w2._pStates[i]? = ((initTables (simInfo 4) Worker.new)._pStates[i]?).map
        (fun p => { p with NBPState := if (i : Int) < 2 then 0 else 1 })) ∧
      w2 = { initTables (simInfo 4) Worker.new with _pStates := w2._pStates }) ∧
    ((ParseParams (simInfo 4) Worker.new
        [[], ['N', 'B', '_', 'l', 'o', 'w', '=', '2']]).2._pStates.map fun p => p.NBPState)
      = [0, 0, 1, 1] :=
  ⟨C9_nb_low (simInfo 4) (by decide) [] [] (initTables (simInfo 4) Worker.new) rfl
    ['N', 'B', '_', 'l', 'o', 'w'] (by decide) 2 (by decide), by decide⟩

/-! ## The flag directives -/

theorem parseNBPState_none_of_head (info : Info) (w : Worker) (key value : List Char)
    (h : key.head?.map tolower ≠ some 'n') : parseNBPState info w key value = none := by
  unfold parseNBPState
  rw [if_neg]
  rintro ⟨_, h1⟩
  exact h (strnicmpEq_head _ _ 3 h1)

theorem parseNBLow_none_of_head (info : Info) (w : Worker) (key value : List Char)
    (h : key.head?.map tolower ≠ some 'n') : parseNBLow info w key value = none := by
  unfold parseNBLow
  rw [if_neg]
  intro h1
  exact h (stricmpEq_head _ _ h1)

theorem parseTurbo_none_of_head (w : Worker) (key value : List Char)
    (h : key.head?.map tolower ≠ some 't') : parseTurbo w key value = none := by
  unfold parseTurbo
  rw [if_neg]
  intro h1
  exact h (stricmpEq_head _ _ h1)

theorem parseAPM_none_of_head (w : Worker) (key value : List Char)
    (h : key.head?.map tolower ≠ some 'a') : parseAPM w key value = none := by
  unfold parseAPM
  rw [if_neg]
  intro h1
  exact h (stricmpEq_head _ _ h1)

/-- The loop iteration on `Turbo=<V>`, key in any letter case, `V` any text. -/
theorem parseParam_turbo (info : Info) (w : Worker) (k : List Char)
    (hk : k.map tolower = ['t', 'u', 'r', 'b', 'o']) (V : List Char) :
    parseParam info w (k ++ '=' :: V) =
      if V ≠ [] ∧ (atoi V = 0 ∨ atoi V = 1) then some { w with _turbo := atoi V }
      else none := by
  have hnotk : '=' ∉ k := not_mem_of_map_tolower k _ '=' hk (by decide) (by decide)
  have hhead : k.head?.map tolower = some 't' := by
    rw [← List.head?_map, hk]; rfl
  have hkne : k ≠ [] := by intro h; rw [h] at hk; cases hk
  by_cases hv : V = []
  · rw [if_neg (fun h => h.1 hv), hv,
      parseParam_bare info w _ (by rw [SplitPair_append _ _ _ hnotk])]
    apply parseBare_none_of_head
    rw [List.head?_append_of_ne_nil _ hkne, hhead]
    decide
  · rw [parseParam_valued info w k V hnotk hv,
      parsePState_none_of_head info w _ _ (by rw [hhead]; decide),
      parseNBPState_none_of_head info w _ _ (by rw [hhead]; decide),
      parseNBLow_none_of_head info w _ _ (by rw [hhead]; decide),
      parseAPM_none_of_head w _ _ (by rw [hhead]; decide)]
    simp only [Option.orElse]
    unfold parseTurbo
    rw [if_pos (by simp only [stricmpEq, hk, decide_eq_true_eq]; rfl)]
    by_cases hf : atoi V = 0 ∨ atoi V = 1
    · rw [if_pos hf, if_pos ⟨hv, hf⟩]
    · rw [if_neg hf, if_neg (fun h => hf h.2)]

/-- The loop iteration on `APM=<V>`, key in any letter case, `V` any text. -/
theorem parseParam_apm (info : Info) (w : Worker) (k : List Char)
    (hk : k.map tolower = ['a', 'p', 'm']) (V : List Char) :
    parseParam info w (k ++ '=' :: V) =
      if V ≠ [] ∧ (atoi V = 0 ∨ atoi V = 1) then some { w with _apm := atoi V }
      else none := by
  have hnotk : '=' ∉ k := not_mem_of_map_tolower k _ '=' hk (by decide) (by decide)
  have hhead : k.head?.map tolower = some 'a' := by
    rw [← List.head?_map, hk]; rfl
  have hkne : k ≠ [] := by intro h; rw [h] at hk; cases hk
  by_cases hv : V = []
  · rw [if_neg (fun h => h.1 hv), hv,
      parseParam_bare info w _ (by rw [SplitPair_append _ _ _ hnotk])]
    apply parseBare_none_of_head
    rw [List.head?_append_of_ne_nil _ hkne, hhead]
    decide
  · rw [parseParam_valued info w k V hnotk hv,
      parsePState_none_of_head info w _ _ (by rw [hhead]; decide),
      parseNBPState_none_of_head info w _ _ (by rw [hhead]; decide),
      parseNBLow_none_of_head info w _ _ (by rw [hhead]; decide),
      parseTurbo_none_of_head w _ _ (by rw [hhead]; decide)]
    simp only [Option.orElse]
    unfold parseAPM
    rw [if_pos (by simp only [stricmpEq, hk, decide_eq_true_eq]; rfl)]
    by_cases hf : atoi V = 0 ∨ atoi V = 1
    · rw [if_pos hf, if_pos ⟨hv, hf⟩]
    · rw [if_neg hf, if_neg (fun h => hf h.2)]

theorem atoi_intDecimal_flag (z : Int) :
    (atoi (intDecimal z) = 0 ↔ z = 0) ∧ (atoi (intDecimal z) = 1 ↔ z = 1) := by
  rw [atoi_intDecimal_nil]
  simp only [INT_MAX, INT_MIN]
  omega

/-- C10, counterexample: `Turbo=abc` has a value that is neither `0` nor `1`, and
`ParseParams` accepts it, with `_turbo = 0`. -/
theorem C10_nonnumeric_flag_accepted :
    ParseParams (simInfo 2) Worker.new [[], ['T', 'u', 'r', 'b', 'o', '=', 'a', 'b', 'c']]
      = (true, { initTables (simInfo 2) Worker.new with _turbo := 0 }) ∧
    ['a', 'b', 'c'] ≠ ['0'] ∧ ['a', 'b', 'c'] ≠ ['1'] := by
  decide!

/-- C10, amended: after any accepted directives (worker `w1`), `Turbo=<V>` and `APM=<V>` (key
in any letter case, `V` any text) are accepted iff `V` is not empty and `atoi(V)` is 0 or 1,
which holds also for text such as `abc` or `1x`; when accepted they set `_turbo`
respectively `_apm` to `atoi(V)` and change nothing else, when rejected the worker is
unchanged.  For `V` the decimal text of an integer `z` in the range of `int`, `atoi(V)` is
0 iff `z = 0` and 1 iff `z = 1`, so every such integer other than 0 and 1 is rejected. -/
theorem C10_flag_directives (info : Info) (prog : List Char) (pre : List (List Char))
    (w1 : Worker) (hpre : ParseParams info Worker.new (prog :: pre) = (true, w1))
    (kt ka : List Char) (hkt : kt.map tolower = ['t', 'u', 'r', 'b', 'o'])
    (hka : ka.map tolower = ['a', 'p', 'm']) (V : List Char) :
    ParseParams info Worker.new (prog :: (pre ++ [kt ++ '=' :: V])) =
      (if V ≠ [] ∧ (atoi V = 0 ∨ atoi V = 1) then (true, { w1 with _turbo := atoi V })
       else (false, w1)) ∧
    ParseParams info Worker.new (prog :: (pre ++ [ka ++ '=' :: V])) =
      (if V ≠ [] ∧ (atoi V = 0 ∨ atoi V = 1) then (true, { w1 with _apm := atoi V })
       else (false, w1)) ∧
    ∀ z : Int, INT_MIN ≤ z ∧ z ≤ INT_MAX → intDecimal z ≠ [] ∧
      (atoi (intDecimal z) = 0 ↔ z = 0) ∧ (atoi (intDecimal z) = 1 ↔ z = 1) := by
  refine ⟨?_, ?_, fun z _ => ⟨intDecimal_ne_nil z, atoi_intDecimal_flag z⟩⟩
  · rw [ParseParams_snoc info Worker.new w1 prog pre _ hpre, parseParam_turbo info w1 kt hkt V]
    by_cases hc : V ≠ [] ∧ (atoi V = 0 ∨ atoi V = 1)
    · simp only [if_pos hc]
    · simp only [if_neg hc]
  · rw [ParseParams_snoc info Worker.new w1 prog pre _ hpre, parseParam_apm info w1 ka hka V]
    by_cases hc : V ≠ [] ∧ (atoi V = 0 ∨ atoi V = 1)
    · simp only [if_pos hc]
    · simp only [if_neg hc]

/-- C10 on `Turbo=2`: rejected. -/
theorem C10_flag_directives_witness :
    ParseParams (simInfo 2) Worker.new [[], ['T', 'u', 'r', 'b', 'o'] ++ '=' :: ['2']]
      = (false, initTables (simInfo 2) Worker.new) := by
  have h := (C10_flag_directives (simInfo 2) [] [] (initTables (simInfo 2) Worker.new) rfl
    ['T', 'u', 'r', 'b', 'o'] ['A', 'P', 'M'] (by decide) (by decide) ['2']).1
  rw [List.nil_append] at h
  rw [h, if_neg (by decide)]

/-! ## Rejected directives -/

/-- C3, counterexample: `Pxyz`, `Power=1` and `Turbo=abc` are none of the forms of the
directive grammar, and `ParseParams` accepts each of them on eight P-states. -/
theorem C3_lenient_directives_accepted :
    (specDirective (simInfo 8) ['P', 'x', 'y', 'z'] = false ∧
      (ParseParams (simInfo 8) Worker.new [[], ['P', 'x', 'y', 'z']]).1 = true) ∧
    (specDirective (simInfo 8) ['P', 'o', 'w', 'e', 'r', '=', '1'] = false ∧
      (ParseParams (simInfo 8) Worker.new [[], ['P', 'o', 'w', 'e', 'r', '=', '1']]).1 = true) ∧
    (specDirective (simInfo 8) ['T', 'u', 'r', 'b', 'o', '=', 'a', 'b', 'c'] = false ∧
      (ParseParams (simInfo 8) Worker.new
        [[], ['T', 'u', 'r', 'b', 'o', '=', 'a', 'b', 'c']]).1 = true) := by
  decide

theorem isSome_orElse {α : Type} (a : Option α) (f : Unit → Option α) :
    (a.orElse f).isSome = (a.isSome || (f ()).isSome) := by
  cases a <;> rfl

theorem parseBare_isSome (info : Info) (w : Worker) (d : List Char) :
    (parseBare info w d).isSome = decide (2 ≤ d.length ∧ d.head?.map tolower = some 'p' ∧
      0 ≤ atoi (d.drop 1) ∧ atoi (d.drop 1) < info.NumPStates) := by
  unfold parseBare
  by_cases h1 : 2 ≤ d.length ∧ d.head?.map tolower = some 'p'
  · rw [if_pos h1]
    by_cases h2 : 0 ≤ atoi (d.drop 1) ∧ atoi (d.drop 1) < info.NumPStates
    · rw [if_pos h2]
      exact (decide_eq_true ⟨h1.1, h1.2, h2⟩).symm
    · rw [if_neg h2]
      exact (decide_eq_false (fun h => h2 h.2.2)).symm
  · rw [if_neg h1]
    exact (decide_eq_false (fun h => h1 ⟨h.1, h.2.1⟩)).symm

theorem parsePState_isSome (info : Info) (w : Worker) (k v : List Char) :
    (parsePState info w k v).isSome = decide (2 ≤ k.length ∧ k.head?.map tolower = some 'p' ∧
      0 ≤ atoi (k.drop 1) ∧ atoi (k.drop 1) < info.NumPStates) := by
  unfold parsePState
  by_cases h1 : 2 ≤ k.length ∧ k.head?.map tolower = some 'p'
  · rw [if_pos h1]
    by_cases h2 : 0 ≤ atoi (k.drop 1) ∧ atoi (k.drop 1) < info.NumPStates
    · rw [if_pos h2]
      exact (decide_eq_true ⟨h1.1, h1.2, h2⟩).symm
    · rw [if_neg h2]
      exact (decide_eq_false (fun h => h2 h.2.2)).symm
  · rw [if_neg h1]
    exact (decide_eq_false (fun h => h1 ⟨h.1, h.2.1⟩)).symm

theorem strnicmpEq_NB_P (k : List Char) :
    strnicmpEq k ['N', 'B', '_', 'P'] 4 = true ↔ (k.take 4).map tolower = ['n', 'b', '_', 'p'] := by
  simp only [strnicmpEq, decide_eq_true_eq]
  have e : (List.take 4 ['N', 'B', '_', 'P']).map tolower = ['n', 'b', '_', 'p'] := by decide
  rw [e]

theorem stricmpEq_iff (k p q : List Char) (hq : p.map tolower = q) :
    stricmpEq k p = true ↔ k.map tolower = q := by
  simp only [stricmpEq, decide_eq_true_eq, hq]

theorem parseNBPState_isSome (info : Info) (w : Worker) (k v : List Char) :
    (parseNBPState info w k v).isSome =
      decide (5 ≤ k.length ∧ (k.take 4).map tolower = ['n', 'b', '_', 'p'] ∧
        0 ≤ atoi (k.drop 4) ∧ atoi (k.drop 4) < info.NumNBPStates) := by
  unfold parseNBPState
  by_cases h1 : 5 ≤ k.length ∧ strnicmpEq k ['N', 'B', '_', 'P'] 4 = true
  · rw [if_pos h1]
    by_cases h2 : 0 ≤ atoi (k.drop 4) ∧ atoi (k.drop 4) < info.NumNBPStates
    · rw [if_pos h2]
      exact (decide_eq_true ⟨h1.1, (strnicmpEq_NB_P k).1 h1.2, h2⟩).symm
    · rw [if_neg h2]
      exact (decide_eq_false (fun h => h2 h.2.2)).symm
  · rw [if_neg h1]
    exact (decide_eq_false (fun h => h1 ⟨h.1, (strnicmpEq_NB_P k).2 h.2.1⟩)).symm

theorem parseNBLow_isSome (info : Info) (w : Worker) (k v : List Char) :
    (parseNBLow info w k v).isSome = decide (k.map tolower = ['n', 'b', '_', 'l', 'o', 'w']) := by
  unfold parseNBLow
  by_cases h1 : stricmpEq k ['N', 'B', '_', 'l', 'o', 'w'] = true
  · rw [if_pos h1]
    exact (decide_eq_true ((stricmpEq_iff k _ _ (by decide)).1 h1)).symm
  · rw [if_neg h1]
    exact (decide_eq_false (fun h => h1 ((stricmpEq_iff k _ _ (by decide)).2 h))).symm

theorem parseTurbo_isSome (w : Worker) (k v : List Char) :
    (parseTurbo w k v).isSome =
      decide (k.map tolower = ['t', 'u', 'r', 'b', 'o'] ∧ (atoi v = 0 ∨ atoi v = 1)) := by
  unfold parseTurbo
  by_cases h1 : stricmpEq k ['T', 'u', 'r', 'b', 'o'] = true
  · rw [if_pos h1]
    by_cases h2 : atoi v = 0 ∨ atoi v = 1
    · rw [if_pos h2]
      exact (decide_eq_true ⟨(stricmpEq_iff k _ _ (by decide)).1 h1, h2⟩).symm
    · rw [if_neg h2]
      exact (decide_eq_false (fun h => h2 h.2)).symm
  · rw [if_neg h1]
    exact (decide_eq_false (fun h => h1 ((stricmpEq_iff k _ _ (by decide)).2 h.1))).symm

theorem parseAPM_isSome (w : Worker) (k v : List Char) :
    (parseAPM w k v).isSome =
      decide (k.map tolower = ['a', 'p', 'm'] ∧ (atoi v = 0 ∨ atoi v = 1)) := by
  unfold parseAPM
  by_cases h1 : stricmpEq k ['A', 'P', 'M'] = true
  · rw [if_pos h1]
    by_cases h2 : atoi v = 0 ∨ atoi v = 1
    · rw [if_pos h2]
      exact (decide_eq_true ⟨(stricmpEq_iff k _ _ (by decide)).1 h1, h2⟩).symm
    · rw [if_neg h2]
      exact (decide_eq_false (fun h => h2 h.2)).symm
  · rw [if_neg h1]
    exact (decide_eq_false (fun h => h1 ((stricmpEq_iff k _ _ (by decide)).2 h.1))).symm

/-- One iteration of the loop reaches a `continue` exactly on the directives that are read
as one of the forms, whatever the worker is. -/
theorem parseParam_isSome (info : Info) (w : Worker) (d : List Char) :
    (parseParam info w d).isSome = readAsDirective info d := by
  unfold parseParam readAsDirective
  simp only
  by_cases hv : valueOf d = []
  · have hv1 : (SplitPair d '=').2 = [] := hv
    rw [if_pos hv1, if_pos hv, parseBare_isSome]
  · have hv1 : ¬ (SplitPair d '=').2 = [] := hv
    rw [if_neg hv1, if_neg hv, isSome_orElse, isSome_orElse, isSome_orElse, isSome_orElse,
      parsePState_isSome, parseNBPState_isSome, parseNBLow_isSome, parseTurbo_isSome,
      parseAPM_isSome]
    simp only [Bool.or_assoc]
    rfl

theorem parseLoop_fails_iff (info : Info) (ds : List (List Char)) : ∀ w : Worker,
    (parseLoop info w ds).1 = false ↔ ∃ d ∈ ds, readAsDirective info d = false := by
  induction ds with
  | nil => intro w; simp [parseLoop]
  | cons d ds ih =>
    intro w
    have hd := parseParam_isSome info w d
    cases hp : parseParam info w d with
    | none =>
      rw [hp] at hd
      simp only [parseLoop, hp, true_iff]
      exact ⟨d, List.mem_cons_self _ _, hd.symm⟩
    | some w1 =>
      rw [hp] at hd
      simp only [parseLoop, hp]
      rw [ih w1]
      constructor
      · rintro ⟨e, he, hr⟩
        exact ⟨e, List.mem_cons_of_mem _ he, hr⟩
      · rintro ⟨e, he, hr⟩
        rcases List.mem_cons.1 he with he | he
        · rw [he, ← hd] at hr
          cases hr
        · exact ⟨e, he, hr⟩

/-- C3, amended: `ParseParams` returns `false` exactly on the parameter lists that contain,
at any place, a directive that is not read as one of the forms, whatever the worker is.
The reading is lenient: the index and the flag are decoded by `atoi` and the `P` key is
recognized by its first letter, so `Pxyz`, `Power=1` and `Turbo=abc` are read as `P0`, `P0=1`
and `Turbo=0`; every other text is rejected. -/
theorem C3_fails_iff_directive_not_read (info : Info) (w : Worker) (prog : List Char)
    (ds : List (List Char)) :
    (ParseParams info w (prog :: ds)).1 = false ↔ ∃ d ∈ ds, readAsDirective info d = false := by
  unfold ParseParams
  simp only [List.drop_succ_cons, List.drop_zero]
  exact parseLoop_fails_iff info ds _

/-- C3 on eight P-states and two northbridge P-states: the lists with `P`, `P=5`, a bare
`Turbo`, `APM` or `NB_low`, `Turbo=`, `Turbo=2x`, `P8x`, `P8=10` or `NB_P2=8` are rejected, and
so is `P1=10 Turbo=2 P0`, where accepted directives stand around the rejected one. -/
theorem C3_fails_iff_directive_not_read_witness :
    (ParseParams (simInfo 8) Worker.new [[], ['P']]).1 = false ∧
    (ParseParams (simInfo 8) Worker.new [[], ['P', '=', '5']]).1 = false ∧
    (ParseParams (simInfo 8) Worker.new [[], ['T', 'u', 'r', 'b', 'o']]).1 = false ∧
    (ParseParams (simInfo 8) Worker.new [[], ['A', 'P', 'M']]).1 = false ∧
    (ParseParams (simInfo 8) Worker.new [[], ['N', 'B', '_', 'l', 'o', 'w']]).1 = false ∧
    (ParseParams (simInfo 8) Worker.new [[], ['T', 'u', 'r', 'b', 'o', '=']]).1 = false ∧
    (ParseParams (simInfo 8) Worker.new [[], ['T', 'u', 'r', 'b', 'o', '=', '2', 'x']]).1
      = false ∧
    (ParseParams (simInfo 8) Worker.new [[], ['P', '8', 'x']]).1 = false ∧
    (ParseParams (simInfo 8) Worker.new [[], ['P', '8', '=', '1', '0']]).1 = false ∧
    (ParseParams (simInfo 8) Worker.new [[], ['N', 'B', '_', 'P', '2', '=', '8']]).1 = false ∧
    (ParseParams (simInfo 8) Worker.new
      [[], ['P', '1', '=', '1', '0'], ['T', 'u', 'r', 'b', 'o', '=', '2'], ['P', '0']]).1
      = false :=
  ⟨(C3_fails_iff_directive_not_read (simInfo 8) Worker.new [] _).2
      ⟨['P'], by decide, by decide⟩,
    (C3_fails_iff_directive_not_read (simInfo 8) Worker.new [] _).2
      ⟨['P', '=', '5'], by decide, by decide⟩,
    (C3_fails_iff_directive_not_read (simInfo 8) Worker.new [] _).2
      ⟨['T', 'u', 'r', 'b', 'o'], by decide, by decide⟩,
    (C3_fails_iff_directive_not_read (simInfo 8) Worker.new [] _).2
      ⟨['A', 'P', 'M'], by decide, by decide⟩,
    (C3_fails_iff_directive_not_read (simInfo 8) Worker.new [] _).2
      ⟨['N', 'B', '_', 'l', 'o', 'w'], by decide, by decide⟩,
    (C3_fails_iff_directive_not_read (simInfo 8) Worker.new [] _).2
      ⟨['T', 'u', 'r', 'b', 'o', '='], by decide, by decide⟩,
    (C3_fails_iff_directive_not_read (simInfo 8) Worker.new [] _).2
      ⟨['T', 'u', 'r', 'b', 'o', '=', '2', 'x'], by decide, by decide⟩,
    (C3_fails_iff_directive_not_read (simInfo 8) Worker.new [] _).2
      ⟨['P', '8', 'x'], by decide, by decide⟩,
    (C3_fails_iff_directive_not_read (simInfo 8) Worker.new [] _).2
      ⟨['P', '8', '=', '1', '0'], by decide, by decide⟩,
    (C3_fails_iff_directive_not_read (simInfo 8) Worker.new [] _).2
      ⟨['N', 'B', '_', 'P', '2', '=', '8'], by decide, by decide⟩,
    (C3_fails_iff_directive_not_read (simInfo 8) Worker.new [] _).2
      ⟨['T', 'u', 'r', 'b', 'o', '=', '2'], by decide, by decide⟩⟩

/-! ## A failed parse -/

theorem parseLoop_false (info : Info) (ds : List (List Char)) : ∀ w : Worker,
    (parseLoop info w ds).1 = false →
    ∃ (pre : List (List Char)) (d : List Char) (post : List (List Char)) (w1 : Worker),
      ds = pre ++ d :: post ∧ parseLoop info w pre = (true, w1) ∧
      parseParam info w1 d = none ∧ parseLoop info w ds = (false, w1) := by
  induction ds with
  | nil => intro w h; simp [parseLoop] at h
  | cons p ds ih =>
    intro w h
    cases hp : parseParam info w p with
    | none =>
      exact ⟨[], p, ds, w, rfl, rfl, hp, by simp only [parseLoop, hp]⟩
    | some w2 =>
      simp only [parseLoop, hp] at h
      obtain ⟨pre, d, post, w1, hds, hpre, hd, hres⟩ := ih w2 h
      refine ⟨p :: pre, d, post, w1, ?_, ?_, hd, ?_⟩
      · rw [hds]; rfl
      · simp only [parseLoop, hp]; exact hpre
      · simp only [parseLoop, hp]; exact hres

/-- C4, counterexample: on `P1=10`, `Turbo=2` the parse fails at `Turbo=2`, and the worker
still holds the multiplier 10 that `P1=10` assigned to entry 1. -/
theorem C4_failed_parse_keeps_changes :
    (ParseParams (simInfo 2) Worker.new
      [[], ['P', '1', '=', '1', '0'], ['T', 'u', 'r', 'b', 'o', '=', '2']]).1 = false ∧
    ((ParseParams (simInfo 2) Worker.new
      [[], ['P', '1', '=', '1', '0'], ['T', 'u', 'r', 'b', 'o', '=', '2']]).2._pStates.map
        fun p => p.Multi) = [-1, 10] ∧
    (ParseParams (simInfo 2) Worker.new
      [[], ['P', '1', '=', '1', '0'], ['T', 'u', 'r', 'b', 'o', '=', '2']]).2
      ≠ initTables (simInfo 2) Worker.new := by
  decide!

/-- C4, amended: when `ParseParams` returns `false`, the parameter list splits into accepted
directives `pre`, the first rejected directive `d` and the rest `post`; the worker is
exactly the worker that `ParseParams` produces, with `true`, on `pre` alone: the
assignments of the directives before `d` are kept, not rolled back, and nothing of `post`
is applied.  In particular every field is still unset when `d` is the first directive. -/
theorem C4_failure_keeps_accepted_part (info : Info) (w : Worker) (argv : List (List Char))
    (h : (ParseParams info w argv).1 = false) :
    ∃ (prog : List Char) (pre : List (List Char)) (d : List Char) (post : List (List Char))
      (w1 : Worker),
      argv = prog :: (pre ++ d :: post) ∧
      ParseParams info w (prog :: pre) = (true, w1) ∧
      ParseParams info w (prog :: (pre ++ [d])) = (false, w1) ∧
      ParseParams info w argv = (false, w1) ∧
      (pre = [] → w1 = initTables info w) := by
  cases argv with
  | nil => simp [ParseParams, parseLoop] at h
  | cons prog ds =>
    unfold ParseParams at h
    simp only [List.drop_succ_cons, List.drop_zero] at h
    obtain ⟨pre, d, post, w1, hds, hpre, hd, hres⟩ := parseLoop_false info ds _ h
    refine ⟨prog, pre, d, post, w1, by rw [hds], ?_, ?_, ?_, ?_⟩
    · unfold ParseParams
      simpa only [List.drop_succ_cons, List.drop_zero] using hpre
    · have hp : ParseParams info w (prog :: pre) = (true, w1) := by
        unfold ParseParams
        simpa only [List.drop_succ_cons, List.drop_zero] using hpre
      rw [ParseParams_snoc info w w1 prog pre d hp, hd]
    · unfold ParseParams
      simpa only [List.drop_succ_cons, List.drop_zero] using hres
    · intro hnil
      rw [hnil] at hpre
      simp only [parseLoop, Prod.mk.injEq, true_and] at hpre
      exact hpre.symm

/-- C4 on `P1=10`, `Turbo=2`. -/
theorem C4_failure_keeps_accepted_part_witness :
    ∃ (prog : List Char) (pre : List (List Char)) (d : List Char) (post : List (List Char))
      (w1 : Worker),
      [[], ['P', '1', '=', '1', '0'], ['T', 'u', 'r', 'b', 'o', '=', '2']]
        = prog :: (pre ++ d :: post) ∧
      ParseParams (simInfo 2) Worker.new (prog :: pre) = (true, w1) ∧
      ParseParams (simInfo 2) Worker.new (prog :: (pre ++ [d])) = (false, w1) ∧
      ParseParams (simInfo 2) Worker.new
        [[], ['P', '1', '=', '1', '0'], ['T', 'u', 'r', 'b', 'o', '=', '2']] = (false, w1) ∧
      (pre = [] → w1 = initTables (simInfo 2) Worker.new) :=
  C4_failure_keeps_accepted_part (simInfo 2) Worker.new
    [[], ['P', '1', '=', '1', '0'], ['T', 'u', 'r', 'b', 'o', '=', '2']] (by decide)

/-! ## The frame of parsing -/

theorem PEntryFrame_mono (M M1 : List Char → Prop) (hM : ∀ d, M d → M1 d) (i : Nat)
    (p : PStateInfo) (h : PEntryFrame M i p) : PEntryFrame M1 i p := by
  obtain ⟨h1, h2, h3, h4⟩ := h
  refine ⟨?_, ?_, ?_, h4⟩
  · intro hne; obtain ⟨d, hd, hr⟩ := h1 hne; exact ⟨d, hM d hd, hr⟩
  · intro hne; obtain ⟨d, hd, hr⟩ := h2 hne; exact ⟨d, hM d hd, hr⟩
  · intro hne; obtain ⟨d, hd, hr⟩ := h3 hne; exact ⟨d, hM d hd, hr⟩

theorem NBEntryFrame_mono (M M1 : List Char → Prop) (hM : ∀ d, M d → M1 d) (i : Nat)
    (p : NBPStateInfo) (h : NBEntryFrame M i p) : NBEntryFrame M1 i p := by
  obtain ⟨h1, h2⟩ := h
  refine ⟨?_, ?_⟩
  · intro hne; obtain ⟨d, hd, hr⟩ := h1 hne; exact ⟨d, hM d hd, hr⟩
  · intro hne; obtain ⟨d, hd, hr⟩ := h2 hne; exact ⟨d, hM d hd, hr⟩

theorem Frame_mono (M M1 : List Char → Prop) (hM : ∀ d, M d → M1 d) (w : Worker)
    (h : Frame M w) : Frame M1 w := by
  obtain ⟨h1, h2, h3, h4, h5⟩ := h
  refine ⟨fun i p hp => PEntryFrame_mono M M1 hM i p (h1 i p hp),
    fun i p hp => NBEntryFrame_mono M M1 hM i p (h2 i p hp), ?_, ?_, ?_⟩
  · intro hne; obtain ⟨d, hd, hr⟩ := h3 hne; exact ⟨d, hM d hd, hr⟩
  · intro hne; obtain ⟨d, hd, hr⟩ := h4 hne; exact ⟨d, hM d hd, hr⟩
  · intro hne; obtain ⟨d, hd, hr⟩ := h5 hne; exact ⟨d, hM d hd, hr⟩

theorem getElem?_modify_some {α : Type} (f : α → α) (n : Nat) (l : List α) (i : Nat) (p : α)
    (h : (List.modify f n l)[i]? = some p) :
    ∃ q, l[i]? = some q ∧ p = if n = i then f q else q := by
  rw [List.getElem?_modify] at h
  cases hq : l[i]? with
  | none => rw [hq] at h; cases h
  | some q =>
    rw [hq] at h
    simp only [Functor.map, Option.map_some', Option.some.injEq] at h
    exact ⟨q, rfl, h.symm⟩

/-- Assigning `Multi` of entry `n` keeps the frame when the directive names entry `n` and
gives a `<multi>`. -/
theorem PEntryFrame_setMulti (M : List Char → Prop) (d : List Char) (hd : M d) (n : Nat)
    (hn : namesPState n d) (hg : givesMulti d) (x : ℚ) (l : List PStateInfo)
    (hl : ∀ (i : Nat) (p : PStateInfo), l[i]? = some p → PEntryFrame M i p) :
    ∀ (i : Nat) (p : PStateInfo),
      (List.modify (fun p => { p with Multi := x }) n l)[i]? = some p → PEntryFrame M i p := by
  intro i p hp
  obtain ⟨q, hq, hpq⟩ := getElem?_modify_some _ n l i p hp
  obtain ⟨h1, h2, h3, h4⟩ := hl i q hq
  by_cases hni : n = i
  · subst hni
    rw [if_pos rfl] at hpq
    subst hpq
    exact ⟨fun _ => ⟨d, hd, hn, hg⟩, h2, h3, h4⟩
  · rw [if_neg hni] at hpq
    subst hpq
    exact ⟨h1, h2, h3, h4⟩

theorem PEntryFrame_setVID (M : List Char → Prop) (d : List Char) (hd : M d) (n : Nat)
    (hn : namesPState n d) (hg : givesVid d) (x : Int) (l : List PStateInfo)
    (hl : ∀ (i : Nat) (p : PStateInfo), l[i]? = some p → PEntryFrame M i p) :
    ∀ (i : Nat) (p : PStateInfo),
      (List.modify (fun p => { p with VID := x }) n l)[i]? = some p → PEntryFrame M i p := by
  intro i p hp
  obtain ⟨q, hq, hpq⟩ := getElem?_modify_some _ n l i p hp
  obtain ⟨h1, h2, h3, h4⟩ := hl i q hq
  by_cases hni : n = i
  · subst hni
    rw [if_pos rfl] at hpq
    subst hpq
    exact ⟨h1, fun _ => ⟨d, hd, hn, hg⟩, h3, h4⟩
  · rw [if_neg hni] at hpq
    subst hpq
    exact ⟨h1, h2, h3, h4⟩

theorem NBEntryFrame_setMulti (M : List Char → Prop) (d : List Char) (hd : M d) (n : Nat)
    (hn : namesNBPState n d) (hg : givesMulti d) (x : ℚ) (l : List NBPStateInfo)
    (hl : ∀ (i : Nat) (p : NBPStateInfo), l[i]? = some p → NBEntryFrame M i p) :
    ∀ (i : Nat) (p : NBPStateInfo),
      (List.modify (fun p => { p with Multi := x }) n l)[i]? = some p → NBEntryFrame M i p := by
  intro i p hp
  obtain ⟨q, hq, hpq⟩ := getElem?_modify_some _ n l i p hp
  obtain ⟨h1, h2⟩ := hl i q hq
  by_cases hni : n = i
  · subst hni
    rw [if_pos rfl] at hpq
    subst hpq
    exact ⟨fun _ => ⟨d, hd, hn, hg⟩, h2⟩
  · rw [if_neg hni] at hpq
    subst hpq
    exact ⟨h1, h2⟩

theorem NBEntryFrame_setVID (M : List Char → Prop) (d : List Char) (hd : M d) (n : Nat)
    (hn : namesNBPState n d) (hg : givesVid d) (x : Int) (l : List NBPStateInfo)
    (hl : ∀ (i : Nat) (p : NBPStateInfo), l[i]? = some p → NBEntryFrame M i p) :
    ∀ (i : Nat) (p : NBPStateInfo),
      (List.modify (fun p => { p with VID := x }) n l)[i]? = some p → NBEntryFrame M i p := by
  intro i p hp
  obtain ⟨q, hq, hpq⟩ := getElem?_modify_some _ n l i p hp
  obtain ⟨h1, h2⟩ := hl i q hq
  by_cases hni : n = i
  · subst hni
    rw [if_pos rfl] at hpq
    subst hpq
    exact ⟨h1, fun _ => ⟨d, hd, hn, hg⟩⟩
  · rw [if_neg hni] at hpq
    subst hpq
    exact ⟨h1, h2⟩

/-- The frame of the new worker with its unset tables. -/
theorem Frame_initTables (M : List Char → Prop) (info : Info) :
    Frame M (initTables info Worker.new) := by
  refine ⟨?_, ?_, ?_, ?_, ?_⟩
  · intro i p hp
    simp only [initTables, Worker.new, List.nil_append, List.getElem?_map] at hp
    cases hr : (List.range info.NumPStates.toNat)[i]? with
    | none => rw [hr] at hp; cases hp
    | some j =>
      rw [hr] at hp
      simp only [Option.map_some', Option.some.injEq] at hp
      subst hp
      exact ⟨fun h => absurd rfl h, fun h => absurd rfl h, fun h => absurd rfl h, rfl⟩
  · intro i p hp
    simp only [initTables, Worker.new, List.nil_append, List.getElem?_map] at hp
    cases hr : (List.range info.NumNBPStates.toNat)[i]? with
    | none => rw [hr] at hp; cases hp
    | some j =>
      rw [hr] at hp
      simp only [Option.map_some', Option.some.injEq] at hp
      subst hp
      exact ⟨fun h => absurd rfl h, fun h => absurd rfl h⟩
  · intro h; exact absurd rfl h
  · intro h; exact absurd rfl h
  · intro h; exact absurd rfl h

/-- One accepted directive keeps the frame, with the directive added to the named ones. -/
theorem Frame_parseParam (info : Info) (M : List Char → Prop) (w w1 : Worker) (d : List Char)
    (hF : Frame M w) (h : parseParam info w d = some w1) :
    Frame (fun x => M x ∨ x = d) w1 := by
  have hF1 : Frame (fun x => M x ∨ x = d) w := Frame_mono M _ (fun x hx => Or.inl hx) w hF
  have hd : (fun x => M x ∨ x = d) d := Or.inr rfl
  obtain ⟨f1, f2, f3, f4, f5⟩ := hF1
  rcases parseParam_cases info w w1 d h with ⟨hv, hb⟩ | ⟨hv, hp | hn | hl | ht | ha⟩
  · unfold parseBare at hb
    split at hb
    · next hc =>
      split at hb
      · cases hb
        exact ⟨f1, f2, fun _ => ⟨d, hd, hv, hc.2⟩, f4, f5⟩
      · cases hb
    · cases hb
  · unfold parsePState at hp
    split at hp
    · next hc =>
      split at hp
      · next hr =>
        simp only [Option.some.injEq] at hp
        have hnames : namesPState (atoi (List.drop 1 (SplitPair d '=').1)).toNat d := by
          refine ⟨hv, hc.2, ?_⟩
          simp only [keyOf]
          omega
        by_cases hm : (SplitPair (SplitPair d '=').2 '@').1 = [] <;>
          by_cases hvid : (SplitPair (SplitPair d '=').2 '@').2 = [] <;>
          simp only [hm, hvid, ne_eq, not_true_eq_false, not_false_eq_true, if_true, if_false]
            at hp <;>
          rw [← hp]
        · exact ⟨f1, f2, f3, f4, f5⟩
        · exact ⟨PEntryFrame_setVID _ d hd _ hnames hvid _ _ f1, f2, f3, f4, f5⟩
        · exact ⟨PEntryFrame_setMulti _ d hd _ hnames hm _ _ f1, f2, f3, f4, f5⟩
        · exact ⟨PEntryFrame_setVID _ d hd _ hnames hvid _ _
            (PEntryFrame_setMulti _ d hd _ hnames hm _ _ f1), f2, f3, f4, f5⟩
      · cases hp
    · cases hp
  · unfold parseNBPState at hn
    split at hn
    · next hc =>
      split at hn
      · next hr =>
        simp only [Option.some.injEq] at hn
        have hnames : namesNBPState (atoi (List.drop 4 (SplitPair d '=').1)).toNat d := by
          refine ⟨hv, ?_, ?_⟩
          · have := hc.2
            simp only [strnicmpEq, decide_eq_true_eq] at this
            exact this.trans (by decide)
          · simp only [keyOf]
            omega
        by_cases hm : (SplitPair (SplitPair d '=').2 '@').1 = [] <;>
          by_cases hvid : (SplitPair (SplitPair d '=').2 '@').2 = [] <;>
          simp only [hm, hvid, ne_eq, not_true_eq_false, not_false_eq_true, if_true, if_false]
            at hn <;>
          rw [← hn]
        · exact ⟨f1, f2, f3, f4, f5⟩
        · exact ⟨f1, NBEntryFrame_setVID _ d hd _ hnames hvid _ _ f2, f3, f4, f5⟩
        · exact ⟨f1, NBEntryFrame_setMulti _ d hd _ hnames hm _ _ f2, f3, f4, f5⟩
        · exact ⟨f1, NBEntryFrame_setVID _ d hd _ hnames hvid _ _
            (NBEntryFrame_setMulti _ d hd _ hnames hm _ _ f2), f3, f4, f5⟩
      · cases hn
    · cases hn
  · unfold parseNBLow at hl
    split at hl
    · next hc =>
      cases hl
      have hnames : namesNBLow d := by
        refine ⟨hv, ?_⟩
        simp only [stricmpEq, decide_eq_true_eq] at hc
        exact hc.trans (by decide)
      refine ⟨?_, f2, f3, f4, f5⟩
      intro i p hp
      simp only [assignNBLow_getElem?] at hp
      cases hq : w._pStates[i]? with
      | none => rw [hq] at hp; cases hp
      | some q =>
        rw [hq] at hp
        simp only [Option.map_some', Option.some.injEq] at hp
        obtain ⟨h1, h2, h3, h4⟩ := f1 i q hq
        rw [← hp]
        split
        · exact ⟨h1, h2, fun _ => ⟨d, hd, hnames⟩, h4⟩
        · exact ⟨h1, h2, h3, h4⟩
    · cases hl
  · unfold parseTurbo at ht
    split at ht
    · next hc =>
      split at ht
      · cases ht
        simp only [stricmpEq, decide_eq_true_eq] at hc
        exact ⟨f1, f2, f3, fun _ => ⟨d, hd, hv, hc.trans (by decide)⟩, f5⟩
      · cases ht
    · cases ht
  · unfold parseAPM at ha
    split at ha
    · next hc =>
      split at ha
      · cases ha
        simp only [stricmpEq, decide_eq_true_eq] at hc
        exact ⟨f1, f2, f3, f4, fun _ => ⟨d, hd, hv, hc.trans (by decide)⟩⟩
      · cases ha
    · cases ha

theorem Frame_parseLoop (info : Info) (ds : List (List Char)) :
    ∀ (M : List Char → Prop) (w w1 : Worker), Frame M w →
      parseLoop info w ds = (true, w1) → Frame (fun x => M x ∨ x ∈ ds) w1 := by
  induction ds with
  | nil =>
    intro M w w1 hF h
    simp only [parseLoop, Prod.mk.injEq, true_and] at h
    rw [← h]
    exact Frame_mono M _ (fun x hx => Or.inl hx) w hF
  | cons d ds ih =>
    intro M w w1 hF h
    simp only [parseLoop] at h
    cases hd : parseParam info w d with
    | none => rw [hd] at h; cases h
    | some w2 =>
      rw [hd] at h
      have h2 := ih _ w2 w1 (Frame_parseParam info M w w2 d hF hd) h
      refine Frame_mono _ _ ?_ w1 h2
      intro x hx
      rcases hx with (hx | hx) | hx
      · exact Or.inl hx
      · exact Or.inr (hx ▸ List.mem_cons_self _ _)
      · exact Or.inr (List.mem_cons_of_mem _ hx)

/-- C5, counterexample: `P1=` is not of the bare form `P<N>` and sets `_pState` to 1;
`Power=1` is not of the form `P<N>=...` for the index 0 and sets the multiplier of
entry 0. -/
theorem C5_fields_set_by_other_text :
    (isBareTargetText ['P', '1', '='] = false ∧
      ParseParams (simInfo 2) Worker.new [[], ['P', '1', '=']]
        = (true, { initTables (simInfo 2) Worker.new with _pState := 1 })) ∧
    (isPStateText 0 ['P', 'o', 'w', 'e', 'r', '=', '1'] = false ∧
      (ParseParams (simInfo 2) Worker.new [[], ['P', 'o', 'w', 'e', 'r', '=', '1']]).1 = true ∧
      ((ParseParams (simInfo 2) Worker.new
        [[], ['P', 'o', 'w', 'e', 'r', '=', '1']]).2._pStates.map fun p => p.Multi)
        = [1, -1]) := by
  decide!

/-- C5, amended: after a successful `ParseParams` on a new worker, every field that is not
unset (-1) was assigned by a directive of the list that reaches the branch of that field.
`Multi` / `VID` of P-state entry `i`: a directive with a non-empty value, a key that starts
with `p` or `P` and index text that `atoi` decodes to `i`, and a non-empty `<multi>` /
`<vid>`.  `NBPState`: a directive with key `NB_low`.  `Multi` / `VID` of northbridge entry
`i`: a directive with a non-empty value and a key `NB_P...` whose index text decodes to
`i`.  `_pState`: a directive with an empty value that starts with `p` or `P`, which
includes `P1=`.  `_turbo`: key `Turbo`.  `_apm`: key `APM`.  `NBVID` is -1 in every
entry. -/
theorem C5_parse_frame (info : Info) (argv : List (List Char)) (w : Worker)
    (h : ParseParams info Worker.new argv = (true, w)) :
    Frame (fun d => d ∈ argv.drop 1) w := by
  unfold ParseParams at h
  have hF := Frame_parseLoop info (argv.drop 1) (fun _ => False) _ w
    (Frame_initTables _ info) h
  exact Frame_mono _ _ (fun x hx => hx.elim False.elim id) w hF

/-- C5 on `P1=` with two P-states. -/
theorem C5_parse_frame_witness :
    Frame (fun d => d ∈ [['P', '1', '=']])
      { initTables (simInfo 2) Worker.new with _pState := 1 } :=
  C5_parse_frame (simInfo 2) [[], ['P', '1', '=']] _ (by decide!)

/-! ## The call trace of the per-core loops -/

theorem foldl_emit_trace {σ α : Type} (m : Machine σ) (p : α → Bool) (f : α → Call)
    (l : List α) : ∀ s : Sys σ,
    (l.foldl (fun s x => if p x then emit m s (f x) else s) s).trace =
      s.trace ++ (l.filter p).map f := by
  induction l with
  | nil => intro s; simp
  | cons a l ih =>
    intro s
    rw [List.foldl_cons, ih]
    by_cases hp : p a = true
    · simp [hp, emit]
    · simp [hp]

theorem writeNBPStates_trace_eq {σ : Type} (m : Machine σ) (w : Worker) (s : Sys σ) :
    (writeNBPStates m w s).trace =
      s.trace ++ (w._nbPStates.filter ContainsChangesNB).map Call.WriteNBPState :=
  foldl_emit_trace m ContainsChangesNB Call.WriteNBPState w._nbPStates s

theorem writePStates_trace_eq {σ : Type} (m : Machine σ) (w : Worker) (s : Sys σ) :
    (writePStates m w s).trace =
      s.trace ++ (w._pStates.filter ContainsChanges).map Call.WritePState :=
  foldl_emit_trace m ContainsChanges Call.WritePState w._pStates s

theorem writeCore_trace {σ : Type} (m : Machine σ) (info : Info) (w : Worker) (s : Sys σ)
    (j : Nat) : (writeCore m info w s j).trace = s.trace ++ tableWriteCalls info w j := by
  unfold writeCore tableWriteCalls boostDisableCalls
  simp only
  split
  · simp [emit, writePStates_trace_eq]
  · simp [emit, writePStates_trace_eq]

theorem foldl_writeCore_trace {σ : Type} (m : Machine σ) (info : Info) (w : Worker)
    (js : List Nat) : ∀ s : Sys σ,
    (js.foldl (writeCore m info w) s).trace = s.trace ++ js.flatMap (tableWriteCalls info w) := by
  induction js with
  | nil => intro s; simp
  | cons j js ih =>
    intro s
    rw [List.foldl_cons, ih, writeCore_trace, List.flatMap_cons, List.append_assoc]

/-- One iteration of the second loop that returns: the target is set and differs from the
active index, or the active index is inside the table. -/
theorem switchCore_inb {σ : Type} (m : Machine σ) (info : Info) (w : Worker) (s s1 : Sys σ)
    (j : Nat) (h : switchCore m info w s j = some s1) :
    (0 ≤ w._pState ∧ w._pState ≠ m.GetCurrentPState (emit m s (.SwitchTo j)).hw) ∨
    ∃ psi, getInt? w._pStates (m.GetCurrentPState (emit m s (.SwitchTo j)).hw) = some psi := by
  unfold switchCore at h
  simp only at h
  by_cases hc : 0 ≤ w._pState ∧ w._pState ≠ m.GetCurrentPState (emit m s (.SwitchTo j)).hw
  · exact Or.inl hc
  · have hnew : ¬ ((if 0 ≤ w._pState then w._pState
        else m.GetCurrentPState (emit m s (.SwitchTo j)).hw) ≠
        m.GetCurrentPState (emit m s (.SwitchTo j)).hw) := by
      by_cases h0 : 0 ≤ w._pState
      · rw [if_pos h0]; exact fun h1 => hc ⟨h0, h1⟩
      · rw [if_neg h0]; exact fun h1 => h1 rfl
    rw [if_neg hnew] at h
    cases hg : getInt? w._pStates (m.GetCurrentPState (emit m s (.SwitchTo j)).hw) with
    | none => rw [hg] at h; cases h
    | some psi => exact Or.inr ⟨psi, rfl⟩

/-- One iteration of the second loop: the calls are those of the specification for the
active index that the machine returned, and that index is inside the table whenever the
table is read. -/
theorem switchCore_trace {σ : Type} (m : Machine σ) (info : Info) (w : Worker) (s s1 : Sys σ)
    (j : Nat) (h : switchCore m info w s j = some s1) :
    ∃ c : Int, ((∃ hw : σ, c = m.GetCurrentPState hw) ∧
        ((0 ≤ w._pState ∧ w._pState ≠ c) ∨ ∃ psi, getInt? w._pStates c = some psi)) ∧
      s1.trace = s.trace ++ activeStateCalls info w (j, c) := by
  refine ⟨m.GetCurrentPState (emit m s (.SwitchTo j)).hw,
    ⟨⟨_, rfl⟩, switchCore_inb m info w s s1 j h⟩, ?_⟩
  unfold switchCore at h
  simp only at h
  unfold activeStateCalls selectCalls
  by_cases hc : 0 ≤ w._pState ∧ w._pState ≠ m.GetCurrentPState (emit m s (.SwitchTo j)).hw
  · rw [if_pos hc.1, if_pos hc.2] at h
    cases h
    rw [if_pos hc]
    simp [emit]
  · have hnew : ¬ ((if 0 ≤ w._pState then w._pState
        else m.GetCurrentPState (emit m s (.SwitchTo j)).hw) ≠
        m.GetCurrentPState (emit m s (.SwitchTo j)).hw) := by
      by_cases h0 : 0 ≤ w._pState
      · rw [if_pos h0]; exact fun h1 => hc ⟨h0, h1⟩
      · rw [if_neg h0]; exact fun h1 => h1 rfl
    rw [if_neg hnew] at h
    rw [if_neg hc]
    cases hg : getInt? w._pStates (m.GetCurrentPState (emit m s (.SwitchTo j)).hw) with
    | none => rw [hg] at h; cases h
    | some psi =>
      rw [hg] at h
      simp only at h
      by_cases hcc : ContainsChanges psi = true
      · rw [if_pos hcc] at h
        cases h
        simp [emit, hcc, relatchPState]
      · rw [if_neg hcc] at h
        cases h
        simp [emit, hcc]

theorem foldlM_switchCore_trace {σ : Type} (m : Machine σ) (info : Info) (w : Worker)
    (js : List Nat) : ∀ s s1 : Sys σ, js.foldlM (switchCore m info w) s = some s1 →
    ∃ cs : List Int, cs.length = js.length ∧
      (∀ c ∈ cs, (∃ hw : σ, c = m.GetCurrentPState hw) ∧
        ((0 ≤ w._pState ∧ w._pState ≠ c) ∨ ∃ psi, getInt? w._pStates c = some psi)) ∧
      s1.trace = s.trace ++ (js.zip cs).flatMap (activeStateCalls info w) := by
  induction js with
  | nil =>
    intro s s1 h
    simp only [List.foldlM_nil] at h
    cases h
    refine ⟨[], rfl, ?_, ?_⟩
    · intro c hc
      exact absurd hc (List.not_mem_nil c)
    · simp
  | cons j js ih =>
    intro s s1 h
    rw [List.foldlM_cons] at h
    cases hj : switchCore m info w s j with
    | none => rw [hj] at h; cases h
    | some s2 =>
      rw [hj] at h
      obtain ⟨c, hc, htr⟩ := switchCore_trace m info w s s2 j hj
      obtain ⟨cs, hlen, hcs, htr2⟩ := ih s2 s1 h
      refine ⟨c :: cs, by simp [hlen], ?_, ?_⟩
      · intro x hx
        rcases List.mem_cons.1 hx with hx | hx
        · rw [hx]; exact hc
        · exact hcs x hx
      · rw [htr2, htr, List.zip_cons_cons, List.flatMap_cons, List.append_assoc]

/-- The calls of lines 221-276 are those of steps 4 to 7 of the specification, over the
number of logical processors that the machine reported. -/
theorem applyPrimary_trace {σ : Type} (m : Machine σ) (info : Info) (w : Worker) (s s1 : Sys σ)
    (h : applyPrimary m info w s = some s1) :
    ∃ (n : Nat) (cs : List Int), (∃ hw : σ, n = m.dwNumberOfProcessors hw) ∧ cs.length = n ∧
      (∀ c ∈ cs, (∃ hw : σ, c = m.GetCurrentPState hw) ∧
        ((0 ≤ w._pState ∧ w._pState ≠ c) ∨ ∃ psi, getInt? w._pStates c = some psi)) ∧
      s1.trace = s.trace ++ primaryCalls info w n cs := by
  unfold applyPrimary at h
  simp only at h
  split at h
  · cases h
  · next s6 h6 =>
    cases h
    obtain ⟨cs, hlen, hcs, htr⟩ := foldlM_switchCore_trace m info w _ _ s6 h6
    refine ⟨_, cs, ⟨_, rfl⟩, by simpa using hlen, hcs, ?_⟩
    simp only [emit, htr, foldl_writeCore_trace, primaryCalls, globalCalls]
    split <;> split <;> simp [List.append_assoc]

/-! ## The northbridge part: worker and calls -/

theorem set_getElem?_self {α : Type} (l : List α) (i : Nat) (a : α) (h : l[i]? = some a) :
    l.set i a = l := by
  apply List.ext_getElem?
  intro n
  rw [List.getElem?_set]
  by_cases hin : i = n
  · subst hin
    rw [if_pos rfl, h]
    have hlt : i < l.length := (List.getElem?_eq_some.1 h).1
    rw [if_pos hlt]
  · rw [if_neg hin]

/-- One iteration of the family 0x10 loop: entry `i` becomes its derived entry, nothing
else of the worker changes, the only call is the `ReadPState` of an entry without a
requested association, and the machine changes by `ReadPState` calls only. -/
theorem deriveNBVID_step {σ : Type} (m : Machine σ)
    (ws ws1 : Worker × Sys σ) (i : Nat) (h : deriveNBVID m ws i = some ws1) :
    ∃ p p1 : PStateInfo, ws.1._pStates[i]? = some p ∧
      derivedEntry m ws.2.hw ws.1._nbPStates i p = some p1 ∧
      ws1.1 = { ws.1 with _pStates := ws.1._pStates.set i p1 } ∧
      ((∀ (hw : σ) (i : Int), m.exec hw (.ReadPState i) = hw) → ws1.2.hw = ws.2.hw) ∧
      ∃ nb : List Call, ws1.2.trace = ws.2.trace ++ nb ∧ ∀ x ∈ nb, x.isReadPState = true := by
  unfold deriveNBVID at h
  cases hp : ws.1._pStates[i]? with
  | none => rw [hp] at h; cases h
  | some p =>
    rw [hp] at h
    simp only at h
    have hres : (if 0 ≤ p.NBPState then (p.NBPState, ws.2)
        else ((m.ReadPState ws.2.hw i).NBPState, emit m ws.2 (.ReadPState i))).1
        = resolveNB m ws.2.hw i p := by
      unfold resolveNB
      split <;> rfl
    have hhw : (∀ (hw : σ) (i : Int), m.exec hw (.ReadPState i) = hw) →
        (if 0 ≤ p.NBPState then (p.NBPState, ws.2)
        else ((m.ReadPState ws.2.hw i).NBPState, emit m ws.2 (.ReadPState i))).2.hw
        = ws.2.hw := by
      intro hpure
      split
      · rfl
      · exact hpure _ _
    have htr : ∃ nb : List Call, (if 0 ≤ p.NBPState then (p.NBPState, ws.2)
        else ((m.ReadPState ws.2.hw i).NBPState, emit m ws.2 (.ReadPState i))).2.trace
        = ws.2.trace ++ nb ∧ ∀ x ∈ nb, x.isReadPState = true := by
      split
      · exact ⟨[], by simp, fun x hx => absurd hx (List.not_mem_nil x)⟩
      · refine ⟨[.ReadPState i], rfl, ?_⟩
        intro x hx
        rw [List.mem_singleton.1 hx]
        rfl
    revert h
    generalize (if 0 ≤ p.NBPState then (p.NBPState, ws.2)
        else ((m.ReadPState ws.2.hw i).NBPState, emit m ws.2 (.ReadPState i))) = r
      at hres hhw htr
    intro h
    cases hnb : getInt? ws.1._nbPStates r.1 with
    | none => rw [hnb] at h; cases h
    | some nb =>
      rw [hnb] at h
      simp only at h
      have hder : derivedEntry m ws.2.hw ws.1._nbPStates i p =
          some (if 0 ≤ nb.VID then { p with NBVID := nb.VID } else p) := by
        unfold derivedEntry
        rw [← hres, hnb]
      refine ⟨p, _, rfl, hder, ?_, ?_, ?_⟩
      · by_cases hv : 0 ≤ nb.VID
        · rw [if_pos hv] at h
          cases h
          rw [if_pos hv]
        · rw [if_neg hv] at h
          cases h
          rw [if_neg hv, set_getElem?_self _ _ _ hp]
      · by_cases hv : 0 ≤ nb.VID
        · rw [if_pos hv] at h; cases h; exact hhw
        · rw [if_neg hv] at h; cases h; exact hhw
      · by_cases hv : 0 ≤ nb.VID
        · rw [if_pos hv] at h; cases h; exact htr
        · rw [if_neg hv] at h; cases h; exact htr

/-- The family 0x10 loop over distinct indexes `js`: the entries of `js` become their derived
entries, the other entries and the rest of the worker stay, and the calls are `ReadPState`
calls. -/
theorem foldlM_deriveNBVID {σ : Type} (m : Machine σ)
    (hpure : ∀ (hw : σ) (i : Int), m.exec hw (.ReadPState i) = hw) (js : List Nat) :
    ∀ (ws ws1 : Worker × Sys σ), js.Nodup → js.foldlM (deriveNBVID m) ws = some ws1 →
      ws1.1 = { ws.1 with _pStates := ws1.1._pStates } ∧
      ws1.1._pStates.length = ws.1._pStates.length ∧
      (∀ i : Nat, ws1.1._pStates[i]? =
        if i ∈ js then (ws.1._pStates[i]?).bind (derivedEntry m ws.2.hw ws.1._nbPStates i)
        else ws.1._pStates[i]?) ∧
      ws1.2.hw = ws.2.hw ∧
      ∃ nb : List Call, ws1.2.trace = ws.2.trace ++ nb ∧ ∀ x ∈ nb, x.isReadPState = true := by
  induction js with
  | nil =>
    intro ws ws1 _ h
    simp only [List.foldlM_nil] at h
    cases h
    exact ⟨rfl, rfl, fun i => by simp, rfl, [], by simp,
      fun x hx => absurd hx (List.not_mem_nil x)⟩
  | cons j js ih =>
    intro ws ws1 hnd h
    rw [List.foldlM_cons] at h
    cases hj : deriveNBVID m ws j with
    | none => rw [hj] at h; cases h
    | some ws2 =>
      rw [hj] at h
      obtain ⟨p, p1, hp, hder, hw2, hhw2', nb2, htr2, hnb2⟩ := deriveNBVID_step m ws ws2 j hj
      have hhw2 := hhw2' hpure
      obtain ⟨hw1, hlen1, hent1, hhw1, nb1, htr1, hnb1⟩ :=
        ih ws2 ws1 (List.nodup_cons.1 hnd).2 h
      have hjnot : j ∉ js := (List.nodup_cons.1 hnd).1
      have hnbs : ws2.1._nbPStates = ws.1._nbPStates := by rw [hw2]
      have hps : ws2.1._pStates = ws.1._pStates.set j p1 := by rw [hw2]
      refine ⟨?_, ?_, ?_, hhw1.trans hhw2, nb2 ++ nb1, ?_, ?_⟩
      · rw [hw1, hw2]
      · rw [hlen1, hps, List.length_set]
      · intro i
        rw [hent1 i, hhw2, hnbs, hps, List.getElem?_set]
        by_cases hij : j = i
        · subst hij
          have hlt : j < ws.1._pStates.length := (List.getElem?_eq_some.1 hp).1
          simp only [hjnot, if_false, if_true, hlt, List.mem_cons, true_or, hp, Option.some_bind,
            hder]
        · have hij2 : ¬ i = j := fun h => hij h.symm
          by_cases hin : i ∈ js
          · simp only [hij, if_false, hin, if_true, List.mem_cons, or_true]
          · simp only [hij, if_false, hin, List.mem_cons, hij2, or_self]
      · rw [htr1, htr2, List.append_assoc]
      · intro x hx
        rcases List.mem_append.1 hx with hx | hx
        · exact hnb2 x hx
        · exact hnb1 x hx

/-- The northbridge part changes nothing of the worker but the P-state table, keeps the
size of that table, and on a family other than 0x15 makes `ReadPState` calls only. -/
theorem applyNorthbridge_frame {σ : Type} (m : Machine σ) (info : Info) (w w1 : Worker)
    (s s1 : Sys σ) (h : applyNorthbridge m info w s = some (w1, s1)) :
    w1 = { w with _pStates := w1._pStates } ∧ w1._pStates.length = w._pStates.length ∧
    (info.Family ≠ 0x15 →
      ∃ nb : List Call, s1.trace = s.trace ++ nb ∧ ∀ x ∈ nb, x.isReadPState = true) := by
  have hnil : ∃ nb : List Call, s.trace = s.trace ++ nb ∧ ∀ x ∈ nb, x.isReadPState = true :=
    ⟨[], by simp, fun x hx => absurd hx (List.not_mem_nil x)⟩
  unfold applyNorthbridge at h
  split at h
  · next h15 =>
    cases h
    exact ⟨rfl, rfl, fun hne => absurd h15 hne⟩
  · split at h
    · cases hany : anyNBVID w with
      | none => rw [hany] at h; cases h
      | some b =>
        rw [hany] at h
        cases b with
        | false => cases h; exact ⟨rfl, rfl, fun _ => hnil⟩
        | true =>
          simp only at h
          have hinv := foldlM_option_invariant
            (fun ws : Worker × Sys σ =>
              ws.1 = { w with _pStates := ws.1._pStates } ∧
              ws.1._pStates.length = w._pStates.length ∧
              ∃ nb : List Call, ws.2.trace = s.trace ++ nb ∧ ∀ x ∈ nb, x.isReadPState = true)
            (deriveNBVID m)
            (fun b a b1 hb hf => by
              obtain ⟨p, p1, _, _, hw2, _, nb2, htr2, hnb2⟩ := deriveNBVID_step m b b1 a hf
              obtain ⟨hb1, hb2, nb, htr, hnb⟩ := hb
              refine ⟨?_, ?_, nb ++ nb2, ?_, ?_⟩
              · rw [hw2, hb1]
              · rw [hw2]
                simp only [List.length_set]
                exact hb2
              · rw [htr2, htr, List.append_assoc]
              · intro x hx
                rcases List.mem_append.1 hx with hx | hx
                · exact hnb x hx
                · exact hnb2 x hx)
            _ (w, s) (w1, s1) ⟨rfl, rfl, hnil⟩ h
          exact ⟨hinv.1, hinv.2.1, fun _ => hinv.2.2⟩
    · cases h
      exact ⟨rfl, rfl, fun _ => hnil⟩

/-- On family 0x15 the northbridge part leaves the worker alone and writes the northbridge
entries that have a non-negative field, once each, in table order. -/
theorem applyNorthbridge_family15 {σ : Type} (m : Machine σ) (info : Info) (w w1 : Worker)
    (s s1 : Sys σ) (h15 : info.Family = 0x15)
    (h : applyNorthbridge m info w s = some (w1, s1)) :
    w1 = w ∧ s1.trace =
      s.trace ++ (w._nbPStates.filter ContainsChangesNB).map Call.WriteNBPState := by
  unfold applyNorthbridge at h
  rw [if_pos h15] at h
  cases h
  exact ⟨rfl, writeNBPStates_trace_eq m w s⟩

/-! ## Every returned run of `ApplyChanges`, and when it returns -/

theorem getInt?_isSome {α : Type} (l : List α) (i : Int) (h0 : 0 ≤ i) (h1 : i < l.length) :
    ∃ a, getInt? l i = some a := by
  unfold getInt?
  rw [if_pos h0]
  have hlt : i.toNat < l.length := by omega
  exact ⟨l[i.toNat], List.getElem?_eq_getElem hlt⟩

/-- Shape of a returned run: the northbridge part, the read of the highest non-boost
P-state, and after a passed safety check the calls of steps 4 to 7. -/
theorem ApplyChanges_trace {σ : Type} (m : Machine σ) (info : Info) (w w1 : Worker)
    (allow b : Bool) (hw : σ) (s : Sys σ)
    (h : ApplyChanges m info w allow hw = some (b, w1, s)) :
    ∃ (s1 : Sys σ) (requested : PStateInfo),
      applyNorthbridge m info w { hw := hw, trace := [] } = some (w1, s1) ∧
      getInt? w1._pStates info.NumBoostStates = some requested ∧
      (b = false ↔
        (requested.Multi ≠ (m.ReadPState s1.hw info.NumBoostStates).Multi ∧ allow = false)) ∧
      (b = false → s.trace = s1.trace ++ [Call.ReadPState info.NumBoostStates]) ∧
      (b = true → ∃ (n : Nat) (cs : List Int),
        (∃ hw1 : σ, n = m.dwNumberOfProcessors hw1) ∧ cs.length = n ∧
        (∀ c ∈ cs, (∃ hw1 : σ, c = m.GetCurrentPState hw1) ∧
          ((0 ≤ w1._pState ∧ w1._pState ≠ c) ∨ ∃ psi, getInt? w1._pStates c = some psi)) ∧
        s.trace = s1.trace ++ [Call.ReadPState info.NumBoostStates] ++
          primaryCalls info w1 n cs) := by
  unfold ApplyChanges at h
  cases hnb : applyNorthbridge m info w { hw := hw, trace := [] } with
  | none => rw [hnb] at h; cases h
  | some r =>
    obtain ⟨w2, s1⟩ := r
    rw [hnb] at h
    simp only at h
    cases hreq : getInt? w2._pStates info.NumBoostStates with
    | none => rw [hreq] at h; cases h
    | some requested =>
      rw [hreq] at h
      simp only at h
      by_cases hc : requested.Multi ≠ (m.ReadPState s1.hw info.NumBoostStates).Multi ∧
          allow = false
      · rw [if_pos hc] at h
        cases h
        exact ⟨s1, requested, rfl, hreq, ⟨fun _ => hc, fun _ => rfl⟩, fun _ => rfl,
          fun hb => Bool.noConfusion hb⟩
      · rw [if_neg hc] at h
        cases hp : applyPrimary m info w2 (emit m s1 (.ReadPState info.NumBoostStates)) with
        | none => rw [hp] at h; cases h
        | some s3 =>
          rw [hp] at h
          cases h
          obtain ⟨n, cs, hn, hlen, hcs, htr⟩ := applyPrimary_trace m info w1 _ s hp
          refine ⟨s1, requested, rfl, hreq, ⟨fun hb => Bool.noConfusion hb,
            fun h => absurd h hc⟩, fun hb => Bool.noConfusion hb,
            fun _ => ⟨n, cs, hn, hlen, hcs, ?_⟩⟩
          rw [htr]
          rfl

theorem foldlM_option_some {α β : Type} (P : β → Prop) (f : β → α → Option β) (l : List α) :
    (∀ b a, a ∈ l → P b → ∃ b1, f b a = some b1 ∧ P b1) →
    ∀ b, P b → ∃ b1, l.foldlM f b = some b1 ∧ P b1 := by
  induction l with
  | nil => intro _ b hb; exact ⟨b, rfl, hb⟩
  | cons a l ih =>
    intro hstep b hb
    obtain ⟨b1, hf, hb1⟩ := hstep b a (List.mem_cons_self _ _) hb
    obtain ⟨b2, hf2, hb2⟩ := ih (fun b a ha => hstep b a (List.mem_cons_of_mem _ ha)) b1 hb1
    exact ⟨b2, by rw [List.foldlM_cons, hf]; exact hf2, hb2⟩

theorem switchCore_returns {σ : Type} (m : Machine σ) (info : Info) (w : Worker) (s : Sys σ)
    (j : Nat)
    (hcur : ∀ hw : σ, 0 ≤ m.GetCurrentPState hw ∧ m.GetCurrentPState hw < w._pStates.length) :
    ∃ s1, switchCore m info w s j = some s1 := by
  unfold switchCore
  simp only
  obtain ⟨psi, hpsi⟩ := getInt?_isSome w._pStates _ (hcur (emit m s (.SwitchTo j)).hw).1
    (hcur (emit m s (.SwitchTo j)).hw).2
  rw [hpsi]
  simp only
  by_cases h1 : (if 0 ≤ w._pState then w._pState
      else m.GetCurrentPState (emit m s (.SwitchTo j)).hw) ≠
      m.GetCurrentPState (emit m s (.SwitchTo j)).hw
  · rw [if_pos h1]
    exact ⟨_, rfl⟩
  · rw [if_neg h1]
    by_cases h2 : ContainsChanges psi = true
    · rw [if_pos h2]
      exact ⟨_, rfl⟩
    · rw [if_neg h2]
      exact ⟨_, rfl⟩

theorem applyPrimary_returns {σ : Type} (m : Machine σ) (info : Info) (w : Worker) (s : Sys σ)
    (hcur : ∀ hw : σ, 0 ≤ m.GetCurrentPState hw ∧ m.GetCurrentPState hw < w._pStates.length) :
    ∃ s1, applyPrimary m info w s = some s1 := by
  unfold applyPrimary
  simp only
  obtain ⟨s6, h6, _⟩ := foldlM_option_some (fun _ : Sys σ => True) (switchCore m info w)
    (List.range (m.dwNumberOfProcessors
      (if 0 ≤ w._apm ∧ info.Family = 0x15 then
        emit m (if 0 ≤ w._turbo ∧ info.IsBoostSupported then
          emit m s (.SetBoostSource (w._turbo = 1)) else s) (.SetAPM (w._apm = 1))
      else (if 0 ≤ w._turbo ∧ info.IsBoostSupported then
          emit m s (.SetBoostSource (w._turbo = 1)) else s)).hw))
    (fun b a _ _ => by
      obtain ⟨s1, h1⟩ := switchCore_returns m info w b a hcur
      exact ⟨s1, h1, trivial⟩)
    _ trivial
  rw [h6]
  exact ⟨_, rfl⟩

theorem anyNBVID_isSome (w : Worker) (h : 2 ≤ w._nbPStates.length) :
    ∃ b, anyNBVID w = some b := by
  unfold anyNBVID
  have h0 : w._nbPStates[0]? = some (w._nbPStates[0]) := List.getElem?_eq_getElem (by omega)
  have h1 : w._nbPStates[1]? = some (w._nbPStates[1]) := List.getElem?_eq_getElem (by omega)
  rw [h0, h1]
  simp only
  split <;> exact ⟨_, rfl⟩

theorem applyNorthbridge_returns {σ : Type} (m : Machine σ) (info : Info) (w : Worker)
    (s : Sys σ) (hb : TablesInBounds m info w) :
    ∃ r, applyNorthbridge m info w s = some r := by
  unfold applyNorthbridge
  split
  · exact ⟨_, rfl⟩
  · split
    · next h10 =>
      obtain ⟨hlen, hreq, hlive⟩ := hb.2.2 h10
      obtain ⟨b, hany⟩ := anyNBVID_isSome w hlen
      rw [hany]
      cases b with
      | false => exact ⟨_, rfl⟩
      | true =>
        simp only
        obtain ⟨r, hr, _⟩ := foldlM_option_some
          (fun ws : Worker × Sys σ =>
            ws.1._nbPStates = w._nbPStates ∧ ws.1._pStates.length = w._pStates.length ∧
            ∀ p ∈ ws.1._pStates, p.NBPState < w._nbPStates.length)
          (deriveNBVID m) (List.range w._pStates.length)
          (fun ws a ha hP => by
            obtain ⟨hP1, hP2, hP3⟩ := hP
            have halt : a < ws.1._pStates.length := by
              rw [hP2]; exact List.mem_range.1 ha
            have hpsi : ws.1._pStates[a]? = some (ws.1._pStates[a]) :=
              List.getElem?_eq_getElem halt
            have hmem : ws.1._pStates[a] ∈ ws.1._pStates := List.getElem_mem halt
            have hres : ∃ nb, getInt? ws.1._nbPStates
                (if 0 ≤ (ws.1._pStates[a]).NBPState then
                  ((ws.1._pStates[a]).NBPState, ws.2)
                else ((m.ReadPState ws.2.hw a).NBPState, emit m ws.2 (.ReadPState a))).1
                = some nb := by
              rw [hP1]
              split
              · next h0 => exact getInt?_isSome _ _ h0 (hP3 _ hmem)
              · exact getInt?_isSome _ _ (hlive _ _).1 (hlive _ _).2
            obtain ⟨nb, hnb⟩ := hres
            unfold deriveNBVID
            rw [hpsi]
            simp only
            rw [hnb]
            simp only
            split
            · refine ⟨_, rfl, hP1, ?_, ?_⟩
              · simp only [List.length_set]; exact hP2
              · intro p hp
                rcases List.mem_or_eq_of_mem_set hp with hp | hp
                · exact hP3 p hp
                · rw [hp]; exact hP3 (ws.1._pStates[a]) hmem
            · exact ⟨_, rfl, hP1, hP2, hP3⟩)
          (w, s) ⟨rfl, rfl, hreq⟩
        exact ⟨r, hr⟩
    · exact ⟨_, rfl⟩

/-- `ApplyChanges` returns whenever its tables are in bounds. -/
theorem ApplyChanges_returns {σ : Type} (m : Machine σ) (info : Info) (w : Worker)
    (allow : Bool) (hw : σ) (hb : TablesInBounds m info w) :
    ∃ (b : Bool) (w1 : Worker) (s : Sys σ), ApplyChanges m info w allow hw = some (b, w1, s) := by
  obtain ⟨⟨w1, s1⟩, hnb⟩ := applyNorthbridge_returns m info w { hw := hw, trace := [] } hb
  have hlen := (applyNorthbridge_frame m info w w1 _ s1 hnb).2.1
  obtain ⟨req, hreq⟩ := getInt?_isSome w1._pStates info.NumBoostStates hb.1.1
    (by rw [hlen]; exact hb.1.2)
  obtain ⟨s3, hp⟩ := applyPrimary_returns m info w1 (emit m s1 (.ReadPState info.NumBoostStates))
    (by rw [hlen]; exact hb.2.1)
  unfold ApplyChanges
  rw [hnb]
  simp only [hreq, hp]
  split
  · exact ⟨_, _, _, rfl⟩
  · exact ⟨_, _, _, rfl⟩

/-! ## Members of the call trace -/

theorem mem_globalCalls (info : Info) (w : Worker) (c : Call) (h : c ∈ globalCalls info w) :
    (0 ≤ w._turbo ∧ info.IsBoostSupported = true ∧ c = .SetBoostSource (w._turbo = 1)) ∨
    (0 ≤ w._apm ∧ info.Family = 0x15 ∧ c = .SetAPM (w._apm = 1)) := by
  unfold globalCalls at h
  rcases List.mem_append.1 h with h | h
  · split at h
    · next hc => exact Or.inl ⟨hc.1, hc.2, List.mem_singleton.1 h⟩
    · exact absurd h (List.not_mem_nil c)
  · split at h
    · next hc => exact Or.inr ⟨hc.1, hc.2, List.mem_singleton.1 h⟩
    · exact absurd h (List.not_mem_nil c)

theorem mem_boostDisableCalls (info : Info) (w : Worker) (c : Call)
    (h : c ∈ boostDisableCalls info w) :
    0 ≤ w._turbo ∧ info.IsBoostSupported = true ∧ c = .SetCPBDis (w._turbo = 1) := by
  unfold boostDisableCalls at h
  split at h
  · next hc => exact ⟨hc.1, hc.2, List.mem_singleton.1 h⟩
  · exact absurd h (List.not_mem_nil c)

theorem mem_selectCalls (info : Info) (w : Worker) (x : Int) (c : Call)
    (h : c ∈ selectCalls info w x) :
    (0 ≤ w._pState ∧ c = .SetCurrentPState w._pState) ∨
    (∃ psi, getInt? w._pStates x = some psi ∧ ContainsChanges psi = true ∧
      (c = .SetCurrentPState (relatchPState info x) ∨ c = .Sleep 1 ∨
        c = .SetCurrentPState x)) := by
  unfold selectCalls at h
  split at h
  · next hc => exact Or.inl ⟨hc.1, List.mem_singleton.1 h⟩
  · split at h
    · next psi hpsi =>
      split at h
      · next hcc =>
        refine Or.inr ⟨psi, hpsi, hcc, ?_⟩
        simpa using h
      · exact absurd h (List.not_mem_nil c)
    · exact absurd h (List.not_mem_nil c)

/-- The kinds of call in steps 4 to 7. -/
theorem mem_primaryCalls (info : Info) (w : Worker) (n : Nat) (cs : List Int) (c : Call)
    (h : c ∈ primaryCalls info w n cs) :
    c ∈ globalCalls info w ∨ c = .GetSystemInfo ∨ c.isPriority = true ∨
    (∃ j : Nat, c = .SwitchTo j) ∨
    (∃ p ∈ w._pStates, ContainsChanges p = true ∧ c = .WritePState p) ∨
    c ∈ boostDisableCalls info w ∨ c = .GetCurrentPState ∨
    (∃ x ∈ cs, c ∈ selectCalls info w x) := by
  unfold primaryCalls at h
  simp only [List.mem_append, List.mem_flatMap, List.mem_cons, List.mem_singleton] at h
  rcases h with (((h | h) | h) | h) | h
  · exact Or.inl h
  · rcases h with h | h | h | h
    · exact Or.inr (Or.inl h)
    · rw [h]; exact Or.inr (Or.inr (Or.inl rfl))
    · rw [h]; exact Or.inr (Or.inr (Or.inl rfl))
    · exact absurd h (List.not_mem_nil c)
  · obtain ⟨j, _, hj⟩ := h
    unfold tableWriteCalls at hj
    simp only [List.mem_cons, List.mem_append, List.mem_map, List.mem_filter] at hj
    rcases hj with hj | hj | hj
    · exact Or.inr (Or.inr (Or.inr (Or.inl ⟨j, hj⟩)))
    · obtain ⟨p, ⟨hp, hcc⟩, hpc⟩ := hj
      exact Or.inr (Or.inr (Or.inr (Or.inr (Or.inl ⟨p, hp, hcc, hpc.symm⟩))))
    · exact Or.inr (Or.inr (Or.inr (Or.inr (Or.inr (Or.inl hj)))))
  · obtain ⟨jc, hjc, hc⟩ := h
    unfold activeStateCalls at hc
    simp only [List.mem_cons] at hc
    rcases hc with hc | hc | hc
    · exact Or.inr (Or.inr (Or.inr (Or.inl ⟨jc.1, hc⟩)))
    · exact Or.inr (Or.inr (Or.inr (Or.inr (Or.inr (Or.inr (Or.inl hc))))))
    · exact Or.inr (Or.inr (Or.inr (Or.inr (Or.inr (Or.inr (Or.inr
        ⟨jc.2, (List.of_mem_zip hjc).2, hc⟩))))))
  · rcases h with h | h | h
    · rw [h]; exact Or.inr (Or.inr (Or.inl rfl))
    · rw [h]; exact Or.inr (Or.inr (Or.inl rfl))
    · exact absurd h (List.not_mem_nil c)

theorem anyNBVID_ne_true (w : Worker) (hNB : ∀ p ∈ w._nbPStates, p.VID < 0) :
    anyNBVID w ≠ some true := by
  unfold anyNBVID
  cases h0 : w._nbPStates[0]? with
  | none => simp
  | some nb0 =>
    have hm0 : nb0 ∈ w._nbPStates := List.mem_iff_getElem?.2 ⟨_, h0⟩
    have hv0 : ¬ 0 ≤ nb0.VID := by have := hNB nb0 hm0; omega
    simp only [hv0, if_false]
    cases h1 : w._nbPStates[1]? with
    | none => simp
    | some nb1 =>
      have hm1 : nb1 ∈ w._nbPStates := List.mem_iff_getElem?.2 ⟨_, h1⟩
      have hv1 : ¬ 0 ≤ nb1.VID := by have := hNB nb1 hm1; omega
      simp [hv1]

theorem applyNorthbridge_unchanged {σ : Type} (m : Machine σ) (info : Info) (w w1 : Worker)
    (s s1 : Sys σ) (hany : ¬ (info.Family = 0x10 ∧ anyNBVID w = some true))
    (h : applyNorthbridge m info w s = some (w1, s1)) : w1 = w := by
  unfold applyNorthbridge at h
  split at h
  · cases h; rfl
  · split at h
    · next h10 =>
      cases hb : anyNBVID w with
      | none => rw [hb] at h; cases h
      | some b =>
        rw [hb] at h
        cases b with
        | false => cases h; rfl
        | true => exact absurd ⟨h10, hb⟩ hany
    · cases h; rfl

/-! ## An all-unset change set -/

theorem ParseParams_nil (info : Info) (prog : List Char) :
    ParseParams info Worker.new [prog] = (true, initTables info Worker.new) := rfl

theorem initTables_unset (info : Info) :
    (∀ p ∈ (initTables info Worker.new)._pStates, ContainsChanges p = false) ∧
    (∀ p ∈ (initTables info Worker.new)._nbPStates, ContainsChangesNB p = false) := by
  constructor
  · intro p hp
    simp only [initTables, Worker.new, List.nil_append, List.mem_map] at hp
    obtain ⟨i, _, rfl⟩ := hp
    simp [ContainsChanges]
  · intro p hp
    simp only [initTables, Worker.new, List.nil_append, List.mem_map] at hp
    obtain ⟨i, _, rfl⟩ := hp
    simp [ContainsChangesNB]

/-- A worker without a non-negative field makes `ApplyChanges` write nothing. -/
theorem ApplyChanges_unset_no_writes {σ : Type} (m : Machine σ) (info : Info) (w w1 : Worker)
    (allow b : Bool) (hw : σ) (s : Sys σ)
    (hP : ∀ p ∈ w._pStates, ContainsChanges p = false)
    (hNB : ∀ p ∈ w._nbPStates, ContainsChangesNB p = false)
    (ht : w._turbo < 0) (ha : w._apm < 0) (hp : w._pState < 0)
    (h : ApplyChanges m info w allow hw = some (b, w1, s)) :
    ∀ c ∈ s.trace, c.isWrite = false := by
  obtain ⟨s1, requested, hnb, _, _, hfalse, htrue⟩ := ApplyChanges_trace m info w w1 allow b hw s h
  have hvid : ∀ p ∈ w._nbPStates, p.VID < 0 := by
    intro p hp
    have := hNB p hp
    simp only [ContainsChangesNB, Bool.or_eq_false_iff, decide_eq_false_iff_not] at this
    omega
  have hw1 : w1 = w := applyNorthbridge_unchanged m info w w1 _ s1
    (fun hc => anyNBVID_ne_true w hvid hc.2) hnb
  have hs1 : ∀ c ∈ s1.trace, c.isWrite = false := by
    by_cases h15 : info.Family = 0x15
    · have htr := (applyNorthbridge_family15 m info w w1 _ s1 h15 hnb).2
      have hfil : w._nbPStates.filter ContainsChangesNB = [] := by
        rw [List.filter_eq_nil_iff]
        intro a ha
        rw [hNB a ha]
        simp
      rw [htr, hfil]
      intro c hc
      simp at hc
    · obtain ⟨nb, htr, hread⟩ := (applyNorthbridge_frame m info w w1 _ s1 hnb).2.2 h15
      rw [htr]
      intro c hc
      simp only [List.nil_append] at hc
      have := hread c hc
      cases c <;> first | rfl | cases this
  intro c hc
  cases b with
  | false =>
    rw [hfalse rfl] at hc
    rcases List.mem_append.1 hc with hc | hc
    · exact hs1 c hc
    · rw [List.mem_singleton.1 hc]; rfl
  | true =>
    obtain ⟨n, cs, _, _, _, htr⟩ := htrue rfl
    rw [htr, hw1] at hc
    rcases List.mem_append.1 hc with hc | hc
    · rcases List.mem_append.1 hc with hc | hc
      · exact hs1 c hc
      · rw [List.mem_singleton.1 hc]; rfl
    · rcases mem_primaryCalls info w n cs c hc with
        hg | hg | hg | ⟨j, hj⟩ | ⟨p, hpm, hcc, _⟩ | hg | hg | ⟨x, _, hx⟩
      · rcases mem_globalCalls info w c hg with ⟨h0, _⟩ | ⟨h0, _⟩ <;> omega
      · rw [hg]; rfl
      · cases c <;> first | rfl | cases hg
      · rw [hj]; rfl
      · rw [hP p hpm] at hcc; cases hcc
      · have := (mem_boostDisableCalls info w c hg).1
        omega
      · rw [hg]; rfl
      · rcases mem_selectCalls info w x c hx with ⟨h0, _⟩ | ⟨psi, hpsi, hcc, _⟩
        · omega
        · have hmem : psi ∈ w._pStates := by
            unfold getInt? at hpsi
            split at hpsi
            · exact List.getElem?_mem hpsi
            · cases hpsi
          rw [hP psi hmem] at hcc
          cases hcc

/-- C13: `ApplyChanges` on the worker that `ParseParams` builds from an empty directive list
makes no `WritePState`, `WriteNBPState`, `SetBoostSource`, `SetCPBDis`, `SetAPM` or
`SetCurrentPState` call, on every machine and machine state, for every family and either
value of the override flag; and it returns whenever its tables are in bounds. -/
theorem C13_unset_changeset_no_writes {σ : Type} (m : Machine σ) (info : Info)
    (prog : List Char) (allow : Bool) (hw : σ) :
    (∀ (b : Bool) (w1 : Worker) (s : Sys σ),
      ApplyChanges m info (ParseParams info Worker.new [prog]).2 allow hw = some (b, w1, s) →
      ∀ c ∈ s.trace, c.isWrite = false) ∧
    (TablesInBounds m info (ParseParams info Worker.new [prog]).2 →
      ∃ (b : Bool) (w1 : Worker) (s : Sys σ),
        ApplyChanges m info (ParseParams info Worker.new [prog]).2 allow hw = some (b, w1, s)) := by
  constructor
  · intro b w1 s h
    rw [ParseParams_nil] at h
    exact ApplyChanges_unset_no_writes m info _ w1 allow b hw s (initTables_unset info).1
      (initTables_unset info).2 (by show (-1 : Int) < 0; decide)
      (by show (-1 : Int) < 0; decide) (by show (-1 : Int) < 0; decide) h
  · intro hb
    exact ApplyChanges_returns m info _ allow hw hb

/-- C13 on the machine without state, with two P-states and the override flag set: the run
returns and writes nothing. -/
theorem C13_unset_changeset_no_writes_witness :
    ∃ (b : Bool) (w1 : Worker) (s : Sys Unit),
      ApplyChanges fixedMachine (simInfo 2) (ParseParams (simInfo 2) Worker.new [[]]).2 true ()
        = some (b, w1, s) ∧ ∀ c ∈ s.trace, c.isWrite = false := by
  obtain ⟨b, w1, s, h⟩ := (C13_unset_changeset_no_writes fixedMachine (simInfo 2) [] true ()).2
    ⟨⟨by decide, by decide⟩,
      fun _ => ⟨by show (0 : Int) ≤ 0; decide,
        by show (0 : Int) < ((ParseParams (simInfo 2) Worker.new [[]]).2._pStates.length : Int)
           decide⟩,
      fun h => absurd h (by decide)⟩
  exact ⟨b, w1, s, h,
    (C13_unset_changeset_no_writes fixedMachine (simInfo 2) [] true ()).1 b w1 s h⟩

/-! ## The northbridge writes -/

theorem anyNBVID_iff (w : Worker) (b : Bool) (h : anyNBVID w = some b) :
    b = true ↔ lowNBVoltageSet w := by
  unfold anyNBVID at h
  unfold lowNBVoltageSet
  cases h0 : w._nbPStates[0]? with
  | none => rw [h0] at h; cases h
  | some nb0 =>
    rw [h0] at h
    simp only at h
    by_cases hv0 : 0 ≤ nb0.VID
    · rw [if_pos hv0] at h
      cases h
      exact ⟨fun _ => Or.inl ⟨nb0, rfl, hv0⟩, fun _ => rfl⟩
    · rw [if_neg hv0] at h
      cases h1 : w._nbPStates[1]? with
      | none => rw [h1] at h; cases h
      | some nb1 =>
        rw [h1] at h
        simp only [Option.some.injEq] at h
        constructor
        · intro hb
          rw [hb] at h
          exact Or.inr ⟨nb1, rfl, of_decide_eq_true h⟩
        · rintro (⟨nb, hnb, hv⟩ | ⟨nb, hnb, hv⟩)
          · cases hnb; exact absurd hv hv0
          · cases hnb
            rw [← h]
            exact decide_eq_true hv

/-- C15: on family 0x10 with three northbridge P-states, `NB_P2=@1.0` sets the voltage of
northbridge entry 2 to 100, the live association of every P-state is 2, and the run passes
the safety check and leaves `NBVID` of both P-state entries unset (-1): the condition of
line 188 looks at the entries 0 and 1 only, so the voltage of entry 2 is not derived. -/
theorem C15_voltage_of_entry_two_ignored :
    (simInfo10 3).Family = 0x10 ∧
    ((ParseParams (simInfo10 3) Worker.new
      [[], ['N', 'B', '_', 'P', '2', '=', '@', '1', '.', '0']]).2._nbPStates.map fun p => p.VID)
      = [-1, -1, 100] ∧
    (simMachine.ReadPState simHwNB2 0).NBPState = 2 ∧
    (simMachine.ReadPState simHwNB2 1).NBPState = 2 ∧
    (ApplyChanges simMachine (simInfo10 3)
      (ParseParams (simInfo10 3) Worker.new
        [[], ['N', 'B', '_', 'P', '2', '=', '@', '1', '.', '0']]).2 true simHwNB2).map
        (fun r => (r.1, r.2.1._pStates.map fun p => p.NBVID)) = some (true, [-1, -1]) := by
  decide!

/-- The voltage derivation on family 0x10, on a machine whose `ReadPState` leaves the state
alone: every returned run changes nothing of the worker but the P-state table.  If northbridge
entry 0 or entry 1 has a voltage set, then for every P-state entry `i` the resolved
northbridge index (the requested `NBPState` when set, otherwise the one read live for
P-state `i`) is inside the northbridge table, and `NBVID` of entry `i` becomes the voltage
of that northbridge entry when that voltage is set and stays as it was when it is not.  If
neither entry 0 nor entry 1 has a voltage set, the worker is unchanged.  The run returns
whenever its tables are in bounds. -/
theorem voltage_derivation_family10 {σ : Type} (m : Machine σ) (info : Info) (w : Worker)
    (allow : Bool) (hw : σ) (h10 : info.Family = 0x10)
    (hpure : ∀ (hw : σ) (i : Int), m.exec hw (.ReadPState i) = hw) :
    (∀ (b : Bool) (w1 : Worker) (s : Sys σ),
      ApplyChanges m info w allow hw = some (b, w1, s) →
      w1 = { w with _pStates := w1._pStates } ∧
      (lowNBVoltageSet w → ∀ (i : Nat) (p : PStateInfo), w._pStates[i]? = some p →
        ∃ nb : NBPStateInfo, getInt? w._nbPStates (resolveNB m hw i p) = some nb ∧
          w1._pStates[i]? = some (if 0 ≤ nb.VID then { p with NBVID := nb.VID } else p)) ∧
      (¬ lowNBVoltageSet w → w1 = w)) ∧
    (TablesInBounds m info w →
      ∃ (b : Bool) (w1 : Worker) (s : Sys σ),
        ApplyChanges m info w allow hw = some (b, w1, s)) := by
  refine ⟨?_, fun hb => ApplyChanges_returns m info w allow hw hb⟩
  intro b w1 s h
  obtain ⟨s1, requested, hnb, _⟩ := ApplyChanges_trace m info w w1 allow b hw s h
  refine ⟨(applyNorthbridge_frame m info w w1 _ s1 hnb).1, ?_, ?_⟩
  · intro hlow i p hp
    have hnb2 := hnb
    unfold applyNorthbridge at hnb2
    rw [if_neg (by rw [h10]; decide), if_pos h10] at hnb2
    cases hany : anyNBVID w with
    | none => rw [hany] at hnb2; cases hnb2
    | some bv =>
      have hbv : bv = true := (anyNBVID_iff w bv hany).2 hlow
      rw [hany, hbv] at hnb2
      simp only at hnb2
      obtain ⟨_, hlen, hent, _⟩ := foldlM_deriveNBVID m hpure _ (w, { hw := hw, trace := [] })
        (w1, s1) (List.nodup_range _) hnb2
      have hi : i < w._pStates.length := (List.getElem?_eq_some.1 hp).1
      have hent1 := hent i
      simp only [List.mem_range, hi, if_true, hp, Option.some_bind] at hent1
      unfold derivedEntry at hent1
      cases hres : getInt? w._nbPStates (resolveNB m hw i p) with
      | none =>
        rw [hres] at hent1
        simp only at hent1
        have hlt : i < w1._pStates.length := by rw [hlen]; exact hi
        rw [List.getElem?_eq_getElem hlt] at hent1
        cases hent1
      | some nb =>
        rw [hres] at hent1
        exact ⟨nb, rfl, hent1⟩
  · intro hlow
    refine applyNorthbridge_unchanged m info w w1 _ s1 ?_ hnb
    rintro ⟨_, hany⟩
    exact hlow ((anyNBVID_iff w true hany).1 rfl)

/-- The derivation on family 0x10 with two northbridge P-states and `NB_P0=@1.0`: the live
association of every P-state is 0, and both P-state entries get the voltage id 100 of
northbridge entry 0. -/
theorem voltage_derivation_family10_example :
    (∀ (b : Bool) (w1 : Worker) (s : Sys Unit),
      ApplyChanges fixedMachine (simInfo10 2)
        (ParseParams (simInfo10 2) Worker.new
          [[], ['N', 'B', '_', 'P', '0', '=', '@', '1', '.', '0']]).2 true ()
        = some (b, w1, s) →
      w1 = { (ParseParams (simInfo10 2) Worker.new
          [[], ['N', 'B', '_', 'P', '0', '=', '@', '1', '.', '0']]).2 with
          _pStates := w1._pStates } ∧
      (lowNBVoltageSet (ParseParams (simInfo10 2) Worker.new
          [[], ['N', 'B', '_', 'P', '0', '=', '@', '1', '.', '0']]).2 →
        ∀ (i : Nat) (p : PStateInfo),
          (ParseParams (simInfo10 2) Worker.new
            [[], ['N', 'B', '_', 'P', '0', '=', '@', '1', '.', '0']]).2._pStates[i]? = some p →
          ∃ nb : NBPStateInfo,
            getInt? (ParseParams (simInfo10 2) Worker.new
              [[], ['N', 'B', '_', 'P', '0', '=', '@', '1', '.', '0']]).2._nbPStates
              (resolveNB fixedMachine () i p) = some nb ∧
            w1._pStates[i]? = some (if 0 ≤ nb.VID then { p with NBVID := nb.VID } else p)) ∧
      (¬ lowNBVoltageSet (ParseParams (simInfo10 2) Worker.new
          [[], ['N', 'B', '_', 'P', '0', '=', '@', '1', '.', '0']]).2 →
        w1 = (ParseParams (simInfo10 2) Worker.new
          [[], ['N', 'B', '_', 'P', '0', '=', '@', '1', '.', '0']]).2)) ∧
    (ApplyChanges fixedMachine (simInfo10 2)
      (ParseParams (simInfo10 2) Worker.new
        [[], ['N', 'B', '_', 'P', '0', '=', '@', '1', '.', '0']]).2 true ()).map
        (fun r => (r.1, r.2.1._pStates.map fun p => p.NBVID)) = some (true, [100, 100]) :=
  ⟨(voltage_derivation_family10 fixedMachine (simInfo10 2) _ true () rfl (fun _ _ => rfl)).1,
    by decide!⟩

/-! ## The boost calls -/

theorem filter_nil_of_forall {α : Type} (p : α → Bool) (l : List α)
    (h : ∀ a ∈ l, p a = false) : l.filter p = [] := by
  rw [List.filter_eq_nil_iff]
  intro a ha
  rw [h a ha]
  simp

theorem filter_northbridge_steps (t : List Call) (h : ∀ x ∈ t, x.isNorthbridgeStep = true) :
    t.filter Call.isSetCPBDis = [] ∧ t.filter Call.isSetBoostSource = [] ∧
    (∀ x ∈ t, x.isCoreWrite = false ∧ x.isPriority = false ∧ x.isActiveState = false ∧
      x.isWritePState = false) := by
  refine ⟨?_, ?_, ?_⟩
  · apply filter_nil_of_forall
    intro c hc
    have := h c hc
    cases c <;> first | rfl | cases this
  · apply filter_nil_of_forall
    intro c hc
    have := h c hc
    cases c <;> first | rfl | cases this
  · intro c hc
    have := h c hc
    cases c <;> first | exact ⟨rfl, rfl, rfl, rfl⟩ | cases this

theorem applyNorthbridge_steps {σ : Type} (m : Machine σ) (info : Info) (w w1 : Worker)
    (hw : σ) (s1 : Sys σ)
    (h : applyNorthbridge m info w { hw := hw, trace := [] } = some (w1, s1)) :
    ∀ x ∈ s1.trace, x.isNorthbridgeStep = true :=
  (applyNorthbridge_invariant m info w w1 { hw := hw, trace := [] } s1
    (fun x hx => absurd hx (List.not_mem_nil x)) h).2

theorem mem_tableWritePhase (info : Info) (w : Worker) (l : List Nat) (x : Call)
    (h : x ∈ l.flatMap (tableWriteCalls info w)) :
    (∃ j : Nat, x = .SwitchTo j) ∨
    (∃ p ∈ w._pStates, ContainsChanges p = true ∧ x = .WritePState p) ∨
    x ∈ boostDisableCalls info w := by
  obtain ⟨j, _, hj⟩ := List.mem_flatMap.1 h
  unfold tableWriteCalls at hj
  simp only [List.mem_cons, List.mem_append, List.mem_map, List.mem_filter] at hj
  rcases hj with hj | hj | hj
  · exact Or.inl ⟨j, hj⟩
  · obtain ⟨p, ⟨hp, hcc⟩, hpc⟩ := hj
    exact Or.inr (Or.inl ⟨p, hp, hcc, hpc.symm⟩)
  · exact Or.inr (Or.inr hj)

theorem mem_activeStatePhase (info : Info) (w : Worker) (l : List Nat) (cs : List Int)
    (x : Call) (h : x ∈ (l.zip cs).flatMap (activeStateCalls info w)) :
    (∃ j : Nat, x = .SwitchTo j) ∨ x = .GetCurrentPState ∨
    ∃ c ∈ cs, x ∈ selectCalls info w c := by
  obtain ⟨jc, hjc, hx⟩ := List.mem_flatMap.1 h
  unfold activeStateCalls at hx
  simp only [List.mem_cons] at hx
  rcases hx with hx | hx | hx
  · exact Or.inl ⟨jc.1, hx⟩
  · exact Or.inr (Or.inl hx)
  · exact Or.inr (Or.inr ⟨jc.2, (List.of_mem_zip hjc).2, hx⟩)

/-- The calls of the first phase: no active-state call, no priority call, no northbridge
step. -/
theorem tableWritePhase_kinds (info : Info) (w : Worker) (l : List Nat) (x : Call)
    (h : x ∈ l.flatMap (tableWriteCalls info w)) :
    x.isActiveState = false ∧ x.isPriority = false := by
  rcases mem_tableWritePhase info w l x h with ⟨j, hj⟩ | ⟨p, _, _, hp⟩ | hb
  · rw [hj]; exact ⟨rfl, rfl⟩
  · rw [hp]; exact ⟨rfl, rfl⟩
  · rw [(mem_boostDisableCalls info w x hb).2.2]; exact ⟨rfl, rfl⟩

/-- The calls of the second phase: no `WritePState`, no `SetCPBDis`, no priority call. -/
theorem activeStatePhase_kinds (info : Info) (w : Worker) (l : List Nat) (cs : List Int)
    (x : Call) (h : x ∈ (l.zip cs).flatMap (activeStateCalls info w)) :
    x.isWritePState = false ∧ x.isSetCPBDis = false ∧ x.isPriority = false := by
  rcases mem_activeStatePhase info w l cs x h with ⟨j, hj⟩ | hg | ⟨c, _, hc⟩
  · rw [hj]; exact ⟨rfl, rfl, rfl⟩
  · rw [hg]; exact ⟨rfl, rfl, rfl⟩
  · rcases mem_selectCalls info w c x hc with ⟨_, hx⟩ | ⟨_, _, _, hx | hx | hx⟩ <;>
      rw [hx] <;> exact ⟨rfl, rfl, rfl⟩

/-- The global calls of step 4: no core-local write, no active-state call, no priority
call. -/
theorem globalCalls_kinds (info : Info) (w : Worker) (x : Call) (h : x ∈ globalCalls info w) :
    x.isCoreWrite = false ∧ x.isActiveState = false ∧ x.isPriority = false ∧
    x.isWritePState = false := by
  rcases mem_globalCalls info w x h with ⟨_, _, hx⟩ | ⟨_, _, hx⟩ <;> rw [hx] <;>
    exact ⟨rfl, rfl, rfl, rfl⟩

theorem activeAfter_selectCalls (info : Info) (w : Worker) (c : Int) :
    activeAfter c (selectCalls info w c) = if 0 ≤ w._pState then w._pState else c := by
  unfold selectCalls
  by_cases hc : 0 ≤ w._pState ∧ w._pState ≠ c
  · rw [if_pos hc, if_pos hc.1]
    rfl
  · rw [if_neg hc]
    have hd : (if 0 ≤ w._pState then w._pState else c) = c := by
      by_cases h0 : 0 ≤ w._pState
      · rw [if_pos h0]
        exact Classical.not_not.1 fun hne => hc ⟨h0, hne⟩
      · rw [if_neg h0]
    rw [hd]
    cases getInt? w._pStates c with
    | none => rfl
    | some psi =>
      simp only
      by_cases hcc : ContainsChanges psi = true
      · rw [if_pos hcc]; rfl
      · rw [if_neg hcc]; rfl

theorem relatchPState_ne (info : Info) (c : Int) :
    (if c = info.NumPStates - 1 then (0 : Int) else info.NumPStates - 1) ≠ c ↔
      ¬ (c = 0 ∧ info.NumPStates = 1) := by
  by_cases h : c = info.NumPStates - 1
  · rw [if_pos h]
    constructor
    · intro hne hc
      exact hne hc.1.symm
    · intro hn h0
      exact hn ⟨h0.symm, by omega⟩
  · rw [if_neg h]
    constructor
    · intro _ hc
      exact h (by omega)
    · intro _ hc
      exact h hc.symm

theorem tablesInBounds_fixedMachine (info : Info) (w : Worker) (h0 : info.NumBoostStates = 0)
    (hl : 0 < w._pStates.length) (hf : info.Family ≠ 0x10) :
    TablesInBounds fixedMachine info w :=
  ⟨⟨by rw [h0], by rw [h0]; exact_mod_cast hl⟩,
    fun _ => ⟨le_refl (0 : Int), by show (0 : Int) < (w._pStates.length : Int); exact_mod_cast hl⟩,
    fun h => absurd h hf⟩

/-- C17, counterexample: on a table with a single P-state and the directive `P0=20`, each of
the two units is at index 0, no target is set and entry 0 has a multiplier, and the two
`SetCurrentPState` calls of each unit both name index 0: the re-latch P-state is the
current one. -/
theorem C17_relatch_equals_current_on_single_pstate :
    (ParseParams (simInfo 1) Worker.new [[], ['P', '0', '=', '2', '0']]).2._pState = -1 ∧
    fixedMachine.GetCurrentPState () = 0 ∧
    (ApplyChanges fixedMachine (simInfo 1)
      (ParseParams (simInfo 1) Worker.new [[], ['P', '0', '=', '2', '0']]).2 false ()).map
        (fun r => (r.1, r.2.2.trace.filter Call.isActiveState))
      = some (true, [Call.GetCurrentPState, Call.SetCurrentPState 0, Call.SetCurrentPState 0,
          Call.GetCurrentPState, Call.SetCurrentPState 0, Call.SetCurrentPState 0]) := by
  decide!

/-! ## Order of the two phases -/

/-- In a list `A ++ B` with no `p` in `A` and no `q` in `B`, no `q` follows a `p`. -/
theorem no_q_after_p {α : Type} (p q : α → Bool) (A B : List α)
    (hA : ∀ x ∈ A, p x = false) (hB : ∀ y ∈ B, q y = false)
    (before : List α) (x : α) (after : List α) (h : A ++ B = before ++ x :: after)
    (hx : p x = true) : ∀ y ∈ after, q y = false := by
  rcases List.append_eq_append_iff.1 h with ⟨a1, _, hB1⟩ | ⟨c1, hA1, hB1⟩
  · intro y hy
    exact hB y (by rw [hB1]; simp [hy])
  · cases c1 with
    | nil =>
      intro y hy
      have hBe : B = x :: after := by simpa using hB1.symm
      exact hB y (by rw [hBe]; simp [hy])
    | cons z c2 =>
      simp only [List.cons_append, List.cons.injEq] at hB1
      have hz : x ∈ A := by rw [hA1, hB1.1]; simp
      rw [hA x hz] at hx
      cases hx

theorem filter_map_WritePState (l : List PStateInfo) :
    (l.map Call.WritePState).filter Call.isWritePState = l.map Call.WritePState := by
  induction l with
  | nil => rfl
  | cons a l ih => simp [List.filter_cons, Call.isWritePState, ih]

theorem filter_tableWriteCalls_write (info : Info) (w : Worker) (j : Nat) :
    (tableWriteCalls info w j).filter Call.isWritePState =
      (w._pStates.filter ContainsChanges).map Call.WritePState := by
  unfold tableWriteCalls
  rw [List.filter_cons_of_neg (by simp [Call.isWritePState]), List.filter_append,
    filter_map_WritePState,
    filter_nil_of_forall Call.isWritePState (boostDisableCalls info w)
      (fun c hc => by rw [(mem_boostDisableCalls info w c hc).2.2]; rfl),
    List.append_nil]

theorem filter_tableWritePhase_write (info : Info) (w : Worker) (l : List Nat) :
    (l.flatMap (tableWriteCalls info w)).filter Call.isWritePState =
      l.flatMap (fun _ => (w._pStates.filter ContainsChanges).map Call.WritePState) := by
  induction l with
  | nil => rfl
  | cons j l ih =>
    rw [List.flatMap_cons, List.flatMap_cons, List.filter_append, ih,
      filter_tableWriteCalls_write]

/-! ## The process priority -/

theorem priorityAfter_append (p : Bool × Bool) (a b : List Call) :
    priorityAfter p (a ++ b) = priorityAfter (priorityAfter p a) b := by
  unfold priorityAfter
  rw [List.foldl_append]

theorem priorityStep_of_not_priority (p : Bool × Bool) (x : Call) (h : x.isPriority = false) :
    priorityStep p x = p := by
  cases x <;> first | rfl | cases h

theorem priorityAfter_of_no_priority (t : List Call) :
    ∀ p : Bool × Bool, (∀ x ∈ t, x.isPriority = false) → priorityAfter p t = p := by
  induction t with
  | nil => intro p _; rfl
  | cons x t ih =>
    intro p h
    show priorityAfter (priorityStep p x) t = p
    rw [priorityStep_of_not_priority p x (h x (List.mem_cons_self _ _))]
    exact ih p (fun y hy => h y (List.mem_cons_of_mem _ hy))

theorem coreWritesElevated_append (a b : List Call) :
    ∀ p : Bool × Bool, coreWritesElevated p (a ++ b) =
      (coreWritesElevated p a && coreWritesElevated (priorityAfter p a) b) := by
  induction a with
  | nil => intro p; simp [coreWritesElevated, priorityAfter]
  | cons x a ih =>
    intro p
    show ((!x.isCoreWrite || decide (p = elevatedPriority)) &&
        coreWritesElevated (priorityStep p x) (a ++ b)) =
      (((!x.isCoreWrite || decide (p = elevatedPriority)) &&
        coreWritesElevated (priorityStep p x) a) &&
        coreWritesElevated (priorityAfter (priorityStep p x) a) b)
    rw [ih, Bool.and_assoc]

theorem coreWritesElevated_of_no_core (t : List Call) :
    ∀ p : Bool × Bool, (∀ x ∈ t, x.isCoreWrite = false) → coreWritesElevated p t = true := by
  induction t with
  | nil => intro p _; rfl
  | cons x t ih =>
    intro p h
    show ((!x.isCoreWrite || decide (p = elevatedPriority)) &&
        coreWritesElevated (priorityStep p x) t) = true
    rw [h x (List.mem_cons_self _ _), ih _ (fun y hy => h y (List.mem_cons_of_mem _ hy))]
    rfl

theorem coreWritesElevated_of_no_priority (t : List Call)
    (h : ∀ x ∈ t, x.isPriority = false) : coreWritesElevated elevatedPriority t = true := by
  induction t with
  | nil => rfl
  | cons x t ih =>
    show ((!x.isCoreWrite || decide (elevatedPriority = elevatedPriority)) &&
        coreWritesElevated (priorityStep elevatedPriority x) t) = true
    rw [priorityStep_of_not_priority _ x (h x (List.mem_cons_self _ _)),
      ih (fun y hy => h y (List.mem_cons_of_mem _ hy))]
    simp

theorem coreWritesElevated_split (pre : List Call) :
    ∀ (p : Bool × Bool) (x : Call) (post : List Call),
      coreWritesElevated p (pre ++ x :: post) = true → x.isCoreWrite = true →
      priorityAfter p pre = elevatedPriority := by
  induction pre with
  | nil =>
    intro p x post h hx
    change ((!x.isCoreWrite || decide (p = elevatedPriority)) &&
        coreWritesElevated (priorityStep p x) post) = true at h
    rw [hx] at h
    simp only [Bool.not_true, Bool.false_or, Bool.and_eq_true, decide_eq_true_eq] at h
    exact h.1
  | cons y pre ih =>
    intro p x post h hx
    change ((!y.isCoreWrite || decide (p = elevatedPriority)) &&
        coreWritesElevated (priorityStep p y) (pre ++ x :: post)) = true at h
    have h2 : coreWritesElevated (priorityStep p y) (pre ++ x :: post) = true := by
      cases hq : coreWritesElevated (priorityStep p y) (pre ++ x :: post) with
      | true => rfl
      | false => rw [hq] at h; simp at h
    exact ih (priorityStep p y) x post h2 hx

/-- Calls without core-local write and priority call, the raise, calls without priority
call and the restore: the priority ends normal, and every core-local write is made at
elevated priority. -/
theorem priority_bracket (A M : List Call)
    (hA : ∀ x ∈ A, x.isCoreWrite = false ∧ x.isPriority = false)
    (hM : ∀ x ∈ M, x.isPriority = false) :
    priorityAfter normalPriority (A ++ ([Call.SetPriorityClass true, Call.SetThreadPriority true]
      ++ (M ++ [Call.SetThreadPriority false, Call.SetPriorityClass false]))) = normalPriority ∧
    coreWritesElevated normalPriority (A ++ ([Call.SetPriorityClass true,
      Call.SetThreadPriority true] ++
      (M ++ [Call.SetThreadPriority false, Call.SetPriorityClass false]))) = true := by
  have hp1 := priorityAfter_of_no_priority A normalPriority (fun x hx => (hA x hx).2)
  have hp2 : priorityAfter normalPriority
      [Call.SetPriorityClass true, Call.SetThreadPriority true] = elevatedPriority := rfl
  have hp3 := priorityAfter_of_no_priority M elevatedPriority hM
  have hp4 : priorityAfter elevatedPriority
      [Call.SetThreadPriority false, Call.SetPriorityClass false] = normalPriority := rfl
  have hc1 := coreWritesElevated_of_no_core A normalPriority (fun x hx => (hA x hx).1)
  have hc2 : coreWritesElevated normalPriority
      [Call.SetPriorityClass true, Call.SetThreadPriority true] = true := rfl
  have hc3 := coreWritesElevated_of_no_priority M hM
  have hc4 : coreWritesElevated elevatedPriority
      [Call.SetThreadPriority false, Call.SetPriorityClass false] = true := rfl
  constructor
  · rw [priorityAfter_append, priorityAfter_append, priorityAfter_append, hp1, hp2, hp3, hp4]
  · rw [coreWritesElevated_append, coreWritesElevated_append, coreWritesElevated_append,
      hp1, hp2, hp3, hc1, hc2, hc3, hc4]
    rfl

/-- C19: with the priority as explicit state that starts at normal, the priority is normal
after the calls of every returned run, passed or aborted at the safety check, and before
every `WritePState`, `SetCPBDis` and `SetCurrentPState` call of the run the priority is
elevated: realtime class and highest thread priority.  The run returns whenever its tables
are in bounds. -/
theorem C19_priority_restored {σ : Type} (m : Machine σ) (info : Info) (w : Worker)
    (allow : Bool) (hw : σ) :
    (∀ (b : Bool) (w1 : Worker) (s : Sys σ),
      ApplyChanges m info w allow hw = some (b, w1, s) →
      priorityAfter normalPriority s.trace = normalPriority ∧
      ∀ (pre : List Call) (x : Call) (post : List Call),
        s.trace = pre ++ x :: post → x.isCoreWrite = true →
        priorityAfter normalPriority pre = elevatedPriority) ∧
    (TablesInBounds m info w →
      ∃ (b : Bool) (w1 : Worker) (s : Sys σ),
        ApplyChanges m info w allow hw = some (b, w1, s)) := by
  refine ⟨?_, fun hb => ApplyChanges_returns m info w allow hw hb⟩
  intro b w1 s h
  obtain ⟨s1, requested, hnb, _, _, hfalse, htrue⟩ :=
    ApplyChanges_trace m info w w1 allow b hw s h
  obtain ⟨_, _, hkinds⟩ :=
    filter_northbridge_steps s1.trace (applyNorthbridge_steps m info w w1 hw s1 hnb)
  have hread : ∀ x ∈ s1.trace ++ [Call.ReadPState info.NumBoostStates],
      x.isCoreWrite = false ∧ x.isPriority = false := by
    intro x hx
    rcases List.mem_append.1 hx with hx | hx
    · exact ⟨(hkinds x hx).1, (hkinds x hx).2.1⟩
    · rw [List.mem_singleton.1 hx]; exact ⟨rfl, rfl⟩
  suffices hs : priorityAfter normalPriority s.trace = normalPriority ∧
      coreWritesElevated normalPriority s.trace = true by
    refine ⟨hs.1, ?_⟩
    intro pre x post hsplit hx
    exact coreWritesElevated_split pre normalPriority x post (hsplit ▸ hs.2) hx
  cases b with
  | false =>
    rw [hfalse rfl]
    exact ⟨priorityAfter_of_no_priority _ _ (fun x hx => (hread x hx).2),
      coreWritesElevated_of_no_core _ _ (fun x hx => (hread x hx).1)⟩
  | true =>
    obtain ⟨n, cs, _, _, _, htr⟩ := htrue rfl
    have hA : ∀ x ∈ s1.trace ++ [Call.ReadPState info.NumBoostStates] ++
        (globalCalls info w1 ++ [Call.GetSystemInfo]),
        x.isCoreWrite = false ∧ x.isPriority = false := by
      intro x hx
      rcases List.mem_append.1 hx with hx | hx
      · exact hread x hx
      · rcases List.mem_append.1 hx with hx | hx
        · exact ⟨(globalCalls_kinds info w1 x hx).1, (globalCalls_kinds info w1 x hx).2.2.1⟩
        · rw [List.mem_singleton.1 hx]; exact ⟨rfl, rfl⟩
    have hM : ∀ x ∈ (List.range n).flatMap (tableWriteCalls info w1) ++
        ((List.range n).zip cs).flatMap (activeStateCalls info w1), x.isPriority = false := by
      intro x hx
      rcases List.mem_append.1 hx with hx | hx
      · exact (tableWritePhase_kinds info w1 _ x hx).2
      · exact (activeStatePhase_kinds info w1 _ cs x hx).2.2
    have hform : s.trace = (s1.trace ++ [Call.ReadPState info.NumBoostStates] ++
        (globalCalls info w1 ++ [Call.GetSystemInfo])) ++
        ([Call.SetPriorityClass true, Call.SetThreadPriority true] ++
        (((List.range n).flatMap (tableWriteCalls info w1) ++
        ((List.range n).zip cs).flatMap (activeStateCalls info w1)) ++
        [Call.SetThreadPriority false, Call.SetPriorityClass false])) := by
      rw [htr]
      unfold primaryCalls
      simp only [List.append_assoc, List.cons_append, List.nil_append]
    rw [hform]
    exact priority_bracket _ _ hA hM

/-- C19 on `P0=20` with two P-states, on the machine with two logical processors: the run
returns with the priority normal. -/
theorem C19_priority_restored_witness :
    ∃ (b : Bool) (w1 : Worker) (s : Sys Unit),
      ApplyChanges fixedMachine (simInfo 2)
        (ParseParams (simInfo 2) Worker.new [[], ['P', '0', '=', '2', '0']]).2 false ()
        = some (b, w1, s) ∧
      priorityAfter normalPriority s.trace = normalPriority := by
  obtain ⟨b, w1, s, h⟩ := (C19_priority_restored fixedMachine (simInfo 2)
    (ParseParams (simInfo 2) Worker.new [[], ['P', '0', '=', '2', '0']]).2 false ()).2
    (tablesInBounds_fixedMachine _ _ rfl (by decide) (by decide))
  exact ⟨b, w1, s, h, ((C19_priority_restored fixedMachine (simInfo 2)
    (ParseParams (simInfo 2) Worker.new [[], ['P', '0', '=', '2', '0']]).2 false ()).1
    b w1 s h).1⟩

/-! ## Table bounds -/

/-- C20: on family 0x10 with a single northbridge P-state the preconditions hold (no boost
state, both units at P-state 0, every live northbridge association 0) and the run reads
`_nbPStates[1]` in a table of length 1: without directive in the condition of line 188,
because entry 0 has no voltage; with `NB_low=0 NB_P0=@1.0` in the derivation loop, because
`NB_low` requested the association 1.  Both runs leave the tables. -/
theorem C20_northbridge_entry_one_out_of_bounds :
    ((simInfo10 1).Family = 0x10 ∧ (simInfo10 1).NumNBPStates = 1 ∧
      0 ≤ (simInfo10 1).NumBoostStates ∧
      (simInfo10 1).NumBoostStates < (simInfo10 1).NumPStates ∧
      (∀ hw : Unit, 0 ≤ fixedMachine.GetCurrentPState hw ∧
        fixedMachine.GetCurrentPState hw < (simInfo10 1).NumPStates) ∧
      (∀ (hw : Unit) (i : Int), 0 ≤ (fixedMachine.ReadPState hw i).NBPState ∧
        (fixedMachine.ReadPState hw i).NBPState < (simInfo10 1).NumNBPStates)) ∧
    ((ParseParams (simInfo10 1) Worker.new [[]]).1 = true ∧
      (ParseParams (simInfo10 1) Worker.new [[]]).2._pStates.length = 2 ∧
      (ParseParams (simInfo10 1) Worker.new [[]]).2._nbPStates.length = 1 ∧
      anyNBVID (ParseParams (simInfo10 1) Worker.new [[]]).2 = none ∧
      ApplyChanges fixedMachine (simInfo10 1)
        (ParseParams (simInfo10 1) Worker.new [[]]).2 false () = none) ∧
    ((ParseParams (simInfo10 1) Worker.new
        [[], ['N', 'B', '_', 'l', 'o', 'w', '=', '0'],
          ['N', 'B', '_', 'P', '0', '=', '@', '1', '.', '0']]).1 = true ∧
      (ParseParams (simInfo10 1) Worker.new
        [[], ['N', 'B', '_', 'l', 'o', 'w', '=', '0'],
          ['N', 'B', '_', 'P', '0', '=', '@', '1', '.', '0']]).2._pStates.map
            (fun p => p.NBPState) = [1, 1] ∧
      (ParseParams (simInfo10 1) Worker.new
        [[], ['N', 'B', '_', 'l', 'o', 'w', '=', '0'],
          ['N', 'B', '_', 'P', '0', '=', '@', '1', '.', '0']]).2._nbPStates.length = 1 ∧
      anyNBVID (ParseParams (simInfo10 1) Worker.new
        [[], ['N', 'B', '_', 'l', 'o', 'w', '=', '0'],
          ['N', 'B', '_', 'P', '0', '=', '@', '1', '.', '0']]).2 = some true ∧
      ApplyChanges fixedMachine (simInfo10 1)
        (ParseParams (simInfo10 1) Worker.new
          [[], ['N', 'B', '_', 'l', 'o', 'w', '=', '0'],
            ['N', 'B', '_', 'P', '0', '=', '@', '1', '.', '0']]).2 false () = none) := by
  refine ⟨⟨rfl, rfl, by decide, by decide,
    fun _ => ⟨by show (0 : Int) ≤ 0; decide, by show (0 : Int) < 2; decide⟩,
    fun _ _ => ⟨by show (0 : Int) ≤ 0; decide, by show (0 : Int) < 1; decide⟩⟩,
    by decide!, by decide!⟩

/-! ## Letter case of the keys -/

theorem upper_cases (c : Char) (h : 65 ≤ c.toNat ∧ c.toNat ≤ 90) :
    c ∈ ['A', 'B', 'C', 'D', 'E', 'F', 'G', 'H', 'I', 'J', 'K', 'L', 'M', 'N', 'O', 'P', 'Q',
      'R', 'S', 'T', 'U', 'V', 'W', 'X', 'Y', 'Z'] := by
  have hc : c = Char.ofNat c.toNat := (Char.ofNat_toNat c).symm
  obtain ⟨h1, h2⟩ := h
  generalize c.toNat = n at hc h1 h2
  subst hc
  interval_cases n <;> decide

/-- The character code of `tolower c`. -/
theorem tolower_toNat (c : Char) :
    (tolower c).toNat = if 65 ≤ c.toNat ∧ c.toNat ≤ 90 then c.toNat + 32 else c.toNat := by
  by_cases h : 65 ≤ c.toNat ∧ c.toNat ≤ 90
  · rw [if_pos h]
    have hm := upper_cases c h
    simp only [List.mem_cons, List.mem_singleton] at hm
    rcases hm with h | h | h | h | h | h | h | h | h | h | h | h | h | h | h | h | h | h | h |
      h | h | h | h | h | h | h | h <;> first | (subst h; decide) | exact absurd h (List.not_mem_nil c)
  · rw [if_neg h]
    unfold tolower
    rw [if_neg h]

theorem char_eq_of_toNat (c d : Char) (h : c.toNat = d.toNat) : c = d := by
  rw [← Char.ofNat_toNat c, ← Char.ofNat_toNat d, h]

/-- Characters with the same `tolower`: both digits or neither, both white space or
neither, both the same sign or neither, and equal when one is a digit. -/
theorem tolower_eq_facts (c d : Char) (h : tolower c = tolower d) :
    isdigit c = isdigit d ∧ isspace c = isspace d ∧ (c = '-' ↔ d = '-') ∧ (c = '+' ↔ d = '+') ∧
    (c = '=' ↔ d = '=') ∧ (isdigit c = true → c = d) := by
  have ht := congrArg Char.toNat h
  rw [tolower_toNat, tolower_toNat] at ht
  have hm : ∀ (x : Char) (k : Nat) (y : Char), y.toNat = k → (x = y ↔ x.toNat = k) := by
    intro x k y hy
    constructor
    · intro hx; rw [hx, hy]
    · intro hx; exact char_eq_of_toNat x y (by rw [hx, hy])
  rw [hm c 45 '-' rfl, hm d 45 '-' rfl, hm c 43 '+' rfl, hm d 43 '+' rfl,
    hm c 61 '=' rfl, hm d 61 '=' rfl]
  unfold isdigit isspace
  by_cases hc : 65 ≤ c.toNat ∧ c.toNat ≤ 90 <;> by_cases hd : 65 ≤ d.toNat ∧ d.toNat ≤ 90
  · rw [if_pos hc, if_pos hd] at ht
    have he : c.toNat = d.toNat := by omega
    rw [he]
    exact ⟨rfl, rfl, Iff.rfl, Iff.rfl, Iff.rfl, fun _ => char_eq_of_toNat c d he⟩
  · rw [if_pos hc, if_neg hd] at ht
    refine ⟨?_, ?_, ?_, ?_, ?_, ?_⟩
    · rw [Bool.eq_iff_iff]
      simp only [Bool.and_eq_true, decide_eq_true_eq]
      omega
    · rw [Bool.eq_iff_iff]
      simp only [Bool.and_eq_true, Bool.or_eq_true, decide_eq_true_eq]
      omega
    · constructor <;> intro <;> omega
    · constructor <;> intro <;> omega
    · constructor <;> intro <;> omega
    · intro hdig
      simp only [Bool.and_eq_true, decide_eq_true_eq] at hdig
      omega
  · rw [if_neg hc, if_pos hd] at ht
    refine ⟨?_, ?_, ?_, ?_, ?_, ?_⟩
    · rw [Bool.eq_iff_iff]
      simp only [Bool.and_eq_true, decide_eq_true_eq]
      omega
    · rw [Bool.eq_iff_iff]
      simp only [Bool.and_eq_true, Bool.or_eq_true, decide_eq_true_eq]
      omega
    · constructor <;> intro <;> omega
    · constructor <;> intro <;> omega
    · constructor <;> intro <;> omega
    · intro hdig
      simp only [Bool.and_eq_true, decide_eq_true_eq] at hdig
      omega
  · rw [if_neg hc, if_neg hd] at ht
    rw [ht]
    exact ⟨rfl, rfl, Iff.rfl, Iff.rfl, Iff.rfl, fun _ => char_eq_of_toNat c d ht⟩

theorem lower_cases (c : Char) (h : 97 ≤ c.toNat ∧ c.toNat ≤ 122) :
    c ∈ ['a', 'b', 'c', 'd', 'e', 'f', 'g', 'h', 'i', 'j', 'k', 'l', 'm', 'n', 'o', 'p', 'q',
      'r', 's', 't', 'u', 'v', 'w', 'x', 'y', 'z'] := by
  have hc : c = Char.ofNat c.toNat := (Char.ofNat_toNat c).symm
  obtain ⟨h1, h2⟩ := h
  generalize c.toNat = n at hc h1 h2
  subst hc
  interval_cases n <;> decide

theorem tolower_otherCase (c : Char) : tolower (otherCase c) = tolower c := by
  by_cases h : 65 ≤ c.toNat ∧ c.toNat ≤ 90
  · have hm := upper_cases c h
    simp only [List.mem_cons, List.mem_singleton] at hm
    rcases hm with h | h | h | h | h | h | h | h | h | h | h | h | h | h | h | h | h | h | h |
      h | h | h | h | h | h | h | h <;> first | (subst h; decide) | exact absurd h (List.not_mem_nil c)
  · by_cases h2 : 97 ≤ c.toNat ∧ c.toNat ≤ 122
    · have hm := lower_cases c h2
      simp only [List.mem_cons, List.mem_singleton] at hm
      rcases hm with h | h | h | h | h | h | h | h | h | h | h | h | h | h | h | h | h | h |
        h | h | h | h | h | h | h | h | h <;>
        first | (subst h; decide) | exact absurd h (List.not_mem_nil c)
    · unfold otherCase
      rw [if_neg h, if_neg h2]

/-- Case variants have the same lower-case text. -/
theorem caseVariant_tolower : ∀ (k k' : List Char), caseVariant k k' = true →
    k.map tolower = k'.map tolower
  | [], [], _ => rfl
  | [], _ :: _, h => by simp [caseVariant] at h
  | _ :: _, [], h => by simp [caseVariant] at h
  | c :: k, c' :: k', h => by
    simp only [caseVariant, Bool.and_eq_true, Bool.or_eq_true, beq_iff_eq] at h
    have ih := caseVariant_tolower k k' h.2
    have hc : tolower c = tolower c' := by
      rcases h.1 with h1 | h1
      · rw [h1]
      · rw [h1, tolower_otherCase]
    simp only [List.map_cons, hc, ih]

theorem takeWhile_isdigit_congr : ∀ (s t : List Char), s.map tolower = t.map tolower →
    s.takeWhile isdigit = t.takeWhile isdigit
  | [], [], _ => rfl
  | [], _ :: _, h => by simp at h
  | _ :: _, [], h => by simp at h
  | c :: s, d :: t, h => by
    simp only [List.map_cons, List.cons.injEq] at h
    obtain ⟨hd, _, _, _, _, heq⟩ := tolower_eq_facts c d h.1
    have ih := takeWhile_isdigit_congr s t h.2
    rw [List.takeWhile_cons, List.takeWhile_cons, ← hd]
    cases hc : isdigit c with
    | true => simp only [if_true]; rw [heq hc, ih]
    | false => rfl

theorem dropWhile_isspace_congr : ∀ (s t : List Char), s.map tolower = t.map tolower →
    (s.dropWhile isspace).map tolower = (t.dropWhile isspace).map tolower
  | [], [], _ => rfl
  | [], _ :: _, h => by simp at h
  | _ :: _, [], h => by simp at h
  | c :: s, d :: t, h => by
    have h0 := h
    simp only [List.map_cons, List.cons.injEq] at h
    obtain ⟨_, hs, _⟩ := tolower_eq_facts c d h.1
    have ih := dropWhile_isspace_congr s t h.2
    rw [List.dropWhile_cons, List.dropWhile_cons, ← hs]
    cases hc : isspace c with
    | true => simp only [if_true]; exact ih
    | false => exact h0

theorem takeSign_other (c : Char) (r : List Char) (h1 : c ≠ '-') (h2 : c ≠ '+') :
    takeSign (c :: r) = (false, c :: r) := by
  unfold takeSign
  split
  · next heq =>
    simp only [List.cons.injEq] at heq
    exact absurd heq.1 h1
  · next heq =>
    simp only [List.cons.injEq] at heq
    exact absurd heq.1 h2
  · rfl

theorem takeSign_congr (s t : List Char) (h : s.map tolower = t.map tolower) :
    (takeSign s).1 = (takeSign t).1 ∧
    (takeSign s).2.map tolower = (takeSign t).2.map tolower := by
  cases s with
  | nil =>
    cases t with
    | nil => exact ⟨rfl, rfl⟩
    | cons d t => simp at h
  | cons c s =>
    cases t with
    | nil => simp at h
    | cons d t =>
      have h0 := h
      simp only [List.map_cons, List.cons.injEq] at h
      obtain ⟨_, _, hm, hp, _⟩ := tolower_eq_facts c d h.1
      by_cases hc : c = '-'
      · have hd := hm.1 hc
        subst hc
        subst hd
        exact ⟨rfl, h.2⟩
      · by_cases hc2 : c = '+'
        · have hd := hp.1 hc2
          subst hc2
          subst hd
          exact ⟨rfl, h.2⟩
        · rw [takeSign_other c s hc hc2,
            takeSign_other d t (fun hd => hc (hm.2 hd)) (fun hd => hc2 (hp.2 hd))]
          exact ⟨rfl, h0⟩

/-- The result of `atoi` does not depend on the letter case of its text. -/
theorem atoi_congr (s t : List Char) (h : s.map tolower = t.map tolower) : atoi s = atoi t := by
  obtain ⟨h1, h2⟩ := takeSign_congr _ _ (dropWhile_isspace_congr s t h)
  have h3 := takeWhile_isdigit_congr _ _ h2
  unfold atoi
  simp only
  rw [h1, h3]

theorem atoi_drop_congr (s t : List Char) (n : Nat) (h : s.map tolower = t.map tolower) :
    atoi (s.drop n) = atoi (t.drop n) := by
  apply atoi_congr
  rw [List.map_drop, List.map_drop, h]

theorem head_tolower_congr (s t : List Char) (h : s.map tolower = t.map tolower) :
    s.head?.map tolower = t.head?.map tolower := by
  rw [← List.head?_map, ← List.head?_map, h]

theorem parseBare_congr (info : Info) (w : Worker) (p p' : List Char)
    (h : p.map tolower = p'.map tolower) : parseBare info w p = parseBare info w p' := by
  have hlen : p.length = p'.length := by simpa using congrArg List.length h
  unfold parseBare
  rw [hlen, head_tolower_congr p p' h, atoi_drop_congr p p' 1 h]

theorem parsePState_congr (info : Info) (w : Worker) (k k' v : List Char)
    (h : k.map tolower = k'.map tolower) : parsePState info w k v = parsePState info w k' v := by
  have hlen : k.length = k'.length := by simpa using congrArg List.length h
  unfold parsePState
  rw [hlen, head_tolower_congr k k' h, atoi_drop_congr k k' 1 h]

theorem parseNBPState_congr (info : Info) (w : Worker) (k k' v : List Char)
    (h : k.map tolower = k'.map tolower) :
    parseNBPState info w k v = parseNBPState info w k' v := by
  have hlen : k.length = k'.length := by simpa using congrArg List.length h
  have hcmp : strnicmpEq k ['N', 'B', '_', 'P'] 4 = strnicmpEq k' ['N', 'B', '_', 'P'] 4 := by
    have e1 : (k.take 4).map tolower = (k'.take 4).map tolower := by
      rw [List.map_take, h, List.map_take]
    unfold strnicmpEq
    rw [e1]
  unfold parseNBPState
  rw [hlen, hcmp, atoi_drop_congr k k' 4 h]

theorem stricmpEq_congr (k k' p : List Char) (h : k.map tolower = k'.map tolower) :
    stricmpEq k p = stricmpEq k' p := by
  unfold stricmpEq
  rw [h]

theorem parseNBLow_congr (info : Info) (w : Worker) (k k' v : List Char)
    (h : k.map tolower = k'.map tolower) : parseNBLow info w k v = parseNBLow info w k' v := by
  unfold parseNBLow
  rw [stricmpEq_congr k k' _ h]

theorem parseTurbo_congr (w : Worker) (k k' v : List Char)
    (h : k.map tolower = k'.map tolower) : parseTurbo w k v = parseTurbo w k' v := by
  unfold parseTurbo
  rw [stricmpEq_congr k k' _ h]

theorem parseAPM_congr (w : Worker) (k k' v : List Char)
    (h : k.map tolower = k'.map tolower) : parseAPM w k v = parseAPM w k' v := by
  unfold parseAPM
  rw [stricmpEq_congr k k' _ h]

theorem mem_delimiter_congr : ∀ (k k' : List Char), k.map tolower = k'.map tolower →
    ('=' ∈ k ↔ '=' ∈ k')
  | [], [], _ => Iff.rfl
  | [], _ :: _, h => by simp at h
  | _ :: _, [], h => by simp at h
  | c :: k, d :: k', h => by
    simp only [List.map_cons, List.cons.injEq] at h
    obtain ⟨_, _, _, _, he, _⟩ := tolower_eq_facts c d h.1
    have ih := mem_delimiter_congr k k' h.2
    simp only [List.mem_cons]
    constructor
    · rintro (h1 | h1)
      · exact Or.inl (he.1 h1.symm).symm
      · exact Or.inr (ih.1 h1)
    · rintro (h1 | h1)
      · exact Or.inl (he.2 h1.symm).symm
      · exact Or.inr (ih.2 h1)

/-- The text before the first `=` has no `=`, and what follows it is empty or starts with
`=`. -/
theorem indexOf_split (c : Char) : ∀ d : List Char,
    c ∉ d.take (d.indexOf c) ∧
    (d.drop (d.indexOf c) = [] ∨ ∃ v, d.drop (d.indexOf c) = c :: v)
  | [] => ⟨by simp, Or.inl (by simp)⟩
  | x :: t => by
    by_cases hx : x = c
    · rw [List.indexOf_cons_eq _ hx]
      exact ⟨by simp, Or.inr ⟨t, by simp [hx]⟩⟩
    · obtain ⟨h1, h2⟩ := indexOf_split c t
      rw [List.indexOf_cons_ne _ hx]
      refine ⟨?_, by simpa using h2⟩
      simp only [List.take_succ_cons, List.mem_cons, not_or]
      exact ⟨fun h => hx h.symm, h1⟩

theorem keyOf_spec (d : List Char) :
    '=' ∉ keyOf d ∧ d = keyOf d ++ d.drop (keyOf d).length ∧
    (d.drop (keyOf d).length = [] ∨ ∃ v, d.drop (keyOf d).length = '=' :: v) := by
  obtain ⟨h1, h2⟩ := indexOf_split '=' d
  unfold keyOf SplitPair find
  by_cases hlt : d.indexOf '=' < d.length
  · rw [if_pos hlt]
    simp only
    have hl : (d.take (d.indexOf '=')).length = d.indexOf '=' := by
      rw [List.length_take]
      omega
    rw [hl]
    exact ⟨h1, (List.take_append_drop _ _).symm, h2⟩
  · rw [if_neg hlt]
    simp only
    refine ⟨?_, by simp, Or.inl (by simp)⟩
    intro hmem
    exact hlt (List.indexOf_lt_length.2 hmem)

/-- One iteration of the loop gives the same result on a directive and on the directive
with letters of its key in the other case. -/
theorem parseParam_keyCaseVariant (info : Info) (w : Worker) (d d' : List Char)
    (h : keyCaseVariant d d' = true) : parseParam info w d = parseParam info w d' := by
  simp only [keyCaseVariant, Bool.and_eq_true, beq_iff_eq] at h
  have hk := caseVariant_tolower _ _ h.1
  obtain ⟨hn, hd, hr⟩ := keyOf_spec d
  obtain ⟨hn', hd', _⟩ := keyOf_spec d'
  rw [← h.2] at hd'
  have hmap : d.map tolower = d'.map tolower := by
    rw [hd, hd', List.map_append, List.map_append, hk]
  rcases hr with hr | ⟨v, hr⟩
  · rw [hr, List.append_nil] at hd hd'
    rw [parseParam_bare info w d (by rw [hd, SplitPair_not_mem _ _ hn]),
      parseParam_bare info w d' (by rw [hd', SplitPair_not_mem _ _ hn'])]
    exact parseBare_congr info w d d' hmap
  · rw [hr] at hd hd'
    by_cases hv : v = []
    · rw [parseParam_bare info w d (by rw [hd, SplitPair_append _ _ _ hn]; exact hv),
        parseParam_bare info w d' (by rw [hd', SplitPair_append _ _ _ hn']; exact hv)]
      exact parseBare_congr info w d d' hmap
    · rw [hd, hd', parseParam_valued info w _ v hn hv, parseParam_valued info w _ v hn' hv,
        parsePState_congr info w _ _ v hk, parseNBPState_congr info w _ _ v hk,
        parseNBLow_congr info w _ _ v hk, parseTurbo_congr w _ _ v hk,
        parseAPM_congr w _ _ v hk]

theorem parseLoop_keyCaseVariant (info : Info) (ds ds' : List (List Char))
    (h : List.Forall₂ (fun d d' => keyCaseVariant d d' = true) ds ds') :
    ∀ w : Worker, parseLoop info w ds = parseLoop info w ds' := by
  induction h with
  | nil => intro w; rfl
  | cons hd _ ih =>
    intro w
    simp only [parseLoop]
    rw [parseParam_keyCaseVariant info w _ _ hd]
    split
    · rfl
    · exact ih _

/-- C12: when each directive of one list is the directive at the same place of the other
list with some letters of its key (the text before the first `=`) replaced by their
other-case form, `ParseParams` gives the same return value and the same worker on the two
lists. -/
theorem C12_key_case_insensitive (info : Info) (w : Worker) (prog : List Char)
    (ds ds' : List (List Char))
    (h : List.Forall₂ (fun d d' => keyCaseVariant d d' = true) ds ds') :
    ParseParams info w (prog :: ds) = ParseParams info w (prog :: ds') := by
  unfold ParseParams
  exact parseLoop_keyCaseVariant info ds ds' h _

/-- C12 on `Turbo=1 nb_P0=8 p1` and `tURBO=1 NB_p0=8 P1`. -/
theorem C12_key_case_insensitive_witness :
    ParseParams (simInfo 2) Worker.new
      [[], ['T', 'u', 'r', 'b', 'o', '=', '1'], ['n', 'b', '_', 'P', '0', '=', '8'], ['p', '1']] =
    ParseParams (simInfo 2) Worker.new
      [[], ['t', 'U', 'R', 'B', 'O', '=', '1'], ['N', 'B', '_', 'p', '0', '=', '8'], ['P', '1']] :=
  C12_key_case_insensitive (simInfo 2) Worker.new []
    [['T', 'u', 'r', 'b', 'o', '=', '1'], ['n', 'b', '_', 'P', '0', '=', '8'], ['p', '1']]
    [['t', 'U', 'R', 'B', 'O', '=', '1'], ['N', 'B', '_', 'p', '0', '=', '8'], ['P', '1']]
    (List.Forall₂.cons (by decide) (List.Forall₂.cons (by decide)
      (List.Forall₂.cons (by decide) List.Forall₂.nil)))

/-! ## Last write wins -/

theorem parseBare_some (info : Info) (w w1 : Worker) (d : List Char)
    (h : parseBare info w d = some w1) :
    (2 ≤ d.length ∧ d.head?.map tolower = some 'p') ∧
    (0 ≤ atoi (d.drop 1) ∧ atoi (d.drop 1) < info.NumPStates) ∧
    w1 = { w with _pState := atoi (d.drop 1) } := by
  unfold parseBare at h
  by_cases h1 : 2 ≤ d.length ∧ d.head?.map tolower = some 'p'
  · rw [if_pos h1] at h
    by_cases h2 : 0 ≤ atoi (d.drop 1) ∧ atoi (d.drop 1) < info.NumPStates
    · rw [if_pos h2] at h
      cases h
      exact ⟨h1, h2, rfl⟩
    · rw [if_neg h2] at h; cases h
  · rw [if_neg h1] at h; cases h

theorem parsePState_some (info : Info) (w w1 : Worker) (key value : List Char)
    (h : parsePState info w key value = some w1) :
    (2 ≤ key.length ∧ key.head?.map tolower = some 'p') ∧
    (0 ≤ atoi (key.drop 1) ∧ atoi (key.drop 1) < info.NumPStates) ∧
    w1 = { w with _pStates := w._pStates.modify (fun p => { p with
        Multi := if (SplitPair value '@').1 = [] then p.Multi
          else info.multiScaleFactor * atof (SplitPair value '@').1,
        VID := if (SplitPair value '@').2 = [] then p.VID
          else info.EncodeVID (atof (SplitPair value '@').2) }) (atoi (key.drop 1)).toNat } := by
  unfold parsePState at h
  by_cases h1 : 2 ≤ key.length ∧ key.head?.map tolower = some 'p'
  · rw [if_pos h1] at h
    by_cases h2 : 0 ≤ atoi (key.drop 1) ∧ atoi (key.drop 1) < info.NumPStates
    · rw [if_pos h2] at h
      simp only [Option.some.injEq] at h
      refine ⟨h1, h2, ?_⟩
      rw [← h]
      by_cases hm : (SplitPair value '@').1 = [] <;> by_cases hv : (SplitPair value '@').2 = [] <;>
        simp [hm, hv, modify_modify_same]
      rw [modify_eq_self _ (fun _ => rfl)]
    · rw [if_neg h2] at h; cases h
  · rw [if_neg h1] at h; cases h

theorem parseNBPState_some (info : Info) (w w1 : Worker) (key value : List Char)
    (h : parseNBPState info w key value = some w1) :
    (5 ≤ key.length ∧ strnicmpEq key ['N', 'B', '_', 'P'] 4 = true) ∧
    (0 ≤ atoi (key.drop 4) ∧ atoi (key.drop 4) < info.NumNBPStates) ∧
    w1 = { w with _nbPStates := w._nbPStates.modify (fun p => { p with
        Multi := if (SplitPair value '@').1 = [] then p.Multi
          else atof (SplitPair value '@').1,
        VID := if (SplitPair value '@').2 = [] then p.VID
          else info.EncodeVID (atof (SplitPair value '@').2) }) (atoi (key.drop 4)).toNat } := by
  unfold parseNBPState at h
  by_cases h1 : 5 ≤ key.length ∧ strnicmpEq key ['N', 'B', '_', 'P'] 4 = true
  · rw [if_pos h1] at h
    by_cases h2 : 0 ≤ atoi (key.drop 4) ∧ atoi (key.drop 4) < info.NumNBPStates
    · rw [if_pos h2] at h
      simp only [Option.some.injEq] at h
      refine ⟨h1, h2, ?_⟩
      rw [← h]
      by_cases hm : (SplitPair value '@').1 = [] <;> by_cases hv : (SplitPair value '@').2 = [] <;>
        simp [hm, hv, modify_modify_same]
      rw [modify_eq_self _ (fun _ => rfl)]
    · rw [if_neg h2] at h; cases h
  · rw [if_neg h1] at h; cases h

theorem parseNBLow_some (info : Info) (w w1 : Worker) (key value : List Char)
    (h : parseNBLow info w key value = some w1) :
    stricmpEq key ['N', 'B', '_', 'l', 'o', 'w'] = true ∧
    w1 = { w with _pStates := assignNBLow info (atoi value) w._pStates } := by
  unfold parseNBLow at h
  by_cases h1 : stricmpEq key ['N', 'B', '_', 'l', 'o', 'w'] = true
  · rw [if_pos h1] at h
    cases h
    exact ⟨h1, rfl⟩
  · rw [if_neg h1] at h; cases h

theorem parseTurbo_some (w w1 : Worker) (key value : List Char)
    (h : parseTurbo w key value = some w1) :
    stricmpEq key ['T', 'u', 'r', 'b', 'o'] = true ∧ (atoi value = 0 ∨ atoi value = 1) ∧
    w1 = { w with _turbo := atoi value } := by
  unfold parseTurbo at h
  by_cases h1 : stricmpEq key ['T', 'u', 'r', 'b', 'o'] = true
  · rw [if_pos h1] at h
    by_cases h2 : atoi value = 0 ∨ atoi value = 1
    · rw [if_pos h2] at h
      cases h
      exact ⟨h1, h2, rfl⟩
    · rw [if_neg h2] at h; cases h
  · rw [if_neg h1] at h; cases h

theorem parseAPM_some (w w1 : Worker) (key value : List Char)
    (h : parseAPM w key value = some w1) :
    stricmpEq key ['A', 'P', 'M'] = true ∧ (atoi value = 0 ∨ atoi value = 1) ∧
    w1 = { w with _apm := atoi value } := by
  unfold parseAPM at h
  by_cases h1 : stricmpEq key ['A', 'P', 'M'] = true
  · rw [if_pos h1] at h
    by_cases h2 : atoi value = 0 ∨ atoi value = 1
    · rw [if_pos h2] at h
      cases h
      exact ⟨h1, h2, rfl⟩
    · rw [if_neg h2] at h; cases h
  · rw [if_neg h1] at h; cases h

theorem key_exclusive (k : List Char) :
    (k.head?.map tolower = some 'p' →
      strnicmpEq k ['N', 'B', '_', 'P'] 4 = false ∧
      stricmpEq k ['N', 'B', '_', 'l', 'o', 'w'] = false ∧
      stricmpEq k ['T', 'u', 'r', 'b', 'o'] = false ∧ stricmpEq k ['A', 'P', 'M'] = false) ∧
    (strnicmpEq k ['N', 'B', '_', 'P'] 4 = true →
      k.head?.map tolower ≠ some 'p' ∧
      stricmpEq k ['N', 'B', '_', 'l', 'o', 'w'] = false ∧
      stricmpEq k ['T', 'u', 'r', 'b', 'o'] = false ∧ stricmpEq k ['A', 'P', 'M'] = false) ∧
    (stricmpEq k ['N', 'B', '_', 'l', 'o', 'w'] = true →
      k.head?.map tolower ≠ some 'p' ∧
      strnicmpEq k ['N', 'B', '_', 'P'] 4 = false ∧
      stricmpEq k ['T', 'u', 'r', 'b', 'o'] = false ∧ stricmpEq k ['A', 'P', 'M'] = false) ∧
    (stricmpEq k ['T', 'u', 'r', 'b', 'o'] = true →
      k.head?.map tolower ≠ some 'p' ∧
      strnicmpEq k ['N', 'B', '_', 'P'] 4 = false ∧
      stricmpEq k ['N', 'B', '_', 'l', 'o', 'w'] = false ∧ stricmpEq k ['A', 'P', 'M'] = false) ∧
    (stricmpEq k ['A', 'P', 'M'] = true →
      k.head?.map tolower ≠ some 'p' ∧
      strnicmpEq k ['N', 'B', '_', 'P'] 4 = false ∧
      stricmpEq k ['N', 'B', '_', 'l', 'o', 'w'] = false ∧
      stricmpEq k ['T', 'u', 'r', 'b', 'o'] = false) := by
  have hn : strnicmpEq k ['N', 'B', '_', 'P'] 4 = true → k.head?.map tolower = some 'n' :=
    fun h => (strnicmpEq_head _ _ 3 h).trans (by decide)
  have hl : stricmpEq k ['N', 'B', '_', 'l', 'o', 'w'] = true →
      k.head?.map tolower = some 'n' := fun h => (stricmpEq_head _ _ h).trans (by decide)
  have ht : stricmpEq k ['T', 'u', 'r', 'b', 'o'] = true → k.head?.map tolower = some 't' :=
    fun h => (stricmpEq_head _ _ h).trans (by decide)
  have ha : stricmpEq k ['A', 'P', 'M'] = true → k.head?.map tolower = some 'a' :=
    fun h => (stricmpEq_head _ _ h).trans (by decide)
  have hnl : strnicmpEq k ['N', 'B', '_', 'P'] 4 = true →
      stricmpEq k ['N', 'B', '_', 'l', 'o', 'w'] = true → False := by
    intro h1 h2
    simp only [strnicmpEq, stricmpEq, decide_eq_true_eq] at h1 h2
    rw [List.map_take, h2] at h1
    exact absurd h1 (by decide)
  have hf : ∀ (b : Bool), (b = true → False) → b = false := by
    intro b hb
    cases b with
    | false => rfl
    | true => exact (hb rfl).elim
  have hne : ∀ (x y : Char), x ≠ y → k.head?.map tolower = some x →
      k.head?.map tolower = some y → False := by
    intro x y hxy h1 h2
    rw [h1] at h2
    exact hxy (Option.some.inj h2)
  refine ⟨fun hp => ⟨hf _ fun h => hne _ _ (by decide) hp (hn h),
      hf _ fun h => hne _ _ (by decide) hp (hl h), hf _ fun h => hne _ _ (by decide) hp (ht h),
      hf _ fun h => hne _ _ (by decide) hp (ha h)⟩,
    fun h0 => ⟨fun hp => hne _ _ (by decide) hp (hn h0), hf _ fun h => hnl h0 h,
      hf _ fun h => hne _ _ (by decide) (hn h0) (ht h),
      hf _ fun h => hne _ _ (by decide) (hn h0) (ha h)⟩,
    fun h0 => ⟨fun hp => hne _ _ (by decide) hp (hl h0), hf _ fun h => hnl h h0,
      hf _ fun h => hne _ _ (by decide) (hl h0) (ht h),
      hf _ fun h => hne _ _ (by decide) (hl h0) (ha h)⟩,
    fun h0 => ⟨fun hp => hne _ _ (by decide) hp (ht h0),
      hf _ fun h => hne _ _ (by decide) (hn h) (ht h0),
      hf _ fun h => hne _ _ (by decide) (hl h) (ht h0),
      hf _ fun h => hne _ _ (by decide) (ht h0) (ha h)⟩,
    fun h0 => ⟨fun hp => hne _ _ (by decide) hp (ha h0),
      hf _ fun h => hne _ _ (by decide) (hn h) (ha h0),
      hf _ fun h => hne _ _ (by decide) (hl h) (ha h0),
      hf _ fun h => hne _ _ (by decide) (ht h) (ha h0)⟩⟩

theorem targetOf_none (info : Info) (d : List Char) (hv : valueOf d ≠ []) :
    targetOf info d = none := by
  unfold targetOf
  rw [if_neg (fun h => hv h.1)]

theorem entersPState_false (info : Info) (i : Nat) (d : List Char)
    (h : valueOf d = [] ∨ (keyOf d).head?.map tolower ≠ some 'p') :
    entersPState info i d = false := by
  unfold entersPState
  rw [decide_eq_false_iff_not]
  rintro ⟨hv, ⟨_, hp⟩, _⟩
  rcases h with h | h
  · exact hv h
  · exact h hp

theorem multiOf_none (info : Info) (i : Nat) (d : List Char)
    (h : valueOf d = [] ∨ (keyOf d).head?.map tolower ≠ some 'p') :
    multiOf info i d = none ∧ vidOf info i d = none := by
  unfold multiOf vidOf
  rw [entersPState_false info i d h]
  exact ⟨if_neg (fun h => Bool.noConfusion h.1), if_neg (fun h => Bool.noConfusion h.1)⟩

theorem entersNBPState_false (info : Info) (i : Nat) (d : List Char)
    (h : valueOf d = [] ∨ strnicmpEq (keyOf d) ['N', 'B', '_', 'P'] 4 = false) :
    entersNBPState info i d = false := by
  unfold entersNBPState
  rw [decide_eq_false_iff_not]
  rintro ⟨hv, ⟨_, hp⟩, _⟩
  rcases h with h | h
  · exact hv h
  · rw [h] at hp; cases hp

theorem nbMultiOf_none (info : Info) (i : Nat) (d : List Char)
    (h : valueOf d = [] ∨ strnicmpEq (keyOf d) ['N', 'B', '_', 'P'] 4 = false) :
    nbMultiOf info i d = none ∧ nbVidOf info i d = none := by
  unfold nbMultiOf nbVidOf
  rw [entersNBPState_false info i d h]
  exact ⟨if_neg (fun h => Bool.noConfusion h.1), if_neg (fun h => Bool.noConfusion h.1)⟩

theorem nbStateOf_none (info : Info) (i : Nat) (d : List Char)
    (h : valueOf d = [] ∨ stricmpEq (keyOf d) ['N', 'B', '_', 'l', 'o', 'w'] = false) :
    nbStateOf info i d = none := by
  unfold nbStateOf
  rw [if_neg]
  rintro ⟨hv, hp, _⟩
  rcases h with h | h
  · exact hv h
  · rw [h] at hp; cases hp

theorem turboOf_none (d : List Char)
    (h : valueOf d = [] ∨ stricmpEq (keyOf d) ['T', 'u', 'r', 'b', 'o'] = false) :
    turboOf d = none := by
  unfold turboOf
  rw [if_neg]
  rintro ⟨hv, hp, _⟩
  rcases h with h | h
  · exact hv h
  · rw [h] at hp; cases hp

theorem apmOf_none (d : List Char)
    (h : valueOf d = [] ∨ stricmpEq (keyOf d) ['A', 'P', 'M'] = false) :
    apmOf d = none := by
  unfold apmOf
  rw [if_neg]
  rintro ⟨hv, hp, _⟩
  rcases h with h | h
  · exact hv h
  · rw [h] at hp; cases hp

theorem Worker_ext (a b : Worker) (h1 : a._pStates = b._pStates)
    (h2 : a._nbPStates = b._nbPStates) (h3 : a._turbo = b._turbo) (h4 : a._apm = b._apm)
    (h5 : a._pState = b._pState) : a = b := by
  cases a
  cases b
  simp only at h1 h2 h3 h4 h5
  rw [h1, h2, h3, h4, h5]

theorem mapIdx_eq_of_getElem? {α : Type} (f : Nat → α → α) (l l1 : List α)
    (h : ∀ i, l1[i]? = (l[i]?).map (f i)) : l.mapIdx f = l1 := by
  apply List.ext_getElem?
  intro i
  rw [List.getElem?_mapIdx, h]

theorem mapIdx_eq_self {α : Type} (f : Nat → α → α) (l : List α)
    (h : ∀ i p, f i p = p) : l.mapIdx f = l := by
  apply mapIdx_eq_of_getElem?
  intro i
  cases l[i]? with
  | none => rfl
  | some p => simp [h]

theorem mapIdx_eq_modify {α : Type} (f : Nat → α → α) (g : α → α) (n : Nat) (l : List α)
    (h : ∀ i p, f i p = if n = i then g p else p) : l.mapIdx f = l.modify g n := by
  apply mapIdx_eq_of_getElem?
  intro i
  rw [List.getElem?_modify]
  cases l[i]? with
  | none => rfl
  | some p => simp [h]

theorem getD_ite {α : Type} (c e : Prop) [Decidable c] [Decidable e] (hc : c) (x y : α) :
    (if c ∧ ¬ e then some x else none).getD y = if e then y else x := by
  by_cases he : e
  · rw [if_neg (fun h => h.2 he), if_pos he]
    rfl
  · rw [if_pos ⟨hc, he⟩, if_neg he]
    rfl

theorem multiOf_enters (info : Info) (i : Nat) (d : List Char) (hv : valueOf d ≠ [])
    (h1 : 2 ≤ (keyOf d).length ∧ (keyOf d).head?.map tolower = some 'p')
    (h2 : 0 ≤ atoi ((keyOf d).drop 1) ∧ atoi ((keyOf d).drop 1) < info.NumPStates) :
    multiOf info i d =
      (if (atoi ((keyOf d).drop 1)).toNat = i ∧ (SplitPair (valueOf d) '@').1 ≠ [] then
        some (info.multiScaleFactor * atof (SplitPair (valueOf d) '@').1) else none) ∧
    vidOf info i d =
      (if (atoi ((keyOf d).drop 1)).toNat = i ∧ (SplitPair (valueOf d) '@').2 ≠ [] then
        some (info.EncodeVID (atof (SplitPair (valueOf d) '@').2)) else none) := by
  unfold multiOf vidOf entersPState
  by_cases hi : (atoi ((keyOf d).drop 1)).toNat = i
  · have he : (valueOf d ≠ [] ∧ (2 ≤ (keyOf d).length ∧ (keyOf d).head?.map tolower = some 'p') ∧
        (0 ≤ atoi ((keyOf d).drop 1) ∧ atoi ((keyOf d).drop 1) < info.NumPStates) ∧
        (atoi ((keyOf d).drop 1)).toNat = i) := ⟨hv, h1, h2, hi⟩
    rw [decide_eq_true he]
    constructor
    · by_cases hm : (SplitPair (valueOf d) '@').1 ≠ []
      · rw [if_pos ⟨rfl, hm⟩, if_pos ⟨hi, hm⟩]
      · rw [if_neg (fun h => hm h.2), if_neg (fun h => hm h.2)]
    · by_cases hm : (SplitPair (valueOf d) '@').2 ≠ []
      · rw [if_pos ⟨rfl, hm⟩, if_pos ⟨hi, hm⟩]
      · rw [if_neg (fun h => hm h.2), if_neg (fun h => hm h.2)]
  · have he : ¬ (valueOf d ≠ [] ∧ (2 ≤ (keyOf d).length ∧ (keyOf d).head?.map tolower = some 'p') ∧
        (0 ≤ atoi ((keyOf d).drop 1) ∧ atoi ((keyOf d).drop 1) < info.NumPStates) ∧
        (atoi ((keyOf d).drop 1)).toNat = i) := fun h => hi h.2.2.2
    rw [decide_eq_false he]
    exact ⟨by rw [if_neg (fun h => Bool.noConfusion h.1), if_neg (fun h => hi h.1)],
      by rw [if_neg (fun h => Bool.noConfusion h.1), if_neg (fun h => hi h.1)]⟩

theorem nbMultiOf_enters (info : Info) (i : Nat) (d : List Char) (hv : valueOf d ≠ [])
    (h1 : 5 ≤ (keyOf d).length ∧ strnicmpEq (keyOf d) ['N', 'B', '_', 'P'] 4 = true)
    (h2 : 0 ≤ atoi ((keyOf d).drop 4) ∧ atoi ((keyOf d).drop 4) < info.NumNBPStates) :
    nbMultiOf info i d =
      (if (atoi ((keyOf d).drop 4)).toNat = i ∧ (SplitPair (valueOf d) '@').1 ≠ [] then
        some (atof (SplitPair (valueOf d) '@').1) else none) ∧
    nbVidOf info i d =
      (if (atoi ((keyOf d).drop 4)).toNat = i ∧ (SplitPair (valueOf d) '@').2 ≠ [] then
        some (info.EncodeVID (atof (SplitPair (valueOf d) '@').2)) else none) := by
  unfold nbMultiOf nbVidOf entersNBPState
  by_cases hi : (atoi ((keyOf d).drop 4)).toNat = i
  · have he : (valueOf d ≠ [] ∧
        (5 ≤ (keyOf d).length ∧ strnicmpEq (keyOf d) ['N', 'B', '_', 'P'] 4 = true) ∧
        (0 ≤ atoi ((keyOf d).drop 4) ∧ atoi ((keyOf d).drop 4) < info.NumNBPStates) ∧
        (atoi ((keyOf d).drop 4)).toNat = i) := ⟨hv, h1, h2, hi⟩
    rw [decide_eq_true he]
    constructor
    · by_cases hm : (SplitPair (valueOf d) '@').1 ≠ []
      · rw [if_pos ⟨rfl, hm⟩, if_pos ⟨hi, hm⟩]
      · rw [if_neg (fun h => hm h.2), if_neg (fun h => hm h.2)]
    · by_cases hm : (SplitPair (valueOf d) '@').2 ≠ []
      · rw [if_pos ⟨rfl, hm⟩, if_pos ⟨hi, hm⟩]
      · rw [if_neg (fun h => hm h.2), if_neg (fun h => hm h.2)]
  · have he : ¬ (valueOf d ≠ [] ∧
        (5 ≤ (keyOf d).length ∧ strnicmpEq (keyOf d) ['N', 'B', '_', 'P'] 4 = true) ∧
        (0 ≤ atoi ((keyOf d).drop 4) ∧ atoi ((keyOf d).drop 4) < info.NumNBPStates) ∧
        (atoi ((keyOf d).drop 4)).toNat = i) := fun h => hi h.2.2.2
    rw [decide_eq_false he]
    exact ⟨by rw [if_neg (fun h => Bool.noConfusion h.1), if_neg (fun h => hi h.1)],
      by rw [if_neg (fun h => Bool.noConfusion h.1), if_neg (fun h => hi h.1)]⟩

/-- One accepted iteration of the loop is the field-by-field update: every branch assigns
the fields of its own directive kind only, with values that do not depend on the worker. -/
theorem parseParam_updateFields (info : Info) (w w1 : Worker) (d : List Char)
    (h : parseParam info w d = some w1) : w1 = updateFields info w d := by
  rcases parseParam_cases info w w1 d h with ⟨hv, hb⟩ | ⟨hv, hp | hn | hl | ht | ha⟩
  · have hv1 : valueOf d = [] := hv
    obtain ⟨h1, h2, rfl⟩ := parseBare_some info w w1 d hb
    apply Worker_ext <;> simp only [updateFields]
    · symm
      apply mapIdx_eq_self
      intro i p
      rw [(multiOf_none info i d (Or.inl hv1)).1, (multiOf_none info i d (Or.inl hv1)).2,
        nbStateOf_none info i d (Or.inl hv1)]
      rfl
    · symm
      apply mapIdx_eq_self
      intro i p
      rw [(nbMultiOf_none info i d (Or.inl hv1)).1, (nbMultiOf_none info i d (Or.inl hv1)).2]
      rfl
    · rw [turboOf_none d (Or.inl hv1)]; rfl
    · rw [apmOf_none d (Or.inl hv1)]; rfl
    · unfold targetOf
      rw [if_pos ⟨hv1, h1, h2⟩]
      rfl
  · have hv1 : valueOf d ≠ [] := hv
    obtain ⟨h1, h2, rfl⟩ := parsePState_some info w w1 _ _ hp
    obtain ⟨e1, e2, e3, e4⟩ := (key_exclusive (keyOf d)).1 h1.2
    apply Worker_ext <;> simp only [updateFields]
    · symm
      apply mapIdx_eq_modify
      intro i p
      rw [(multiOf_enters info i d hv1 h1 h2).1, (multiOf_enters info i d hv1 h1 h2).2,
        nbStateOf_none info i d (Or.inr e2)]
      show _ = if (atoi ((keyOf d).drop 1)).toNat = i then _ else p
      by_cases hi : (atoi ((keyOf d).drop 1)).toNat = i
      · rw [if_pos hi, getD_ite _ _ hi, getD_ite _ _ hi]
        rfl
      · rw [if_neg hi, if_neg (fun h => hi h.1), if_neg (fun h => hi h.1)]
        rfl
    · symm
      apply mapIdx_eq_self
      intro i p
      rw [(nbMultiOf_none info i d (Or.inr e1)).1, (nbMultiOf_none info i d (Or.inr e1)).2]
      rfl
    · rw [turboOf_none d (Or.inr e3)]; rfl
    · rw [apmOf_none d (Or.inr e4)]; rfl
    · rw [targetOf_none info d hv1]; rfl
  · have hv1 : valueOf d ≠ [] := hv
    obtain ⟨h1, h2, rfl⟩ := parseNBPState_some info w w1 _ _ hn
    obtain ⟨e1, e2, e3, e4⟩ := (key_exclusive (keyOf d)).2.1 h1.2
    apply Worker_ext <;> simp only [updateFields]
    · symm
      apply mapIdx_eq_self
      intro i p
      rw [(multiOf_none info i d (Or.inr e1)).1, (multiOf_none info i d (Or.inr e1)).2,
        nbStateOf_none info i d (Or.inr e2)]
      rfl
    · symm
      apply mapIdx_eq_modify
      intro i p
      rw [(nbMultiOf_enters info i d hv1 h1 h2).1, (nbMultiOf_enters info i d hv1 h1 h2).2]
      show _ = if (atoi ((keyOf d).drop 4)).toNat = i then _ else p
      by_cases hi : (atoi ((keyOf d).drop 4)).toNat = i
      · rw [if_pos hi, getD_ite _ _ hi, getD_ite _ _ hi]
        rfl
      · rw [if_neg hi, if_neg (fun h => hi h.1), if_neg (fun h => hi h.1)]
        rfl
    · rw [turboOf_none d (Or.inr e3)]; rfl
    · rw [apmOf_none d (Or.inr e4)]; rfl
    · rw [targetOf_none info d hv1]; rfl
  · have hv1 : valueOf d ≠ [] := hv
    obtain ⟨h1, rfl⟩ := parseNBLow_some info w w1 _ _ hl
    have h1k : stricmpEq (keyOf d) ['N', 'B', '_', 'l', 'o', 'w'] = true := h1
    obtain ⟨e1, e2, e3, e4⟩ := (key_exclusive (keyOf d)).2.2.1 h1
    apply Worker_ext <;> simp only [updateFields]
    · symm
      apply mapIdx_eq_of_getElem?
      intro i
      rw [assignNBLow_getElem?]
      cases w._pStates[i]? with
      | none => rfl
      | some p =>
        simp only [Option.map_some', Option.some.injEq]
        rw [(multiOf_none info i d (Or.inr e1)).1, (multiOf_none info i d (Or.inr e1)).2]
        by_cases hi : (i : Int) < info.NumPStates
        · have hc : valueOf d ≠ [] ∧ stricmpEq (keyOf d) ['N', 'B', '_', 'l', 'o', 'w'] = true ∧
              (i : Int) < info.NumPStates := ⟨hv1, h1k, hi⟩
          have hF : nbStateOf info i d = some (if (i : Int) < atoi (valueOf d) then 0 else 1) := by
            unfold nbStateOf
            rw [if_pos hc]
          rw [hF, if_pos hi]
          rfl
        · have hc : ¬ (valueOf d ≠ [] ∧
              stricmpEq (keyOf d) ['N', 'B', '_', 'l', 'o', 'w'] = true ∧
              (i : Int) < info.NumPStates) := fun h => hi h.2.2
          have hF : nbStateOf info i d = none := by
            unfold nbStateOf
            rw [if_neg hc]
          rw [hF, if_neg hi]
          rfl
    · symm
      apply mapIdx_eq_self
      intro i p
      rw [(nbMultiOf_none info i d (Or.inr e2)).1, (nbMultiOf_none info i d (Or.inr e2)).2]
      rfl
    · rw [turboOf_none d (Or.inr e3)]; rfl
    · rw [apmOf_none d (Or.inr e4)]; rfl
    · rw [targetOf_none info d hv1]; rfl
  · have hv1 : valueOf d ≠ [] := hv
    obtain ⟨h1, h2, rfl⟩ := parseTurbo_some w w1 _ _ ht
    have h1k : stricmpEq (keyOf d) ['T', 'u', 'r', 'b', 'o'] = true := h1
    have h2k : atoi (valueOf d) = 0 ∨ atoi (valueOf d) = 1 := h2
    obtain ⟨e1, e2, e3, e4⟩ := (key_exclusive (keyOf d)).2.2.2.1 h1
    apply Worker_ext <;> simp only [updateFields]
    · symm
      apply mapIdx_eq_self
      intro i p
      rw [(multiOf_none info i d (Or.inr e1)).1, (multiOf_none info i d (Or.inr e1)).2,
        nbStateOf_none info i d (Or.inr e3)]
      rfl
    · symm
      apply mapIdx_eq_self
      intro i p
      rw [(nbMultiOf_none info i d (Or.inr e2)).1, (nbMultiOf_none info i d (Or.inr e2)).2]
      rfl
    · unfold turboOf
      rw [if_pos ⟨hv1, h1k, h2k⟩]
      rfl
    · rw [apmOf_none d (Or.inr e4)]; rfl
    · rw [targetOf_none info d hv1]; rfl
  · have hv1 : valueOf d ≠ [] := hv
    obtain ⟨h1, h2, rfl⟩ := parseAPM_some w w1 _ _ ha
    have h1k : stricmpEq (keyOf d) ['A', 'P', 'M'] = true := h1
    have h2k : atoi (valueOf d) = 0 ∨ atoi (valueOf d) = 1 := h2
    obtain ⟨e1, e2, e3, e4⟩ := (key_exclusive (keyOf d)).2.2.2.2 h1
    apply Worker_ext <;> simp only [updateFields]
    · symm
      apply mapIdx_eq_self
      intro i p
      rw [(multiOf_none info i d (Or.inr e1)).1, (multiOf_none info i d (Or.inr e1)).2,
        nbStateOf_none info i d (Or.inr e3)]
      rfl
    · symm
      apply mapIdx_eq_self
      intro i p
      rw [(nbMultiOf_none info i d (Or.inr e2)).1, (nbMultiOf_none info i d (Or.inr e2)).2]
      rfl
    · rw [turboOf_none d (Or.inr e4)]; rfl
    · unfold apmOf
      rw [if_pos ⟨hv1, h1k, h2k⟩]
      rfl
    · rw [targetOf_none info d hv1]; rfl

theorem lastAssigned_cons {α : Type} (f : List Char → Option α) (d : List Char)
    (ds : List (List Char)) (x : α) :
    lastAssigned f (d :: ds) x = lastAssigned f ds ((f d).getD x) := by
  unfold lastAssigned
  cases hf : f d with
  | none => rw [List.filterMap_cons_none hf]; rfl
  | some v =>
    rw [List.filterMap_cons_some hf, List.getLast?_cons]
    rfl

/-- The value of `lastAssigned` depends only on the directives that assign the field, in
their order. -/
theorem lastAssigned_congr {α : Type} (f : List Char → Option α) (ds ds' : List (List Char))
    (x : α) (h : ds.filterMap f = ds'.filterMap f) :
    lastAssigned f ds x = lastAssigned f ds' x := by
  unfold lastAssigned
  rw [h]

/-- The value of `lastAssigned` is the value of the last directive that assigns the
field. -/
theorem lastAssigned_last {α : Type} (f : List Char → Option α) (pre : List (List Char))
    (d : List Char) (post : List (List Char)) (x v : α) (hd : f d = some v)
    (hpost : ∀ e ∈ post, f e = none) : lastAssigned f (pre ++ d :: post) x = v := by
  unfold lastAssigned
  have hp : post.filterMap f = [] := by
    rw [List.filterMap_eq_nil_iff]
    exact hpost
  rw [List.filterMap_append, List.filterMap_cons_some hd, hp, List.getLast?_append]
  rfl

theorem parseLoop_foldl (info : Info) (ds : List (List Char)) : ∀ w w1 : Worker,
    parseLoop info w ds = (true, w1) →
    w1 = ds.foldl (fun w d => (parseParam info w d).getD w) w ∧
    w1 = ds.foldl (updateFields info) w := by
  induction ds with
  | nil =>
    intro w w1 h
    simp only [parseLoop, Prod.mk.injEq, true_and] at h
    exact ⟨h.symm, h.symm⟩
  | cons d ds ih =>
    intro w w1 h
    cases hp : parseParam info w d with
    | none => simp [parseLoop, hp] at h
    | some w2 =>
      simp only [parseLoop, hp] at h
      rw [List.foldl_cons, List.foldl_cons, hp, ← parseParam_updateFields info w w2 d hp]
      exact ih w2 w1 h

theorem foldl_updateFields_scalars (info : Info) (ds : List (List Char)) : ∀ w : Worker,
    (ds.foldl (updateFields info) w)._pState = lastAssigned (targetOf info) ds w._pState ∧
    (ds.foldl (updateFields info) w)._turbo = lastAssigned turboOf ds w._turbo ∧
    (ds.foldl (updateFields info) w)._apm = lastAssigned apmOf ds w._apm := by
  induction ds with
  | nil => intro w; exact ⟨rfl, rfl, rfl⟩
  | cons d ds ih =>
    intro w
    rw [List.foldl_cons, lastAssigned_cons, lastAssigned_cons, lastAssigned_cons]
    exact ih (updateFields info w d)

theorem foldl_updateFields_pStates (info : Info) (i : Nat) (ds : List (List Char)) :
    ∀ w : Worker, (ds.foldl (updateFields info) w)._pStates[i]? =
      (w._pStates[i]?).map (fun p =>
        { Index := p.Index, Multi := lastAssigned (multiOf info i) ds p.Multi,
          VID := lastAssigned (vidOf info i) ds p.VID,
          NBPState := lastAssigned (nbStateOf info i) ds p.NBPState, NBVID := p.NBVID }) := by
  induction ds with
  | nil =>
    intro w
    show w._pStates[i]? = _
    cases w._pStates[i]? with
    | none => rfl
    | some p => rfl
  | cons d ds ih =>
    intro w
    rw [List.foldl_cons, ih (updateFields info w d)]
    have hu : (updateFields info w d)._pStates[i]? = (w._pStates[i]?).map (fun p =>
        { Index := p.Index, Multi := (multiOf info i d).getD p.Multi,
          VID := (vidOf info i d).getD p.VID,
          NBPState := (nbStateOf info i d).getD p.NBPState, NBVID := p.NBVID }) := by
      simp only [updateFields, List.getElem?_mapIdx]
    rw [hu]
    cases w._pStates[i]? with
    | none => rfl
    | some p =>
      simp only [Option.map_some']
      rw [lastAssigned_cons, lastAssigned_cons, lastAssigned_cons]

theorem foldl_updateFields_nbPStates (info : Info) (i : Nat) (ds : List (List Char)) :
    ∀ w : Worker, (ds.foldl (updateFields info) w)._nbPStates[i]? =
      (w._nbPStates[i]?).map (fun p =>
        { Index := p.Index, Multi := lastAssigned (nbMultiOf info i) ds p.Multi,
          VID := lastAssigned (nbVidOf info i) ds p.VID }) := by
  induction ds with
  | nil =>
    intro w
    show w._nbPStates[i]? = _
    cases w._nbPStates[i]? with
    | none => rfl
    | some p => rfl
  | cons d ds ih =>
    intro w
    rw [List.foldl_cons, ih (updateFields info w d)]
    have hu : (updateFields info w d)._nbPStates[i]? = (w._nbPStates[i]?).map (fun p =>
        { Index := p.Index, Multi := (nbMultiOf info i d).getD p.Multi,
          VID := (nbVidOf info i d).getD p.VID }) := by
      simp only [updateFields, List.getElem?_mapIdx]
    rw [hu]
    cases w._nbPStates[i]? with
    | none => rfl
    | some p =>
      simp only [Option.map_some']
      rw [lastAssigned_cons, lastAssigned_cons]

theorem initTables_getElem? (info : Info) (i : Nat) :
    (∀ p, (initTables info Worker.new)._pStates[i]? = some p →
      p = { Index := i, Multi := -1, VID := -1, NBPState := -1, NBVID := -1 }) ∧
    (∀ p, (initTables info Worker.new)._nbPStates[i]? = some p →
      p = { Index := i, Multi := -1, VID := -1 }) := by
  constructor
  · intro p hp
    simp only [initTables, Worker.new, List.nil_append, List.getElem?_map] at hp
    cases hr : (List.range info.NumPStates.toNat)[i]? with
    | none => rw [hr] at hp; cases hp
    | some j =>
      rw [hr] at hp
      have hj : j = i := by
        have := List.getElem?_eq_some.1 hr
        obtain ⟨hlt, hget⟩ := this
        rw [List.getElem_range] at hget
        exact hget.symm
      simp only [Option.map_some', Option.some.injEq] at hp
      rw [← hp, hj]
  · intro p hp
    simp only [initTables, Worker.new, List.nil_append, List.getElem?_map] at hp
    cases hr : (List.range info.NumNBPStates.toNat)[i]? with
    | none => rw [hr] at hp; cases hp
    | some j =>
      rw [hr] at hp
      have hj : j = i := by
        have := List.getElem?_eq_some.1 hr
        obtain ⟨hlt, hget⟩ := this
        rw [List.getElem_range] at hget
        exact hget.symm
      simp only [Option.map_some', Option.some.injEq] at hp
      rw [← hp, hj]

/-- C11: when `ParseParams` accepts the directives `ds` on a new worker, the worker is the
left-to-right fold of the single-directive updates over the unset tables, and also the fold
of the field-by-field updates; hence every field holds the value of the last directive of
`ds` that assigns it, and is unset (-1) when none does: the target by a bare `P` directive,
the multiplier and the voltage of P-state entry `i` by the P-state directives of index `i`,
its northbridge association by the `NB_low` directives, the fields of northbridge entry `i`
by the `NB_P` directives of index `i`, the flags by the `Turbo` and `APM` directives.  The
value of a field depends on the directives that assign this field only. -/
theorem C11_last_write_wins (info : Info) (prog : List Char) (ds : List (List Char))
    (w : Worker) (h : ParseParams info Worker.new (prog :: ds) = (true, w)) :
    w = ds.foldl (fun w d => (parseParam info w d).getD w) (initTables info Worker.new) ∧
    w = ds.foldl (updateFields info) (initTables info Worker.new) ∧
    w._pState = lastAssigned (targetOf info) ds (-1) ∧
    w._turbo = lastAssigned turboOf ds (-1) ∧
    w._apm = lastAssigned apmOf ds (-1) ∧
    (∀ (i : Nat) (p : PStateInfo), w._pStates[i]? = some p →
      p.Index = i ∧ p.Multi = lastAssigned (multiOf info i) ds (-1) ∧
      p.VID = lastAssigned (vidOf info i) ds (-1) ∧
      p.NBPState = lastAssigned (nbStateOf info i) ds (-1) ∧ p.NBVID = -1) ∧
    (∀ (i : Nat) (p : NBPStateInfo), w._nbPStates[i]? = some p →
      p.Index = i ∧ p.Multi = lastAssigned (nbMultiOf info i) ds (-1) ∧
      p.VID = lastAssigned (nbVidOf info i) ds (-1)) := by
  have hl : parseLoop info (initTables info Worker.new) ds = (true, w) := h
  obtain ⟨hf1, hf2⟩ := parseLoop_foldl info ds _ w hl
  obtain ⟨hs1, hs2, hs3⟩ := foldl_updateFields_scalars info ds (initTables info Worker.new)
  refine ⟨hf1, hf2, ?_, ?_, ?_, ?_, ?_⟩
  · rw [hf2, hs1]; rfl
  · rw [hf2, hs2]; rfl
  · rw [hf2, hs3]; rfl
  · intro i p hp
    rw [hf2, foldl_updateFields_pStates] at hp
    cases h0 : (initTables info Worker.new)._pStates[i]? with
    | none => rw [h0] at hp; cases hp
    | some p0 =>
      rw [h0] at hp
      have e0 := (initTables_getElem? info i).1 p0 h0
      simp only [Option.map_some', Option.some.injEq] at hp
      rw [← hp, e0]
      exact ⟨rfl, rfl, rfl, rfl, rfl⟩
  · intro i p hp
    rw [hf2, foldl_updateFields_nbPStates] at hp
    cases h0 : (initTables info Worker.new)._nbPStates[i]? with
    | none => rw [h0] at hp; cases hp
    | some p0 =>
      rw [h0] at hp
      have e0 := (initTables_getElem? info i).2 p0 h0
      simp only [Option.map_some', Option.some.injEq] at hp
      rw [← hp, e0]
      exact ⟨rfl, rfl, rfl⟩

/-- C11 on `Turbo=1 Turbo=0`: the list is accepted and the boost flag is 0, the value of
the last of the two directives. -/
theorem C11_last_write_wins_witness :
    (ParseParams (simInfo 2) Worker.new
      [[], ['T', 'u', 'r', 'b', 'o', '=', '1'], ['T', 'u', 'r', 'b', 'o', '=', '0']]).1 = true ∧
    (ParseParams (simInfo 2) Worker.new
      [[], ['T', 'u', 'r', 'b', 'o', '=', '1'], ['T', 'u', 'r', 'b', 'o', '=', '0']]).2._turbo
      = 0 := by
  have hacc : ParseParams (simInfo 2) Worker.new
      [[], ['T', 'u', 'r', 'b', 'o', '=', '1'], ['T', 'u', 'r', 'b', 'o', '=', '0']] =
      (true, (ParseParams (simInfo 2) Worker.new
        [[], ['T', 'u', 'r', 'b', 'o', '=', '1'], ['T', 'u', 'r', 'b', 'o', '=', '0']]).2) := by
    decide!
  have hlast : lastAssigned turboOf
      [['T', 'u', 'r', 'b', 'o', '=', '1'], ['T', 'u', 'r', 'b', 'o', '=', '0']] (-1) = 0 := by
    decide!
  refine ⟨by rw [hacc], ?_⟩
  rw [(C11_last_write_wins (simInfo 2) []
    [['T', 'u', 'r', 'b', 'o', '=', '1'], ['T', 'u', 'r', 'b', 'o', '=', '0']] _ hacc).2.2.2.1,
    hlast]

/-! ## The machine state along the calls -/

theorem ContainsChanges_eq (p : PStateInfo) : ContainsChanges p = anyFieldSet p := by
  unfold ContainsChanges anyFieldSet
  rw [Bool.eq_iff_iff]
  simp only [Bool.or_eq_true, decide_eq_true_eq, or_assoc]

theorem stateAfter_append {σ : Type} (m : Machine σ) (hw : σ) (a b : List Call) :
    stateAfter m hw (a ++ b) = stateAfter m (stateAfter m hw a) b := by
  unfold stateAfter
  rw [List.foldl_append]

/-- A call keeps the machine state the one reached by the calls made so far. -/
theorem emit_consistent {σ : Type} (m : Machine σ) (hw0 : σ) (s : Sys σ) (c : Call)
    (h : s.hw = stateAfter m hw0 s.trace) :
    (emit m s c).hw = stateAfter m hw0 (emit m s c).trace := by
  show m.exec s.hw c = stateAfter m hw0 (s.trace ++ [c])
  rw [stateAfter_append, ← h]
  rfl

theorem writeNBPStates_consistent {σ : Type} (m : Machine σ) (hw0 : σ) (w : Worker)
    (s : Sys σ) (h : s.hw = stateAfter m hw0 s.trace) :
    (writeNBPStates m w s).hw = stateAfter m hw0 (writeNBPStates m w s).trace := by
  unfold writeNBPStates
  refine foldl_invariant (fun s : Sys σ => s.hw = stateAfter m hw0 s.trace) _ ?_ _ s h
  intro b a hb
  by_cases hc : ContainsChangesNB a = true
  · simp only [hc, if_true]
    exact emit_consistent m hw0 b _ hb
  · simp only [hc]
    exact hb

theorem deriveNBVID_consistent {σ : Type} (m : Machine σ) (hw0 : σ)
    (ws ws1 : Worker × Sys σ) (i : Nat) (h : ws.2.hw = stateAfter m hw0 ws.2.trace)
    (hstep : deriveNBVID m ws i = some ws1) : ws1.2.hw = stateAfter m hw0 ws1.2.trace := by
  unfold deriveNBVID at hstep
  cases hpsi : ws.1._pStates[i]? with
  | none => rw [hpsi] at hstep; cases hstep
  | some psi =>
    rw [hpsi] at hstep
    simp only at hstep
    have hr : (if 0 ≤ psi.NBPState then (psi.NBPState, ws.2)
        else ((m.ReadPState ws.2.hw i).NBPState, emit m ws.2 (.ReadPState i))).2.hw =
        stateAfter m hw0 (if 0 ≤ psi.NBPState then (psi.NBPState, ws.2)
        else ((m.ReadPState ws.2.hw i).NBPState, emit m ws.2 (.ReadPState i))).2.trace := by
      split
      · exact h
      · exact emit_consistent m hw0 ws.2 _ h
    revert hstep
    generalize (if 0 ≤ psi.NBPState then (psi.NBPState, ws.2)
        else ((m.ReadPState ws.2.hw i).NBPState, emit m ws.2 (.ReadPState i))) = r at hr
    intro hstep
    cases hnb : getInt? ws.1._nbPStates r.1 with
    | none => rw [hnb] at hstep; cases hstep
    | some nbpsi =>
      rw [hnb] at hstep
      simp only at hstep
      split at hstep
      · cases hstep; exact hr
      · cases hstep; exact hr

theorem applyNorthbridge_consistent {σ : Type} (m : Machine σ) (info : Info) (hw0 : σ)
    (w w1 : Worker) (s s1 : Sys σ) (hs : s.hw = stateAfter m hw0 s.trace)
    (h : applyNorthbridge m info w s = some (w1, s1)) :
    s1.hw = stateAfter m hw0 s1.trace := by
  unfold applyNorthbridge at h
  split at h
  · cases h
    exact writeNBPStates_consistent m hw0 w s hs
  · split at h
    · cases hany : anyNBVID w with
      | none => rw [hany] at h; cases h
      | some b =>
        rw [hany] at h
        cases b with
        | false => cases h; exact hs
        | true =>
          simp only at h
          exact foldlM_option_invariant
            (fun ws : Worker × Sys σ => ws.2.hw = stateAfter m hw0 ws.2.trace)
            (deriveNBVID m)
            (fun b a b1 hb hf => deriveNBVID_consistent m hw0 b b1 a hb hf)
            _ (w, s) (w1, s1) hs h
    · cases h
      exact hs

theorem writePStates_consistent {σ : Type} (m : Machine σ) (hw0 : σ) (w : Worker)
    (s : Sys σ) (h : s.hw = stateAfter m hw0 s.trace) :
    (writePStates m w s).hw = stateAfter m hw0 (writePStates m w s).trace := by
  unfold writePStates
  refine foldl_invariant (fun s : Sys σ => s.hw = stateAfter m hw0 s.trace) _ ?_ _ s h
  intro b a hb
  by_cases hc : ContainsChanges a = true
  · simp only [hc, if_true]
    exact emit_consistent m hw0 b _ hb
  · simp only [hc]
    exact hb

theorem writeCore_consistent {σ : Type} (m : Machine σ) (info : Info) (hw0 : σ) (w : Worker)
    (s : Sys σ) (j : Nat) (h : s.hw = stateAfter m hw0 s.trace) :
    (writeCore m info w s j).hw = stateAfter m hw0 (writeCore m info w s j).trace := by
  have h1 := writePStates_consistent m hw0 w _ (emit_consistent m hw0 s (.SwitchTo j) h)
  unfold writeCore
  simp only
  split
  · exact emit_consistent m hw0 _ _ h1
  · exact h1

theorem switchCore_consistent {σ : Type} (m : Machine σ) (info : Info) (hw0 : σ) (w : Worker)
    (s s1 : Sys σ) (j : Nat) (h : s.hw = stateAfter m hw0 s.trace)
    (hstep : switchCore m info w s j = some s1) : s1.hw = stateAfter m hw0 s1.trace := by
  have h2 : (emit m (emit m s (.SwitchTo j)) .GetCurrentPState).hw =
      stateAfter m hw0 (emit m (emit m s (.SwitchTo j)) .GetCurrentPState).trace :=
    emit_consistent m hw0 _ .GetCurrentPState (emit_consistent m hw0 s (.SwitchTo j) h)
  unfold switchCore at hstep
  simp only at hstep
  by_cases hc : 0 ≤ w._pState ∧ w._pState ≠ m.GetCurrentPState (emit m s (.SwitchTo j)).hw
  · rw [if_pos hc.1, if_pos hc.2] at hstep
    cases hstep
    exact emit_consistent m hw0 _ _ h2
  · have hnew : ¬ ((if 0 ≤ w._pState then w._pState
        else m.GetCurrentPState (emit m s (.SwitchTo j)).hw) ≠
        m.GetCurrentPState (emit m s (.SwitchTo j)).hw) := by
      by_cases h0 : 0 ≤ w._pState
      · rw [if_pos h0]; exact fun h1 => hc ⟨h0, h1⟩
      · rw [if_neg h0]; exact fun h1 => h1 rfl
    rw [if_neg hnew] at hstep
    cases hg : getInt? w._pStates (m.GetCurrentPState (emit m s (.SwitchTo j)).hw) with
    | none => rw [hg] at hstep; cases hstep
    | some psi =>
      rw [hg] at hstep
      simp only at hstep
      by_cases hcc : ContainsChanges psi = true
      · rw [if_pos hcc] at hstep
        cases hstep
        exact emit_consistent m hw0 _ _
          (emit_consistent m hw0 _ _ (emit_consistent m hw0 _ _ h2))
      · rw [if_neg hcc] at hstep
        cases hstep
        exact h2

/-- One iteration of the second loop: the calls are those of the specification for the
index that the machine gives right after the affinity switch. -/
theorem switchCore_trace_at {σ : Type} (m : Machine σ) (info : Info) (w : Worker)
    (s s1 : Sys σ) (j : Nat) (h : switchCore m info w s j = some s1) :
    s1.trace = s.trace ++
      activeStateCalls info w (j, m.GetCurrentPState (m.exec s.hw (.SwitchTo j))) := by
  show s1.trace = s.trace ++
      activeStateCalls info w (j, m.GetCurrentPState (emit m s (.SwitchTo j)).hw)
  unfold switchCore at h
  simp only at h
  unfold activeStateCalls selectCalls
  by_cases hc : 0 ≤ w._pState ∧ w._pState ≠ m.GetCurrentPState (emit m s (.SwitchTo j)).hw
  · rw [if_pos hc.1, if_pos hc.2] at h
    cases h
    rw [if_pos hc]
    simp [emit]
  · have hnew : ¬ ((if 0 ≤ w._pState then w._pState
        else m.GetCurrentPState (emit m s (.SwitchTo j)).hw) ≠
        m.GetCurrentPState (emit m s (.SwitchTo j)).hw) := by
      by_cases h0 : 0 ≤ w._pState
      · rw [if_pos h0]; exact fun h1 => hc ⟨h0, h1⟩
      · rw [if_neg h0]; exact fun h1 => h1 rfl
    rw [if_neg hnew] at h
    rw [if_neg hc]
    cases hg : getInt? w._pStates (m.GetCurrentPState (emit m s (.SwitchTo j)).hw) with
    | none => rw [hg] at h; cases h
    | some psi =>
      rw [hg] at h
      simp only at h
      by_cases hcc : ContainsChanges psi = true
      · rw [if_pos hcc] at h
        cases h
        simp [emit, hcc, relatchPState]
      · rw [if_neg hcc] at h
        cases h
        simp [emit, hcc]

/-- The second loop: the calls are those of the specification, unit after unit, for the
indexes `cs`, and the index of each unit is the one that the machine gives in the state
reached by all earlier calls and the affinity switch to this unit. -/
theorem foldlM_switchCore_units {σ : Type} (m : Machine σ) (info : Info) (hw0 : σ)
    (w : Worker) (js : List Nat) : ∀ s s1 : Sys σ, s.hw = stateAfter m hw0 s.trace →
    js.foldlM (switchCore m info w) s = some s1 →
    ∃ cs : List Int, cs.length = js.length ∧
      (∀ c ∈ cs, (0 ≤ w._pState ∧ w._pState ≠ c) ∨ ∃ psi, getInt? w._pStates c = some psi) ∧
      s1.trace = s.trace ++ (js.zip cs).flatMap (activeStateCalls info w) ∧
      ∀ (i k : Nat) (c : Int), js[i]? = some k → cs[i]? = some c →
        c = m.GetCurrentPState (stateAfter m hw0 (s.trace ++
          ((js.zip cs).take i).flatMap (activeStateCalls info w) ++ [Call.SwitchTo k])) := by
  induction js with
  | nil =>
    intro s s1 _ h
    simp only [List.foldlM_nil] at h
    cases h
    refine ⟨[], rfl, ?_, ?_, ?_⟩
    · intro c hc
      exact absurd hc (List.not_mem_nil c)
    · simp
    · intro i k c hk
      simp at hk
  | cons j js ih =>
    intro s s1 hs h
    rw [List.foldlM_cons] at h
    cases hj : switchCore m info w s j with
    | none => rw [hj] at h; cases h
    | some s2 =>
      rw [hj] at h
      have htr := switchCore_trace_at m info w s s2 j hj
      have hinb := switchCore_inb m info w s s2 j hj
      have hs2 := switchCore_consistent m info hw0 w s s2 j hs hj
      obtain ⟨cs, hlen, hcs, htr2, hidx⟩ := ih s2 s1 hs2 h
      refine ⟨m.GetCurrentPState (m.exec s.hw (.SwitchTo j)) :: cs, by simp [hlen], ?_, ?_, ?_⟩
      · intro x hx
        rcases List.mem_cons.1 hx with hx | hx
        · rw [hx]; exact hinb
        · exact hcs x hx
      · rw [htr2, htr, List.zip_cons_cons, List.flatMap_cons, List.append_assoc]
      · intro i k c hk hc
        cases i with
        | zero =>
          simp only [List.getElem?_cons_zero, Option.some.injEq] at hk hc
          rw [← hc, ← hk, hs]
          simp only [List.take_zero, List.flatMap_nil, List.append_nil]
          rw [stateAfter_append]
          rfl
        | succ i =>
          simp only [List.getElem?_cons_succ] at hk hc
          have := hidx i k c hk hc
          rw [this, htr, List.zip_cons_cons, List.take_succ_cons, List.flatMap_cons]
          simp only [List.append_assoc]

/-- Lines 221-276 from a state that is the one reached by the calls made so far: the calls
of steps 4 to 7 over the number of logical processors that the machine reports after the
global calls, with the index of each unit read after the affinity switch. -/
theorem applyPrimary_units {σ : Type} (m : Machine σ) (info : Info) (hw0 : σ) (w : Worker)
    (s s1 : Sys σ) (hs : s.hw = stateAfter m hw0 s.trace)
    (h : applyPrimary m info w s = some s1) :
    ∃ (n : Nat) (cs : List Int),
      n = m.dwNumberOfProcessors (stateAfter m hw0 (s.trace ++ globalCalls info w)) ∧
      cs.length = n ∧
      (∀ c ∈ cs, (0 ≤ w._pState ∧ w._pState ≠ c) ∨ ∃ psi, getInt? w._pStates c = some psi) ∧
      s1.trace = s.trace ++ primaryCalls info w n cs ∧
      ∀ (i : Nat) (c : Int), cs[i]? = some c →
        c = m.GetCurrentPState (stateAfter m hw0 (s.trace ++ (globalCalls info w ++
          [Call.GetSystemInfo, Call.SetPriorityClass true, Call.SetThreadPriority true] ++
          (List.range n).flatMap (tableWriteCalls info w)) ++
          (((List.range n).zip cs).take i).flatMap (activeStateCalls info w) ++
          [Call.SwitchTo i])) := by
  have hg : ∃ s2 : Sys σ, s2.hw = stateAfter m hw0 s2.trace ∧
      s2.trace = s.trace ++ globalCalls info w ∧
      applyPrimary m info w s =
        match (List.range (m.dwNumberOfProcessors s2.hw)).foldlM (switchCore m info w)
          ((List.range (m.dwNumberOfProcessors s2.hw)).foldl (writeCore m info w)
            (emit m (emit m (emit m s2 .GetSystemInfo) (.SetPriorityClass true))
              (.SetThreadPriority true))) with
        | none => none
        | some s6 =>
          some (emit m (emit m s6 (.SetThreadPriority false)) (.SetPriorityClass false)) := by
    unfold applyPrimary globalCalls
    by_cases h1 : 0 ≤ w._turbo ∧ info.IsBoostSupported = true
    · by_cases h2 : 0 ≤ w._apm ∧ info.Family = 0x15
      · refine ⟨emit m (emit m s (.SetBoostSource (w._turbo = 1))) (.SetAPM (w._apm = 1)),
          emit_consistent m hw0 _ _ (emit_consistent m hw0 _ _ hs), ?_, ?_⟩
        · simp [emit, h1, h2]
        · simp only [if_pos h1, if_pos h2]
      · refine ⟨emit m s (.SetBoostSource (w._turbo = 1)), emit_consistent m hw0 _ _ hs, ?_, ?_⟩
        · simp [emit, h1, h2]
        · simp only [if_pos h1, if_neg h2]
    · by_cases h2 : 0 ≤ w._apm ∧ info.Family = 0x15
      · refine ⟨emit m s (.SetAPM (w._apm = 1)), emit_consistent m hw0 _ _ hs, ?_, ?_⟩
        · simp [emit, h1, h2]
        · simp only [if_neg h1, if_pos h2]
      · refine ⟨s, hs, ?_, ?_⟩
        · simp [h1, h2]
        · simp only [if_neg h1, if_neg h2]
  obtain ⟨s2, hs2, htr2, heq⟩ := hg
  rw [heq] at h
  have hs4 := emit_consistent m hw0 _ (.SetThreadPriority true)
    (emit_consistent m hw0 _ (.SetPriorityClass true)
      (emit_consistent m hw0 s2 .GetSystemInfo hs2))
  have hs5 := foldl_invariant (fun s : Sys σ => s.hw = stateAfter m hw0 s.trace)
    (writeCore m info w) (fun b a hb => writeCore_consistent m info hw0 w b a hb)
    (List.range (m.dwNumberOfProcessors s2.hw)) _ hs4
  split at h
  · cases h
  · next s6 h6 =>
    cases h
    obtain ⟨cs, hlen, hcs, htr, hidx⟩ :=
      foldlM_switchCore_units m info hw0 w _ _ s6 hs5 h6
    have hn : m.dwNumberOfProcessors s2.hw =
        m.dwNumberOfProcessors (stateAfter m hw0 (s.trace ++ globalCalls info w)) := by
      rw [hs2, htr2]
    have htr5 : ((List.range (m.dwNumberOfProcessors s2.hw)).foldl (writeCore m info w)
        (emit m (emit m (emit m s2 .GetSystemInfo) (.SetPriorityClass true))
          (.SetThreadPriority true))).trace = s.trace ++ (globalCalls info w ++
          [Call.GetSystemInfo, Call.SetPriorityClass true, Call.SetThreadPriority true] ++
          (List.range (m.dwNumberOfProcessors s2.hw)).flatMap (tableWriteCalls info w)) := by
      rw [foldl_writeCore_trace]
      simp only [emit, htr2, List.append_assoc, List.cons_append, List.nil_append]
    refine ⟨m.dwNumberOfProcessors s2.hw, cs, hn, by simpa using hlen, hcs, ?_, ?_⟩
    · show (s6.trace ++ [Call.SetThreadPriority false]) ++ [Call.SetPriorityClass false] = _
      rw [htr, htr5]
      unfold primaryCalls
      simp only [List.append_assoc, List.cons_append, List.nil_append]
    · intro i c hc
      have hi : i < (List.range (m.dwNumberOfProcessors s2.hw)).length := by
        have := (List.getElem?_eq_some.1 hc).1
        rw [hlen] at this
        exact this
      have hk : (List.range (m.dwNumberOfProcessors s2.hw))[i]? = some i := by
        rw [List.getElem?_eq_getElem hi, List.getElem_range]
      have := hidx i i c hk hc
      rw [this, htr5]

/-- A run that passes the safety check: the prefix before the per-core phases, the two
phases, and the index of each unit of the second phase as the machine gives it after the
affinity switch to this unit. -/
theorem ApplyChanges_units {σ : Type} (m : Machine σ) (info : Info) (w w1 : Worker)
    (allow : Bool) (hw : σ) (s : Sys σ)
    (h : ApplyChanges m info w allow hw = some (true, w1, s)) :
    ∃ (nb : List Call) (n : Nat) (cs : List Int),
      (∀ x ∈ nb, x.isNorthbridgeStep = true) ∧
      w1._pState = w._pState ∧
      n = m.dwNumberOfProcessors (stateAfter m hw
        (nb ++ [Call.ReadPState info.NumBoostStates] ++ globalCalls info w1)) ∧
      cs.length = n ∧
      (∀ c ∈ cs, (0 ≤ w1._pState ∧ w1._pState ≠ c) ∨
        ∃ psi, getInt? w1._pStates c = some psi) ∧
      s.trace = (nb ++ [Call.ReadPState info.NumBoostStates] ++ (globalCalls info w1 ++
          [Call.GetSystemInfo, Call.SetPriorityClass true, Call.SetThreadPriority true] ++
          (List.range n).flatMap (tableWriteCalls info w1))) ++
        ((List.range n).zip cs).flatMap (activeStateCalls info w1) ++
        [Call.SetThreadPriority false, Call.SetPriorityClass false] ∧
      ∀ (i : Nat) (c : Int), cs[i]? = some c →
        c = m.GetCurrentPState (stateAfter m hw
          ((nb ++ [Call.ReadPState info.NumBoostStates] ++ (globalCalls info w1 ++
            [Call.GetSystemInfo, Call.SetPriorityClass true, Call.SetThreadPriority true] ++
            (List.range n).flatMap (tableWriteCalls info w1))) ++
          (((List.range n).zip cs).take i).flatMap (activeStateCalls info w1) ++
          [Call.SwitchTo i])) := by
  unfold ApplyChanges at h
  cases hnb : applyNorthbridge m info w { hw := hw, trace := [] } with
  | none => rw [hnb] at h; cases h
  | some r =>
    obtain ⟨w2, s1⟩ := r
    rw [hnb] at h
    simp only at h
    cases hreq : getInt? w2._pStates info.NumBoostStates with
    | none => rw [hreq] at h; cases h
    | some requested =>
      rw [hreq] at h
      simp only at h
      split at h
      · cases h
      · cases hp : applyPrimary m info w2 (emit m s1 (.ReadPState info.NumBoostStates)) with
        | none => rw [hp] at h; cases h
        | some s3 =>
          rw [hp] at h
          simp only [Option.some.injEq, Prod.mk.injEq, true_and] at h
          obtain ⟨hw2, hs3⟩ := h
          subst hw2
          subst hs3
          have hs1 : s1.hw = stateAfter m hw s1.trace :=
            applyNorthbridge_consistent m info hw w w2 _ s1 rfl hnb
          have hs2 := emit_consistent m hw s1 (.ReadPState info.NumBoostStates) hs1
          obtain ⟨n, cs, hn, hlen, hcs, htr, hidx⟩ :=
            applyPrimary_units m info hw w2 _ s3 hs2 hp
          have htarget : w2._pState = w._pState := by
            rw [(applyNorthbridge_frame m info w w2 _ s1 hnb).1]
          refine ⟨s1.trace, n, cs, applyNorthbridge_steps m info w w2 hw s1 hnb, htarget,
            hn, hlen, hcs, ?_, ?_⟩
          · rw [htr]
            show (s1.trace ++ [Call.ReadPState info.NumBoostStates]) ++ primaryCalls info w2 n cs
              = _
            unfold primaryCalls
            simp only [List.append_assoc, List.cons_append, List.nil_append]
          · intro i c hc
            rw [hidx i c hc]
            show m.GetCurrentPState (stateAfter m hw
              ((s1.trace ++ [Call.ReadPState info.NumBoostStates]) ++ _ ++ _ ++ _)) = _
            simp only [List.append_assoc, List.cons_append, List.nil_append]
/-- C17, amended: over `n` logical processors, the calls of a run that passed the safety
check end with the restore of the priority, preceded by the second phase: for each unit in
ascending order the affinity switch, `GetCurrentPState` and the selection calls for the
index `c` of this unit; no `GetCurrentPState` or `SetCurrentPState` comes before this phase.
The index `c` of a unit is what the machine gives as the active P-state in the state
reached by all calls before, followed by the affinity switch to this unit.  The selection
calls are: one `SetCurrentPState` of the target when the target is set and differs from
`c`; otherwise entry `c` of the table exists and, when it has a field set, the calls are
`SetCurrentPState t`, the delay and `SetCurrentPState c` with `t` the last index, or 0 when
`c` is the last index, and no call when it has none.  The index `t` differs from `c` unless
the table has a single P-state (`c = 0` and `NumPStates = 1`).  The index set last is the
target when it is set, and `c` otherwise.  The run returns whenever its tables are in
bounds. -/
theorem C17_active_state_selection {σ : Type} (m : Machine σ) (info : Info) (w : Worker)
    (allow : Bool) (hw : σ) (n : Nat) (hn : ∀ hw : σ, m.dwNumberOfProcessors hw = n) :
    (∀ (w1 : Worker) (s : Sys σ),
      ApplyChanges m info w allow hw = some (true, w1, s) →
      ∃ (pre : List Call) (cs : List Int),
        cs.length = n ∧ w1._pState = w._pState ∧
        (∀ x ∈ pre, x.isActiveState = false) ∧
        s.trace = pre ++
          ((List.range n).zip cs).flatMap
            (fun jc => Call.SwitchTo jc.1 :: Call.GetCurrentPState :: selectCalls info w1 jc.2) ++
          [Call.SetThreadPriority false, Call.SetPriorityClass false] ∧
        (∀ (j : Nat) (c : Int), cs[j]? = some c →
          c = m.GetCurrentPState (stateAfter m hw (pre ++
            (((List.range n).zip cs).take j).flatMap
              (fun jc => Call.SwitchTo jc.1 :: Call.GetCurrentPState ::
                selectCalls info w1 jc.2) ++
            [Call.SwitchTo j]))) ∧
        ∀ c ∈ cs,
          (0 ≤ w._pState ∧ w._pState ≠ c →
            selectCalls info w1 c = [Call.SetCurrentPState w._pState]) ∧
          (¬ (0 ≤ w._pState ∧ w._pState ≠ c) →
            ∃ psi, getInt? w1._pStates c = some psi ∧
              selectCalls info w1 c =
                if anyFieldSet psi = true then
                  [Call.SetCurrentPState
                      (if c = info.NumPStates - 1 then 0 else info.NumPStates - 1),
                    Call.Sleep 1, Call.SetCurrentPState c]
                else []) ∧
          ((if c = info.NumPStates - 1 then (0 : Int) else info.NumPStates - 1) ≠ c ↔
            ¬ (c = 0 ∧ info.NumPStates = 1)) ∧
          activeAfter c (selectCalls info w1 c) = if 0 ≤ w._pState then w._pState else c) ∧
    (TablesInBounds m info w →
      ∃ (b : Bool) (w1 : Worker) (s : Sys σ),
        ApplyChanges m info w allow hw = some (b, w1, s)) := by
  refine ⟨?_, fun hb => ApplyChanges_returns m info w allow hw hb⟩
  intro w1 s h
  obtain ⟨nb, n1, cs, hnb, htarget, hn1, hlen, hcs, htr, hidx⟩ :=
    ApplyChanges_units m info w w1 allow hw s h
  have hnn : n1 = n := by rw [hn1, hn]
  subst hnn
  obtain ⟨_, _, hkinds⟩ := filter_northbridge_steps nb hnb
  refine ⟨nb ++ [Call.ReadPState info.NumBoostStates] ++ (globalCalls info w1 ++
      [Call.GetSystemInfo, Call.SetPriorityClass true, Call.SetThreadPriority true] ++
      (List.range n1).flatMap (tableWriteCalls info w1)), cs, hlen, htarget, ?_, htr, hidx, ?_⟩
  · intro x hx
    simp only [List.mem_append, List.mem_cons, List.mem_singleton] at hx
    rcases hx with (hx | hx) | ((hx | hx) | hx)
    · exact (hkinds x hx).2.2.1
    · rcases hx with hx | hx
      · rw [hx]; rfl
      · exact absurd hx (List.not_mem_nil x)
    · exact (globalCalls_kinds info w1 x hx).2.1
    · rcases hx with hx | hx | hx | hx
      · rw [hx]; rfl
      · rw [hx]; rfl
      · rw [hx]; rfl
      · exact absurd hx (List.not_mem_nil x)
    · exact (tableWritePhase_kinds info w1 _ x hx).1
  · intro c hc
    rw [← htarget]
    refine ⟨?_, ?_, relatchPState_ne info c, activeAfter_selectCalls info w1 c⟩
    · intro hsel
      unfold selectCalls
      rw [if_pos hsel]
    · intro hsel
      rcases hcs c hc with hpos | ⟨psi, hpsi⟩
      · exact absurd hpos hsel
      · refine ⟨psi, hpsi, ?_⟩
        unfold selectCalls relatchPState
        rw [if_neg hsel, hpsi]
        simp only [ContainsChanges_eq]

/-- C17 on `P0=20` with two P-states, on the machine with two units, the thread bound to
unit 1 at first, unit 0 at index 0 and unit 1 at index 1: entry 0 has a multiplier, so unit
0 is switched to index 1 and back to index 0, and unit 1, whose entry 1 has no field set,
gets no `SetCurrentPState`. -/
theorem C17_active_state_selection_witness :
    (ApplyChanges unitMachine (simInfo 2)
        (ParseParams (simInfo 2) Worker.new [[], ['P', '0', '=', '2', '0']]).2 false unitHw).map
        (fun r => (r.1, r.2.2.trace.filter Call.isActiveState)) =
      some (true, [Call.GetCurrentPState, Call.SetCurrentPState 1, Call.SetCurrentPState 0,
        Call.GetCurrentPState]) ∧
    ∃ (w1 : Worker) (s : Sys UnitHw) (pre : List Call) (cs : List Int),
      ApplyChanges unitMachine (simInfo 2)
        (ParseParams (simInfo 2) Worker.new [[], ['P', '0', '=', '2', '0']]).2 false unitHw
        = some (true, w1, s) ∧ cs.length = 2 ∧
      s.trace = pre ++
          ((List.range 2).zip cs).flatMap
            (fun jc => Call.SwitchTo jc.1 :: Call.GetCurrentPState :: selectCalls (simInfo 2) w1 jc.2) ++
          [Call.SetThreadPriority false, Call.SetPriorityClass false] ∧
      (∀ (j : Nat) (c : Int), cs[j]? = some c →
        c = unitMachine.GetCurrentPState (stateAfter unitMachine unitHw (pre ++
          (((List.range 2).zip cs).take j).flatMap
            (fun jc => Call.SwitchTo jc.1 :: Call.GetCurrentPState ::
              selectCalls (simInfo 2) w1 jc.2) ++
          [Call.SwitchTo j]))) := by
  have hrun : (ApplyChanges unitMachine (simInfo 2)
        (ParseParams (simInfo 2) Worker.new [[], ['P', '0', '=', '2', '0']]).2 false unitHw).map
        (fun r => (r.1, r.2.2.trace.filter Call.isActiveState)) =
      some (true, [Call.GetCurrentPState, Call.SetCurrentPState 1, Call.SetCurrentPState 0,
        Call.GetCurrentPState]) := by decide!
  refine ⟨hrun, ?_⟩
  cases h : ApplyChanges unitMachine (simInfo 2)
      (ParseParams (simInfo 2) Worker.new [[], ['P', '0', '=', '2', '0']]).2 false unitHw with
  | none => rw [h] at hrun; cases hrun
  | some r =>
    obtain ⟨b, w1, s⟩ := r
    rw [h] at hrun
    simp only [Option.map_some', Option.some.injEq, Prod.mk.injEq] at hrun
    obtain ⟨hb, _⟩ := hrun
    subst hb
    obtain ⟨pre, cs, hlen, _, _, htr, hidx, _⟩ := (C17_active_state_selection unitMachine
      (simInfo 2) (ParseParams (simInfo 2) Worker.new [[], ['P', '0', '=', '2', '0']]).2 false
      unitHw 2 (fun _ => rfl)).1 w1 s h
    exact ⟨w1, s, pre, cs, rfl, hlen, htr, hidx⟩

/-- C18: over `n` logical processors, the calls of a run that passed the safety check are
a prefix without `WritePState`, `GetCurrentPState` and `SetCurrentPState`, then for each
unit in ascending order the affinity switch, one `WritePState` for every table entry that
has a field set, in table order, and the optional `SetCPBDis`, then for each unit in
ascending order the affinity switch, `GetCurrentPState` and the selection calls, then the
restore of the priority.  Hence no `WritePState` follows a `GetCurrentPState` or
`SetCurrentPState`, and the `WritePState` calls of the run are the entries with a field set,
once for each unit.  The table is the one after the voltage derivation.  The run returns
whenever its tables are in bounds. -/
theorem C18_two_phase_ordering {σ : Type} (m : Machine σ) (info : Info) (w : Worker)
    (allow : Bool) (hw : σ) (n : Nat) (hn : ∀ hw : σ, m.dwNumberOfProcessors hw = n) :
    (∀ (w1 : Worker) (s : Sys σ),
      ApplyChanges m info w allow hw = some (true, w1, s) →
      (∃ (pre : List Call) (cs : List Int),
        cs.length = n ∧
        (∀ x ∈ pre, x.isWritePState = false ∧ x.isActiveState = false) ∧
        s.trace = pre ++
          (List.range n).flatMap (fun j => Call.SwitchTo j ::
            ((w1._pStates.filter anyFieldSet).map Call.WritePState ++
              boostDisableCalls info w1)) ++
          ((List.range n).zip cs).flatMap
            (fun jc => Call.SwitchTo jc.1 :: Call.GetCurrentPState :: selectCalls info w1 jc.2) ++
          [Call.SetThreadPriority false, Call.SetPriorityClass false]) ∧
      (∀ (before : List Call) (x : Call) (after : List Call),
        s.trace = before ++ x :: after → x.isActiveState = true →
        ∀ y ∈ after, y.isWritePState = false) ∧
      s.trace.filter Call.isWritePState =
        (List.range n).flatMap
          (fun _ => (w1._pStates.filter anyFieldSet).map Call.WritePState)) ∧
    (TablesInBounds m info w →
      ∃ (b : Bool) (w1 : Worker) (s : Sys σ),
        ApplyChanges m info w allow hw = some (b, w1, s)) := by
  refine ⟨?_, fun hb => ApplyChanges_returns m info w allow hw hb⟩
  intro w1 s h
  have hfe : anyFieldSet = ContainsChanges := funext fun p => (ContainsChanges_eq p).symm
  rw [hfe]
  obtain ⟨nb, n1, cs, hnb, _, hn1, hlen, _, htr, _⟩ :=
    ApplyChanges_units m info w w1 allow hw s h
  have hnn : n1 = n := by rw [hn1, hn]
  subst hnn
  obtain ⟨_, _, hkinds⟩ := filter_northbridge_steps nb hnb
  have hpre : ∀ x ∈ nb ++ [Call.ReadPState info.NumBoostStates] ++ (globalCalls info w1 ++
      [Call.GetSystemInfo, Call.SetPriorityClass true, Call.SetThreadPriority true]),
      x.isWritePState = false ∧ x.isActiveState = false := by
    intro x hx
    simp only [List.mem_append, List.mem_cons, List.mem_singleton] at hx
    rcases hx with (hx | hx) | (hx | hx)
    · exact ⟨(hkinds x hx).2.2.2, (hkinds x hx).2.2.1⟩
    · rcases hx with hx | hx
      · rw [hx]; exact ⟨rfl, rfl⟩
      · exact absurd hx (List.not_mem_nil x)
    · exact ⟨(globalCalls_kinds info w1 x hx).2.2.2, (globalCalls_kinds info w1 x hx).2.1⟩
    · rcases hx with hx | hx | hx | hx
      · rw [hx]; exact ⟨rfl, rfl⟩
      · rw [hx]; exact ⟨rfl, rfl⟩
      · rw [hx]; exact ⟨rfl, rfl⟩
      · exact absurd hx (List.not_mem_nil x)
  have hform : s.trace = (nb ++ [Call.ReadPState info.NumBoostStates] ++
      (globalCalls info w1 ++
      [Call.GetSystemInfo, Call.SetPriorityClass true, Call.SetThreadPriority true]) ++
      (List.range n1).flatMap (tableWriteCalls info w1)) ++
      (((List.range n1).zip cs).flatMap (activeStateCalls info w1) ++
      [Call.SetThreadPriority false, Call.SetPriorityClass false]) := by
    rw [htr]
    simp only [List.append_assoc]
  have hA : ∀ x ∈ nb ++ [Call.ReadPState info.NumBoostStates] ++
      (globalCalls info w1 ++
      [Call.GetSystemInfo, Call.SetPriorityClass true, Call.SetThreadPriority true]) ++
      (List.range n1).flatMap (tableWriteCalls info w1), x.isActiveState = false := by
    intro x hx
    rcases List.mem_append.1 hx with hx | hx
    · exact (hpre x hx).2
    · exact (tableWritePhase_kinds info w1 _ x hx).1
  have hB : ∀ y ∈ ((List.range n1).zip cs).flatMap (activeStateCalls info w1) ++
      [Call.SetThreadPriority false, Call.SetPriorityClass false],
      y.isWritePState = false := by
    intro y hy
    rcases List.mem_append.1 hy with hy | hy
    · exact (activeStatePhase_kinds info w1 _ cs y hy).1
    · simp only [List.mem_cons, List.mem_singleton] at hy
      rcases hy with hy | hy | hy
      · rw [hy]; rfl
      · rw [hy]; rfl
      · exact absurd hy (List.not_mem_nil y)
  refine ⟨⟨_, cs, hlen, hpre, ?_⟩, ?_, ?_⟩
  · rw [hform]
    simp only [List.append_assoc]
    rfl
  · intro before x after hsplit hx
    rw [hform] at hsplit
    exact no_q_after_p Call.isActiveState Call.isWritePState _ _ hA hB before x after hsplit hx
  · rw [hform, List.filter_append, filter_nil_of_forall Call.isWritePState _ hB,
      List.append_nil, List.filter_append,
      filter_nil_of_forall Call.isWritePState _ (fun x hx => (hpre x hx).1),
      List.nil_append, filter_tableWritePhase_write]

/-- C18 on `P0=20` with two P-states, on the machine with two logical processors: the run
passes the safety check and writes entry 0, the only one with a field set, with the
multiplier 20, once for each of the two units. -/
theorem C18_two_phase_ordering_witness :
    ∃ (w1 : Worker) (s : Sys Unit),
      ApplyChanges fixedMachine (simInfo 2)
        (ParseParams (simInfo 2) Worker.new [[], ['P', '0', '=', '2', '0']]).2 false ()
        = some (true, w1, s) ∧
      s.trace.filter Call.isWritePState =
        [Call.WritePState { Index := 0, Multi := 20, VID := -1, NBPState := -1, NBVID := -1 },
         Call.WritePState { Index := 0, Multi := 20, VID := -1, NBPState := -1, NBVID := -1 }] := by
  obtain ⟨b, w1, s, h⟩ := (C18_two_phase_ordering fixedMachine (simInfo 2)
    (ParseParams (simInfo 2) Worker.new [[], ['P', '0', '=', '2', '0']]).2 false () 2
    (fun _ => rfl)).2
    (tablesInBounds_fixedMachine _ _ rfl (by decide) (by decide))
  have hrun : (ApplyChanges fixedMachine (simInfo 2)
      (ParseParams (simInfo 2) Worker.new [[], ['P', '0', '=', '2', '0']]).2 false
      ()).map (fun r => (r.1, r.2.1)) = some (true,
        (ParseParams (simInfo 2) Worker.new [[], ['P', '0', '=', '2', '0']]).2) := by decide!
  rw [h] at hrun
  simp only [Option.map_some', Option.some.injEq, Prod.mk.injEq] at hrun
  obtain ⟨hb, hw1⟩ := hrun
  subst hb
  refine ⟨w1, s, h, ?_⟩
  rw [((C18_two_phase_ordering fixedMachine (simInfo 2)
    (ParseParams (simInfo 2) Worker.new [[], ['P', '0', '=', '2', '0']]).2 false () 2
    (fun _ => rfl)).1 w1 s h).2.2, hw1]
  decide!

end AmdMsrTweaker
